import Mathlib

/-!
# microwork: calibration statistics and loop-count extrapolation

A shallow embedding of `microwork_inline.c` / `microwork_inline.h`.

Numeric model.

* `uint64_t` values are natural numbers; arithmetic that can wrap is written
  with an explicit `% 2 ^ 64`.
* A finite `double`, `float` or `long double` is the rational number it
  denotes.  Every floating-point operation of the C code is the exact rational
  operation followed by `roundTo p`, IEEE-754 round-to-nearest, ties-to-even,
  to `p` significand bits (`p = 53` for `double`, `24` for `float`, `64` for the
  x87 `long double` of the x86-64 targets the inline assembly is written for).
  The exponent range is not modelled: all quantities below are built from
  64-bit integers by a bounded number of operations and stay far inside the
  range of every format.  `sqrt` is correctly rounded, as IEEE-754 requires.
* The C library function `pow` is not required to be correctly rounded, and
  the usual implementations are not.  The functions that call `pow (x, 2)`
  therefore take the library function `x ↦ pow (x, 2)` as a parameter
  `pow2 : ℚ → ℚ`.  What is assumed of it, where anything is, is
  `pow_faithful`: the result is one of the two `double`s that enclose the
  exact square (an error below one unit in the last place, and no error
  when the square is representable).  The correctly rounded square `fsq`,
  which is also what a compiler computes when it replaces `pow (x, 2)` by
  `x * x`, is one such function.
* A conversion from a floating value to `uint64_t` truncates toward zero and is
  undefined behaviour when the truncated value does not fit; undefined
  behaviour and `exit` are modelled by `none`.
-/

namespace Microwork

/-! ## Floating-point formats -/

/-- Significand bits of `double`. -/
def DBL_MANT_DIG : ℕ := 53

/-- Significand bits of `float`. -/
def FLT_MANT_DIG : ℕ := 24

/-- Significand bits of the x87 `long double`. -/
def LDBL_MANT_DIG : ℕ := 64

/-- Binary logarithm of a natural number, rounded down, by halving; the first
argument bounds the number of halvings. -/
def log2F : ℕ → ℕ → ℕ
  | 0, _ => 0
  | k + 1, n => if n < 2 then 0 else log2F k (n / 2) + 1

/-- The integer `L` with `2 ^ L ≤ |q| < 2 ^ (L + 1)`, for `q ≠ 0`. -/
def ilog2 (q : ℚ) : ℤ :=
  let n := q.num.natAbs
  let d := q.den
  let c : ℤ := (log2F n n : ℤ) - (log2F d d : ℤ)
  if (2 : ℚ) ^ c ≤ |q| then c else c - 1

/-- Nearest integer, ties to the even one. -/
def rne (x : ℚ) : ℤ :=
  let f := ⌊x⌋
  let r := x - f
  if r < 1 / 2 then f else if 1 / 2 < r then f + 1 else if f % 2 = 0 then f else f + 1

/-- Round a rational to the nearest binary floating-point number with `p`
significand bits, ties to even. -/
def roundTo (p : ℕ) (q : ℚ) : ℚ :=
  if q = 0 then 0 else
    let e : ℤ := ilog2 q - ((p : ℤ) - 1)
    (rne (q / (2 : ℚ) ^ e) : ℚ) * (2 : ℚ) ^ e

/-- The spacing exponent used by `roundTo p` at `q`. -/
def ulpExp (p : ℕ) (q : ℚ) : ℤ := ilog2 q - ((p : ℤ) - 1)

/-- Floating-point addition in a format with `p` significand bits. -/
def fadd (p : ℕ) (a b : ℚ) : ℚ := roundTo p (a + b)

/-- Floating-point subtraction. -/
def fsub (p : ℕ) (a b : ℚ) : ℚ := roundTo p (a - b)

/-- Floating-point multiplication. -/
def fmul (p : ℕ) (a b : ℚ) : ℚ := roundTo p (a * b)

/-- Floating-point division. -/
def fdiv (p : ℕ) (a b : ℚ) : ℚ := roundTo p (a / b)

/-- Conversion of an unsigned integer to a floating format. -/
def ofUInt (p : ℕ) (n : ℕ) : ℚ := roundTo p (n : ℚ)

/-- Conversion of an `int` to `double`; it is exact, an `int` has 31 value
bits. -/
def ofInt (n : ℤ) : ℚ := (n : ℚ)

/-- The correctly rounded square: `x * x` in floating-point arithmetic, and
`pow (x, 2)` of a correctly rounding library. -/
def fsq (p : ℕ) (x : ℚ) : ℚ := roundTo p (x * x)

/-- The largest floating-point number with `p` significand bits that is not
above `q`, for `q ≥ 0`. -/
def rdn (p : ℕ) (q : ℚ) : ℚ :=
  if q = 0 then 0 else (⌊q / (2 : ℚ) ^ ulpExp p q⌋ : ℚ) * (2 : ℚ) ^ ulpExp p q

/-- The smallest floating-point number with `p` significand bits that is not
below `q`, for `q ≥ 0`. -/
def rup (p : ℕ) (q : ℚ) : ℚ :=
  if q = 0 then 0 else (⌈q / (2 : ℚ) ^ ulpExp p q⌉ : ℚ) * (2 : ℚ) ^ ulpExp p q

/-- What is assumed of the library function `pow2 x = pow (x, 2)` on
`double`s: faithful rounding.  The result is the exact square rounded down or
rounded up to a `double`; it is the exact square when that is a `double`. -/
def pow_faithful (pow2 : ℚ → ℚ) : Prop :=
  ∀ x : ℚ, pow2 x = rdn DBL_MANT_DIG (x * x) ∨ pow2 x = rup DBL_MANT_DIG (x * x)

/-- Integer square root, rounded down, two bits at a time; the first argument
bounds the recursion depth. -/
def sqrtF : ℕ → ℕ → ℕ
  | 0, _ => 0
  | k + 1, n =>
    if n = 0 then 0
    else
      let r := 2 * sqrtF k (n / 4)
      if (r + 1) * (r + 1) ≤ n then r + 1 else r

/-- Floating-point square root, correctly rounded (ties to even) to `p`
significand bits; `sqrt` of a value that is not positive is taken as `0`
(the code only takes roots of non-negative quantities). -/
def fsqrt (p : ℕ) (q : ℚ) : ℚ :=
  if q ≤ 0 then 0 else
    let e : ℤ := ilog2 q / 2 - ((p : ℤ) - 1)
    let x : ℚ := q / (2 : ℚ) ^ (2 * e)
    let s : ℕ := sqrtF ⌊x⌋.toNat ⌊x⌋.toNat
    let t : ℚ := (s : ℚ) * s + s + 1 / 4
    let m : ℕ := if x < t then s else if t < x then s + 1 else if s % 2 = 0 then s else s + 1
    (m : ℚ) * (2 : ℚ) ^ e

/-- Conversion of a floating value to `uint64_t`: truncation toward zero,
undefined (`none`) when the truncated value is not representable. -/
def toUInt64 (d : ℚ) : Option ℕ :=
  if -1 < d ∧ d < 2 ^ 64 then some ⌊d⌋.toNat else none

/-! ## Data model -/

/-- Calibration results (`c_results_t`). -/
structure c_results_t where
  average : ℚ
  std_dev : ℚ
  min : ℕ
  max : ℕ
  calibration_cycles : ℕ
  target_nsec : ℕ
  loop_num : ℕ
  deriving DecidableEq, Repr

/-- The work loop selected at compile time by one of the `WORK_*` macros;
`WORK_UNKNOWN` stands for a build in which none of them is defined. -/
inductive work_t where
  | WORK_NULL
  | WORK_MXM
  | WORK_ASM_NOP
  | WORK_ASM_MUL
  | WORK_ASM_FADD
  | WORK_ASM_FMUL
  | WORK_UNKNOWN
  deriving DecidableEq, Repr

/-- The parametrized (instruction-loop) work kinds. -/
def work_t.isAsm : work_t → Bool
  | .WORK_ASM_NOP | .WORK_ASM_MUL | .WORK_ASM_FADD | .WORK_ASM_FMUL => true
  | _ => false

/-! ## `calc_loop_num` -/

/-- The function `calc_loop_num`: the updated result structure and the returned value;
`none` when the function does not return (`exit (-1)` for an unknown work
type, or an out-of-range conversion to `uint64_t`). -/
def calc_loop_num (work : work_t) (target_nsec : ℕ) (c_results : c_results_t) :
    Option (c_results_t × ℕ) :=
  let c := { c_results with target_nsec := target_nsec }
  if work = .WORK_NULL then some ({ c with loop_num := 0 }, 0)
  else if target_nsec = 0 then some ({ c with loop_num := 0 }, 0)
  else
    match toUInt64 c.average with
    | none => none
    | some avg_nsec =>
      if avg_nsec = 0 then some ({ c with loop_num := 0 }, 0)
      else
        match work with
        | .WORK_MXM =>
          let l := target_nsec / avg_nsec
          some ({ c with loop_num := l }, l)
        | .WORK_ASM_NOP | .WORK_ASM_MUL | .WORK_ASM_FADD | .WORK_ASM_FMUL =>
          match toUInt64 (fmul LDBL_MANT_DIG
              (fdiv LDBL_MANT_DIG (ofUInt LDBL_MANT_DIG target_nsec)
                (ofUInt LDBL_MANT_DIG avg_nsec))
              (ofUInt LDBL_MANT_DIG c.calibration_cycles)) with
          | none => none
          | some l => some ({ c with loop_num := l }, l)
        | _ => none

/-! ## `calc_stats` -/

/-- The `uint64_t` accumulation `for (...) sum += data[i]`. -/
def sum_u64 (data : List ℕ) : ℕ :=
  data.foldl (fun sum x => (sum + x) % 2 ^ 64) 0

/-- The average computed by `calc_stats` and `strip_std_dev`. -/
def average_of (data : List ℕ) : ℚ :=
  fdiv DBL_MANT_DIG (ofUInt DBL_MANT_DIG (sum_u64 data)) (ofInt data.length)

/-- One iteration of the second loop of `calc_stats`, on the state
`(v, min, max)`. -/
def calc_stats_step (pow2 : ℚ → ℚ) (average : ℚ) (st : ℚ × ℕ × ℕ) (x : ℕ) : ℚ × ℕ × ℕ :=
  (fadd DBL_MANT_DIG st.1 (pow2 (fsub DBL_MANT_DIG (ofUInt DBL_MANT_DIG x) average)),
   (if st.2.1 > x then x else st.2.1),
   (if st.2.2 < x then x else st.2.2))

/-- The call `calc_stats (data, length, c_results_ptr)` with `length = data.length`:
the result structure after the call, `pow2` being the library's `pow (x, 2)`.
`none` stands for undefined behaviour: `length = 0` makes the average a NaN,
and an average of `2 ^ 64` does not fit the conversion that seeds `min` and
`max`. -/
def calc_stats (pow2 : ℚ → ℚ) (data : List ℕ) (c_results : c_results_t) :
    Option c_results_t :=
  if data.length = 0 then none
  else
    let sum := sum_u64 data
    let average := fdiv DBL_MANT_DIG (ofUInt DBL_MANT_DIG sum) (ofInt data.length)
    match toUInt64 average with
    | none => none
    | some seed =>
      let st := data.foldl (calc_stats_step pow2 average) (0, seed, seed)
      some { c_results with
        average := average
        min := st.2.1
        max := st.2.2
        std_dev := fsqrt DBL_MANT_DIG
          (fdiv DBL_MANT_DIG st.1 (ofUInt FLT_MANT_DIG data.length)) }

/-! ## `strip_std_dev` -/

/-- The call `strip_std_dev (in_data, in_length, num_std_dev, verbose, out_data)` with
`in_length = in_data.length`: the returned `out_length` and the elements
written to `out_data[0 .. out_length - 1]`, `pow2` being the library's
`pow (x, 2)`.  The `verbose` printing has no effect on either and is left out.
(For an empty input the C average is a NaN that is never read.) -/
def strip_std_dev (pow2 : ℚ → ℚ) (in_data : List ℕ) (num_std_dev : ℤ) : ℕ × List ℕ :=
  let usum := sum_u64 in_data
  let average := fdiv DBL_MANT_DIG (ofUInt DBL_MANT_DIG usum) (ofInt in_data.length)
  let sum := in_data.foldl
    (fun sum x => fadd DBL_MANT_DIG sum
      (pow2 (fsub DBL_MANT_DIG (ofUInt DBL_MANT_DIG x) average))) 0
  let std_dev := fsqrt DBL_MANT_DIG (fdiv DBL_MANT_DIG sum (ofInt in_data.length))
  let out_data := in_data.foldl
    (fun out x =>
      if ¬ (ofUInt DBL_MANT_DIG x >
              fadd DBL_MANT_DIG average (fmul DBL_MANT_DIG (ofInt num_std_dev) std_dev)
            ∨ ofUInt DBL_MANT_DIG x <
              fsub DBL_MANT_DIG average (fmul DBL_MANT_DIG (ofInt num_std_dev) std_dev))
          ∨ num_std_dev = 0
      then out ++ [x] else out) []
  (out_data.length, out_data)

/-- The standard deviation computed by `strip_std_dev` (divisor
`(double) in_length`). -/
def std_dev_of (pow2 : ℚ → ℚ) (data : List ℕ) : ℚ :=
  fsqrt DBL_MANT_DIG (fdiv DBL_MANT_DIG
    (data.foldl
      (fun sum x => fadd DBL_MANT_DIG sum
        (pow2 (fsub DBL_MANT_DIG (ofUInt DBL_MANT_DIG x) (average_of data)))) 0)
    (ofInt data.length))

/-- The retention test of `strip_std_dev`: `num_std_dev` is zero, or the sample
(as a `double`) is neither above `average + num_std_dev * std_dev` nor below
`average - num_std_dev * std_dev`, both bounds evaluated in `double`
arithmetic. -/
def strip_keeps (pow2 : ℚ → ℚ) (data : List ℕ) (num_std_dev : ℤ) (x : ℕ) : Prop :=
  num_std_dev = 0 ∨
    (fsub DBL_MANT_DIG (average_of data)
        (fmul DBL_MANT_DIG (ofInt num_std_dev) (std_dev_of pow2 data)) ≤ ofUInt DBL_MANT_DIG x ∧
      ofUInt DBL_MANT_DIG x ≤ fadd DBL_MANT_DIG (average_of data)
        (fmul DBL_MANT_DIG (ofInt num_std_dev) (std_dev_of pow2 data)))

instance (pow2 : ℚ → ℚ) (data : List ℕ) (num_std_dev : ℤ) (x : ℕ) :
    Decidable (strip_keeps pow2 data num_std_dev x) := by
  unfold strip_keeps
  exact inferInstance

/-! ## The statistics the specification names -/

/-- The arithmetic mean of the samples. -/
def mean (data : List ℕ) : ℚ := (data.sum : ℚ) / (data.length : ℚ)

/-- The sum of the squared deviations of the samples from their mean. -/
def sq_dev_sum (data : List ℕ) : ℚ :=
  (data.map (fun (x : ℕ) => ((x : ℚ) - mean data) ^ 2)).sum

/-- That `s` is the population standard deviation of the samples: it is
non-negative and `s ^ 2 * n` is the sum of the squared deviations. -/
def IsPopStdDev (data : List ℕ) (s : ℚ) : Prop :=
  0 ≤ s ∧ s ^ 2 * (data.length : ℚ) = sq_dev_sum data

/-- The squared deviation of a sample from an integer mean, as a natural
number. -/
def sq_dev (μ x : ℕ) : ℕ := ((x : ℤ) - (μ : ℤ)).natAbs * ((x : ℤ) - (μ : ℤ)).natAbs

/-- The double that a decimal constant of the C language denotes. -/
def dbl (q : ℚ) : ℚ := roundTo DBL_MANT_DIG q

/-! ## `timespec_sub` -/

/-- The C `struct timespec` of the 64-bit targets: `time_t tv_sec` and
`long tv_nsec` are both 64-bit signed integers. -/
structure timespec where
  tv_sec : ℤ
  tv_nsec : ℤ
  deriving DecidableEq, Repr

/-- Nanoseconds per second (`NSEC_PER_SEC`). -/
def NSEC_PER_SEC : ℤ := 1000000000

/-- The values of a 64-bit `long`. -/
def in_long (z : ℤ) : Prop := -2 ^ 63 ≤ z ∧ z < 2 ^ 63

instance (z : ℤ) : Decidable (in_long z) := by
  unfold in_long
  exact inferInstance

/-- The function `timespec_sub (a, b)`: both `(NSEC_PER_SEC * tv_sec) + tv_nsec`
are evaluated in `long` arithmetic, where overflow is undefined behaviour
(`none`); the results are converted to `uint64_t` and subtracted modulo
`2 ^ 64`. -/
def timespec_sub (a b : timespec) : Option ℕ :=
  if in_long (NSEC_PER_SEC * b.tv_sec) ∧ in_long (NSEC_PER_SEC * b.tv_sec + b.tv_nsec) ∧
      in_long (NSEC_PER_SEC * a.tv_sec) ∧ in_long (NSEC_PER_SEC * a.tv_sec + a.tv_nsec) then
    let ret : ℤ := (NSEC_PER_SEC * b.tv_sec + b.tv_nsec) % 2 ^ 64
    some ((ret - (NSEC_PER_SEC * a.tv_sec + a.tv_nsec) % 2 ^ 64) % 2 ^ 64).toNat
  else none

/-- The elapsed nanoseconds `end - start` between two time stamps. -/
def elapsed (a b : timespec) : ℤ :=
  (b.tv_sec - a.tv_sec) * 10 ^ 9 + (b.tv_nsec - a.tv_nsec)

/-- A normalized time stamp with non-negative seconds. -/
def normalized (a : timespec) : Prop := 0 ≤ a.tv_sec ∧ 0 ≤ a.tv_nsec ∧ a.tv_nsec < 10 ^ 9

/-- Time stamp `a` is not later than `b`. -/
def not_later (a b : timespec) : Prop :=
  a.tv_sec < b.tv_sec ∨ (a.tv_sec = b.tv_sec ∧ a.tv_nsec ≤ b.tv_nsec)

/-! ## `calibrate` -/

/-- The rest type `REST_SLEEP` of `enum rest_e`. -/
def REST_SLEEP : ℤ := 0

/-- The rest type `REST_DEV_NULL` of `enum rest_e`. -/
def REST_DEV_NULL : ℤ := 1

/-- Iterations of the `/dev/null` rest (`SLEEP_CYCLES`). -/
def SLEEP_CYCLES : ℕ := 10000000

/-- What `calibrate` does that is visible from outside, in program order. -/
inductive event where
  /-- One execution of the work unit between the two clock readings of a
  trial, with the value of the local `loop_num`. -/
  | work (loop_num : ℤ)
  /-- The call `sleep (1)`. -/
  | sleep
  /-- The call `rest_dev_null (iters)`. -/
  | rest_dev_null (iters : ℕ)
  /-- The message `ERROR -- unknown work type.` -/
  | error_unknown_work
  /-- The message `ERROR -- unknown rest type.` -/
  | error_unknown_rest
  /-- The message `Failure getting start clock time.` or
  `Failure getting end clock time.` -/
  | error_clock
  deriving DecidableEq, Repr

/-- Conversion of a `uint64_t` to `int` (`int loop_num = cycles_per_trial`):
reduction modulo `2 ^ 32` into the range of `int`. -/
def toInt32 (n : ℕ) : ℤ :=
  if n % 2 ^ 32 < 2 ^ 31 then ((n % 2 ^ 32 : ℕ) : ℤ) else ((n % 2 ^ 32 : ℕ) : ℤ) - 2 ^ 32

/-- The `switch (rest_type)` at the end of every trial. -/
def rest (rest_type : ℤ) : List event :=
  if rest_type = REST_SLEEP then [.sleep]
  else if rest_type = REST_DEV_NULL then [.rest_dev_null SLEEP_CYCLES]
  else [.error_unknown_rest, .sleep]

/-- How the trial loop of `calibrate` ends. -/
inductive trials_end where
  /-- The loop ran to completion with these retained samples. -/
  | finished (results : List ℕ)
  /-- A clock reading failed and `calibrate` returned at once. -/
  | clock_failed
  /-- Undefined behaviour (overflow in `timespec_sub`). -/
  | undefined
  deriving DecidableEq, Repr

/-- The loop `for (t = 0; t < num_trials + 1; t++)` of `calibrate`, from trial
`t` on with `remaining` trials to go.  The `k`-th call of `clock_gettime`
returns `clock k`, `none` standing for the return value `-1`; trial `t` makes
the calls `2 * t` and `2 * t + 1`.  The state is the samples stored so far in
`results` and the events so far. -/
def calibrate_trials (loop_num : ℤ) (rest_type : ℤ) (clock : ℕ → Option timespec) :
    (remaining : ℕ) → (t : ℕ) → (results : List ℕ) → (trace : List event) →
      List event × trials_end
  | 0, _, results, trace => (trace, .finished results)
  | remaining + 1, t, results, trace =>
    match clock (2 * t) with
    | none => (trace ++ [.error_clock], .clock_failed)
    | some start =>
      match clock (2 * t + 1) with
      | none => (trace ++ [.work loop_num, .error_clock], .clock_failed)
      | some finish =>
        if t > 0 then
          match timespec_sub start finish with
          | none => (trace ++ [.work loop_num], .undefined)
          | some d =>
            calibrate_trials loop_num rest_type clock remaining (t + 1) (results ++ [d])
              (trace ++ [.work loop_num] ++ rest rest_type)
        else
          calibrate_trials loop_num rest_type clock remaining (t + 1) results
            (trace ++ [.work loop_num] ++ rest rest_type)

/-- The result structure as filled in at the start of `calibrate`. -/
def default_results (cycles_per_trial : ℕ) : c_results_t :=
  ⟨0, 0, 0, 0, cycles_per_trial, 0, 0⟩

/-- The largest value of the type `int`. -/
def INT_MAX : ℕ := 2147483647

/-- The function `calibrate (num_trials, cycles_per_trial, rest_type, verbose,
c_results_ptr)` for `num_trials ≥ 0`: the events in program order and the
result structure on return, `none` if the behaviour is undefined (the `int`
sum `num_trials + 1` of the loop condition overflows for
`num_trials = INT_MAX`).  The `verbose` printing is left out, `malloc` is
taken to succeed; `pow2` is the library's `pow (x, 2)`, which `calc_stats`
calls. -/
def calibrate (pow2 : ℚ → ℚ) (work : work_t) (num_trials : ℕ) (cycles_per_trial : ℕ)
    (rest_type : ℤ) (clock : ℕ → Option timespec) : List event × Option c_results_t :=
  match work with
  | .WORK_NULL => ([], some (default_results cycles_per_trial))
  | .WORK_UNKNOWN => ([.error_unknown_work], some (default_results cycles_per_trial))
  | _ =>
    let loop_num : ℤ := if work = .WORK_MXM then 1 else toInt32 cycles_per_trial
    if num_trials < INT_MAX then
      match calibrate_trials loop_num rest_type clock (num_trials + 1) 0 [] [] with
      | (trace, .finished results) =>
        (trace, calc_stats pow2 results (default_results cycles_per_trial))
      | (trace, .clock_failed) => (trace, some (default_results cycles_per_trial))
      | (trace, .undefined) => (trace, none)
    else ([], none)

/-- The number of executions of the work unit among the events. -/
def count_trials (trace : List event) : ℕ :=
  (trace.filter (fun e => match e with | .work _ => true | _ => false)).length

/-- The work kinds for which `calibrate` runs trials. -/
def work_t.calibrates (work : work_t) : Bool := work = .WORK_MXM || work.isAsm

/-- The events of `n` complete trials: each is one execution of the work unit
followed by the rest. -/
def trial_events (loop_num : ℤ) (rest_type : ℤ) : ℕ → List event
  | 0 => []
  | n + 1 => [.work loop_num] ++ rest rest_type ++ trial_events loop_num rest_type n

/-- The value of the local `loop_num` of `calibrate`. -/
def calibrate_loop_num (work : work_t) (cycles_per_trial : ℕ) : ℤ :=
  if work = .WORK_MXM then 1 else toInt32 cycles_per_trial

/-- The samples have the integer mean `μ` and the integer population standard
deviation `s`, and their sum and the sum of their squared deviations are at
most `2 ^ 53`: every `double` operation of the statistics is then exact. -/
def exact_stats (data : List ℕ) (μ s : ℕ) : Prop :=
  mean data = (μ : ℚ) ∧ data.sum ≤ 2 ^ 53 ∧
    sq_dev_sum data = (data.length : ℚ) * (s : ℚ) ^ 2 ∧ sq_dev_sum data ≤ 2 ^ 53

/-! ## Rounding error -/

/-- The factor `1 - 2 ^ (-53)`: rounding a non-negative value to `double`
multiplies it by a factor between this and its inverse. -/
def one_sub_u : ℚ := 1 - 1 / 2 ^ 53

/-- That `z` is `y` up to `j` roundings: `(1 - 2 ^ (-53)) ^ j * y ≤ z` and
`(1 - 2 ^ (-53)) ^ j * z ≤ y`. -/
def approx (j : ℕ) (y z : ℚ) : Prop := one_sub_u ^ j * y ≤ z ∧ one_sub_u ^ j * z ≤ y

/-- The exact sum of the squared deviations of the samples, as converted to
`double`, from a centre `a`. -/
def sq_dev_about (a : ℚ) (data : List ℕ) : ℚ :=
  (data.map (fun (x : ℕ) => (ofUInt DBL_MANT_DIG x - a) ^ 2)).sum

/-! ## Enumerating the results of a faithful `pow (x, 2)` -/

/-- A function that squares with a chosen rounding direction on listed
arguments (`true` rounds up, `false` rounds down) and is the correctly rounded
square elsewhere. -/
def pow_choice : List (ℚ × Bool) → ℚ → ℚ
  | [], x => fsq DBL_MANT_DIG x
  | (d, up) :: t, x =>
    if x = d then (if up then rup DBL_MANT_DIG (x * x) else rdn DBL_MANT_DIG (x * x))
    else pow_choice t x

/-- All lists of Booleans of a given length. -/
def bool_lists : ℕ → List (List Bool)
  | 0 => [[]]
  | n + 1 => (bool_lists n).map (fun bs => false :: bs) ++ (bool_lists n).map (fun bs => true :: bs)

/-- The distinct arguments with which `calc_stats` and `strip_std_dev` call
`pow (x, 2)` on the samples `data`: the deviations from the average. -/
def deviations (data : List ℕ) : List ℚ :=
  (data.map (fun x => fsub DBL_MANT_DIG (ofUInt DBL_MANT_DIG x) (average_of data))).dedup

/-! ## The band of `strip_std_dev` in exact arithmetic -/

/-- The sample `x` lies inside the band with a margin for rounding: with `a`
the computed average, `n` the number of samples and `W` the exact sum of the
squared deviations from `a`,
`n * (x - a) ^ 2 ≤ (1 - 2 ^ (-53)) ^ (n + 10) * k ^ 2 * W`. -/
def inside_band (data : List ℕ) (k : ℤ) (x : ℕ) : Prop :=
  (data.length : ℚ) * (ofUInt DBL_MANT_DIG x - average_of data) ^ 2
    ≤ one_sub_u ^ (data.length + 10) * ((k : ℚ) ^ 2 * sq_dev_about (average_of data) data)

instance (data : List ℕ) (k : ℤ) (x : ℕ) : Decidable (inside_band data k x) := by
  unfold inside_band
  exact inferInstance

/-- The sample `x` lies above the band with a margin for rounding:
`(1 - 2 ^ (-53)) * x > a` and
`(1 - 2 ^ (-53)) ^ (n + 10) * n * ((1 - 2 ^ (-53)) * x - a) ^ 2 > k ^ 2 * W`. -/
def above_band (data : List ℕ) (k : ℤ) (x : ℕ) : Prop :=
  average_of data < one_sub_u * ofUInt DBL_MANT_DIG x ∧
    (k : ℚ) ^ 2 * sq_dev_about (average_of data) data
      < one_sub_u ^ (data.length + 10) * ((data.length : ℚ)
          * (one_sub_u * ofUInt DBL_MANT_DIG x - average_of data) ^ 2)

instance (data : List ℕ) (k : ℤ) (x : ℕ) : Decidable (above_band data k x) := by
  unfold above_band
  exact inferInstance

/-- The sample `x` lies below the band with a margin for rounding:
`x < (1 - 2 ^ (-53)) * a` and
`(1 - 2 ^ (-53)) ^ (n + 10) * n * ((1 - 2 ^ (-53)) * a - x) ^ 2 > k ^ 2 * W`. -/
def below_band (data : List ℕ) (k : ℤ) (x : ℕ) : Prop :=
  ofUInt DBL_MANT_DIG x < one_sub_u * average_of data ∧
    (k : ℚ) ^ 2 * sq_dev_about (average_of data) data
      < one_sub_u ^ (data.length + 10) * ((data.length : ℚ)
          * (one_sub_u * average_of data - ofUInt DBL_MANT_DIG x) ^ 2)

instance (data : List ℕ) (k : ℤ) (x : ℕ) : Decidable (below_band data k x) := by
  unfold below_band
  exact inferInstance

/-- The sample `x` lies within `k` population standard deviations of the mean
with a margin for rounding: with `μ` the mean, `n` the number of samples and
`V` the sum of the squared deviations from the mean,
`n * (|x - μ| + μ * 2 ^ (-53)) ^ 2 ≤ (1 - 2 ^ (-53)) ^ (n + 10) * k ^ 2 * V`. -/
def inside_exact_band (data : List ℕ) (k : ℤ) (x : ℕ) : Prop :=
  (data.length : ℚ) * (|(x : ℚ) - mean data| + mean data / 2 ^ 53) ^ 2
    ≤ one_sub_u ^ (data.length + 10) * ((k : ℚ) ^ 2 * sq_dev_sum data)

instance (data : List ℕ) (k : ℤ) (x : ℕ) : Decidable (inside_exact_band data k x) := by
  unfold inside_exact_band
  exact inferInstance


/-! ## Facts about rounding -/

theorem log2F_spec : ∀ (k n : ℕ), n ≤ k → 1 ≤ n →
    2 ^ log2F k n ≤ n ∧ n < 2 ^ (log2F k n + 1)
  | 0, n, h, h1 => by omega
  | k + 1, n, h, h1 => by
    unfold log2F
    split_ifs with h2
    · constructor <;> simp <;> omega
    · have ih := log2F_spec k (n / 2) (by omega) (by omega)
      obtain ⟨ih1, ih2⟩ := ih
      constructor
      · rw [pow_succ]; omega
      · rw [pow_succ]; omega

theorem ilog2_spec (q : ℚ) (hq : q ≠ 0) :
    (2 : ℚ) ^ ilog2 q ≤ |q| ∧ |q| < (2 : ℚ) ^ (ilog2 q + 1) := by
  have hn : 1 ≤ q.num.natAbs := by
    have : q.num ≠ 0 := Rat.num_ne_zero.mpr hq
    omega
  have hd : 1 ≤ q.den := q.den_pos
  obtain ⟨a1, a2⟩ := log2F_spec _ _ le_rfl hn
  obtain ⟨b1, b2⟩ := log2F_spec _ _ le_rfl hd
  set a := log2F q.num.natAbs q.num.natAbs
  set b := log2F q.den q.den
  have habs : |q| = (q.num.natAbs : ℚ) / (q.den : ℚ) := by
    conv_lhs => rw [← Rat.num_div_den q]
    rw [abs_div, Nat.abs_cast, Nat.cast_natAbs, Int.cast_abs]
  have hdq : (0 : ℚ) < q.den := by exact_mod_cast hd
  have a1q : (2 : ℚ) ^ (a : ℤ) ≤ (q.num.natAbs : ℚ) := by
    rw [zpow_natCast]; exact_mod_cast a1
  have a2q : (q.num.natAbs : ℚ) < (2 : ℚ) ^ ((a : ℤ) + 1) := by
    rw [show ((a : ℤ) + 1) = ((a + 1 : ℕ) : ℤ) by push_cast; ring, zpow_natCast]
    exact_mod_cast a2
  have b1q : (2 : ℚ) ^ (b : ℤ) ≤ (q.den : ℚ) := by
    rw [zpow_natCast]; exact_mod_cast b1
  have b2q : (q.den : ℚ) < (2 : ℚ) ^ ((b : ℤ) + 1) := by
    rw [show ((b : ℤ) + 1) = ((b + 1 : ℕ) : ℤ) by push_cast; ring, zpow_natCast]
    exact_mod_cast b2
  have two_pos : ∀ z : ℤ, (0 : ℚ) < (2 : ℚ) ^ z := fun z => zpow_pos (by norm_num) z
  unfold ilog2
  simp only []
  split_ifs with h
  · refine ⟨h, ?_⟩
    rw [habs, div_lt_iff₀ hdq]
    calc (q.num.natAbs : ℚ) < (2 : ℚ) ^ ((a : ℤ) + 1) := a2q
      _ = (2 : ℚ) ^ ((a : ℤ) - (b : ℤ) + 1) * (2 : ℚ) ^ (b : ℤ) := by
          rw [← zpow_add₀ (by norm_num : (2 : ℚ) ≠ 0)]; congr 1; ring
      _ ≤ (2 : ℚ) ^ ((a : ℤ) - (b : ℤ) + 1) * (q.den : ℚ) :=
          mul_le_mul_of_nonneg_left b1q (two_pos _).le
  · push_neg at h
    refine ⟨?_, by simpa using h⟩
    rw [habs, le_div_iff₀ hdq]
    calc (2 : ℚ) ^ ((a : ℤ) - (b : ℤ) - 1) * (q.den : ℚ)
        ≤ (2 : ℚ) ^ ((a : ℤ) - (b : ℤ) - 1) * (2 : ℚ) ^ ((b : ℤ) + 1) :=
          mul_le_mul_of_nonneg_left b2q.le (two_pos _).le
      _ = (2 : ℚ) ^ (a : ℤ) := by
          rw [← zpow_add₀ (by norm_num : (2 : ℚ) ≠ 0)]; congr 1; ring
      _ ≤ (q.num.natAbs : ℚ) := a1q


theorem two_zpow_pos (z : ℤ) : (0 : ℚ) < (2 : ℚ) ^ z := zpow_pos (by norm_num) z

theorem ilog2_eq (q : ℚ) (L : ℤ) (h1 : (2 : ℚ) ^ L ≤ |q|) (h2 : |q| < (2 : ℚ) ^ (L + 1)) :
    ilog2 q = L := by
  have hq : q ≠ 0 := by
    intro h0
    rw [h0, abs_zero] at h1
    exact absurd h1 (not_le.mpr (two_zpow_pos L))
  obtain ⟨s1, s2⟩ := ilog2_spec q hq
  have c1 : ilog2 q < L + 1 :=
    (zpow_lt_zpow_iff_right₀ (by norm_num : (1 : ℚ) < 2)).mp (lt_of_le_of_lt s1 h2)
  have c2 : L < ilog2 q + 1 :=
    (zpow_lt_zpow_iff_right₀ (by norm_num : (1 : ℚ) < 2)).mp (lt_of_le_of_lt h1 s2)
  omega

theorem floor_le_rne (x : ℚ) : ⌊x⌋ ≤ rne x := by
  unfold rne
  simp only []
  split_ifs <;> omega

theorem rne_le_floor_add_one (x : ℚ) : rne x ≤ ⌊x⌋ + 1 := by
  unfold rne
  simp only []
  split_ifs <;> omega

theorem rne_intCast (z : ℤ) : rne (z : ℚ) = z := by
  unfold rne
  simp

theorem le_rne {z : ℤ} {x : ℚ} (h : (z : ℚ) ≤ x) : z ≤ rne x :=
  le_trans (Int.le_floor.mpr h) (floor_le_rne x)

theorem rne_le {z : ℤ} {x : ℚ} (h : x ≤ (z : ℚ)) : rne x ≤ z := by
  have hf : ⌊x⌋ ≤ z := by
    have : (⌊x⌋ : ℚ) ≤ z := le_trans (Int.floor_le x) h
    exact_mod_cast this
  rcases eq_or_lt_of_le hf with heq | hlt
  · have hx : x = (z : ℚ) := le_antisymm h (by rw [← heq]; exact Int.floor_le x)
    rw [hx, rne_intCast]
  · exact le_trans (rne_le_floor_add_one x) (by omega)

theorem abs_rne_sub_le (x : ℚ) : |(rne x : ℚ) - x| ≤ 1 / 2 := by
  have h1 := Int.floor_le x
  have h2 := Int.lt_floor_add_one x
  unfold rne
  simp only []
  rw [abs_le]
  split_ifs with c1 c2 c3
  · constructor <;> linarith
  · push_cast; constructor <;> linarith
  · push_neg at c1 c2; constructor <;> linarith
  · push_neg at c1 c2; push_cast; constructor <;> linarith

theorem roundTo_of_ne_zero (p : ℕ) {q : ℚ} (hq : q ≠ 0) :
    roundTo p q = (rne (q / (2 : ℚ) ^ ulpExp p q) : ℚ) * (2 : ℚ) ^ ulpExp p q := by
  unfold roundTo ulpExp
  simp [hq]

theorem roundTo_zero (p : ℕ) : roundTo p 0 = 0 := by
  unfold roundTo
  simp

/-- Rounding never crosses a multiple of the spacing: from below. -/
theorem le_roundTo_of_grid (p : ℕ) {q : ℚ} (hq : q ≠ 0) (z : ℤ)
    (h : (z : ℚ) * (2 : ℚ) ^ ulpExp p q ≤ q) :
    (z : ℚ) * (2 : ℚ) ^ ulpExp p q ≤ roundTo p q := by
  rw [roundTo_of_ne_zero p hq]
  have hpos := two_zpow_pos (ulpExp p q)
  have hz : (z : ℚ) ≤ q / (2 : ℚ) ^ ulpExp p q := (le_div_iff₀ hpos).mpr h
  have := le_rne hz
  exact mul_le_mul_of_nonneg_right (by exact_mod_cast this) hpos.le

/-- Rounding never crosses a multiple of the spacing: from above. -/
theorem roundTo_le_of_grid (p : ℕ) {q : ℚ} (hq : q ≠ 0) (z : ℤ)
    (h : q ≤ (z : ℚ) * (2 : ℚ) ^ ulpExp p q) :
    roundTo p q ≤ (z : ℚ) * (2 : ℚ) ^ ulpExp p q := by
  rw [roundTo_of_ne_zero p hq]
  have hpos := two_zpow_pos (ulpExp p q)
  have hz : q / (2 : ℚ) ^ ulpExp p q ≤ (z : ℚ) := (div_le_iff₀ hpos).mpr h
  have := rne_le hz
  exact mul_le_mul_of_nonneg_right (by exact_mod_cast this) hpos.le

theorem roundTo_nonneg (p : ℕ) {q : ℚ} (h : 0 ≤ q) : 0 ≤ roundTo p q := by
  rcases eq_or_lt_of_le h with h0 | hpos
  · rw [← h0, roundTo_zero]
  · have := le_roundTo_of_grid p (ne_of_gt hpos) 0 (by simpa using h)
    simpa using this


theorem grid_mul (e j : ℤ) (hj : e ≤ j) (g : ℤ) :
    ∃ z : ℤ, (z : ℚ) * (2 : ℚ) ^ e = (g : ℚ) * (2 : ℚ) ^ j := by
  refine ⟨g * 2 ^ (j - e).toNat, ?_⟩
  have hk : (((j - e).toNat : ℕ) : ℤ) = j - e := Int.toNat_of_nonneg (by omega)
  push_cast
  rw [mul_assoc, ← zpow_natCast, hk, ← zpow_add₀ (by norm_num : (2 : ℚ) ≠ 0)]
  congr 2
  ring

theorem two_pow_ilog2_le (p : ℕ) (hp : 1 ≤ p) {q : ℚ} (hq : 0 < q) :
    (2 : ℚ) ^ ilog2 q ≤ roundTo p q := by
  have hne : q ≠ 0 := ne_of_gt hq
  obtain ⟨s1, _⟩ := ilog2_spec q hne
  rw [abs_of_pos hq] at s1
  obtain ⟨z, hz⟩ := grid_mul (ulpExp p q) (ilog2 q) (by unfold ulpExp; omega) 1
  simp only [Int.cast_one, one_mul] at hz
  have := le_roundTo_of_grid p hne z (by rw [hz]; exact s1)
  rwa [hz] at this

theorem roundTo_le_two_pow (p : ℕ) {q : ℚ} (hq : 0 < q) :
    roundTo p q ≤ (2 : ℚ) ^ (ilog2 q + 1) := by
  have hne : q ≠ 0 := ne_of_gt hq
  obtain ⟨_, s2⟩ := ilog2_spec q hne
  rw [abs_of_pos hq] at s2
  obtain ⟨z, hz⟩ := grid_mul (ulpExp p q) (ilog2 q + 1) (by unfold ulpExp; omega) 1
  simp only [Int.cast_one, one_mul] at hz
  have := roundTo_le_of_grid p hne z (by rw [hz]; exact s2.le)
  rwa [hz] at this

/-- Rounding does not cross an integer of at most `p` bits: from below. -/
theorem nat_le_roundTo (p : ℕ) (hp : 1 ≤ p) (g : ℕ) (hg : g ≤ 2 ^ p) {q : ℚ}
    (h : (g : ℚ) ≤ q) :
    (g : ℚ) ≤ roundTo p q := by
  have h0 : (0 : ℚ) ≤ q := le_trans (Nat.cast_nonneg g) h
  rcases Nat.eq_zero_or_pos g with rfl | hgpos
  · simpa using roundTo_nonneg p h0
  have hq : 0 < q := lt_of_lt_of_le (by exact_mod_cast hgpos) h
  have hne : q ≠ 0 := ne_of_gt hq
  by_cases he : ulpExp p q ≤ 0
  · obtain ⟨z, hz⟩ := grid_mul (ulpExp p q) 0 he g
    simp only [Int.cast_natCast, zpow_zero, mul_one] at hz
    have := le_roundTo_of_grid p hne z (by rw [hz]; exact h)
    rwa [hz] at this
  · have hL : (p : ℤ) ≤ ilog2 q := by unfold ulpExp at he; omega
    calc (g : ℚ) ≤ (2 : ℚ) ^ (p : ℤ) := by rw [zpow_natCast]; exact_mod_cast hg
      _ ≤ (2 : ℚ) ^ ilog2 q := zpow_le_zpow_right₀ (by norm_num) hL
      _ ≤ roundTo p q := two_pow_ilog2_le p hp hq

/-- Rounding does not cross an integer of at most `p` bits: from above. -/
theorem roundTo_le_nat (p : ℕ) (hp : 1 ≤ p) (g : ℕ) (hg : g ≤ 2 ^ p) {q : ℚ} (h0 : 0 ≤ q)
    (h : q ≤ (g : ℚ)) : roundTo p q ≤ (g : ℚ) := by
  rcases eq_or_lt_of_le h0 with hz | hq
  · rw [← hz, roundTo_zero]; exact Nat.cast_nonneg g
  have hne : q ≠ 0 := ne_of_gt hq
  obtain ⟨s1, _⟩ := ilog2_spec q hne
  rw [abs_of_pos hq] at s1
  have hgq : (g : ℚ) ≤ (2 : ℚ) ^ (p : ℤ) := by rw [zpow_natCast]; exact_mod_cast hg
  have hL : ilog2 q ≤ (p : ℤ) :=
    (zpow_le_zpow_iff_right₀ (by norm_num : (1 : ℚ) < 2)).mp (le_trans s1 (le_trans h hgq))
  by_cases he : ulpExp p q ≤ 0
  · obtain ⟨z, hz⟩ := grid_mul (ulpExp p q) 0 he g
    simp only [Int.cast_natCast, zpow_zero, mul_one] at hz
    have := roundTo_le_of_grid p hne z (by rw [hz]; exact h)
    rwa [hz] at this
  · have hLp : ilog2 q = (p : ℤ) := by unfold ulpExp at he; omega
    have hqeq : q = (2 : ℚ) ^ (p : ℤ) := by
      rw [hLp] at s1
      exact le_antisymm (le_trans h hgq) s1
    have hgeq : (g : ℚ) = (2 : ℚ) ^ (p : ℤ) := le_antisymm hgq (by rw [← hqeq]; exact h)
    have hle : ulpExp p q ≤ (p : ℤ) := by
      unfold ulpExp
      omega
    obtain ⟨z, hz⟩ := grid_mul (ulpExp p q) (p : ℤ) hle 1
    simp only [Int.cast_one, one_mul] at hz
    have := roundTo_le_of_grid p hne z (by rw [hz]; exact hqeq.le)
    rw [hz] at this
    rw [hgeq]; exact this

/-- Integers of at most `p` bits are representable: rounding leaves them alone. -/
theorem roundTo_natCast (p : ℕ) (hp : 1 ≤ p) (n : ℕ) (hn : n ≤ 2 ^ p) :
    roundTo p (n : ℚ) = (n : ℚ) :=
  le_antisymm (roundTo_le_nat p hp n hn (Nat.cast_nonneg n) le_rfl)
    (nat_le_roundTo p hp n hn le_rfl)


/-! ## Facts about the conversion to `uint64_t` -/

theorem toUInt64_of_nonneg {d : ℚ} (h0 : 0 ≤ d) (h1 : d < 2 ^ 64) :
    toUInt64 d = some ⌊d⌋.toNat := by
  unfold toUInt64
  rw [if_pos ⟨by linarith, h1⟩]

theorem toUInt64_natCast (n : ℕ) (h : n < 2 ^ 64) : toUInt64 (n : ℚ) = some n := by
  rw [toUInt64_of_nonneg (Nat.cast_nonneg n) (by exact_mod_cast h)]
  simp

theorem floor_toNat_le {d : ℚ} (h0 : 0 ≤ d) : ((⌊d⌋.toNat : ℕ) : ℚ) ≤ d := by
  have hf : 0 ≤ ⌊d⌋ := Int.floor_nonneg.mpr h0
  have : ((⌊d⌋.toNat : ℕ) : ℤ) = ⌊d⌋ := Int.toNat_of_nonneg hf
  calc ((⌊d⌋.toNat : ℕ) : ℚ) = ((⌊d⌋.toNat : ℤ) : ℚ) := by push_cast; rfl
    _ = (⌊d⌋ : ℚ) := by rw [this]
    _ ≤ d := Int.floor_le d

theorem lt_floor_toNat_add_one (d : ℚ) : d < ((⌊d⌋.toNat : ℕ) : ℚ) + 1 := by
  have h1 : (⌊d⌋ : ℤ) ≤ ((⌊d⌋.toNat : ℕ) : ℤ) := Int.self_le_toNat _
  have h2 : (⌊d⌋ : ℚ) ≤ ((⌊d⌋.toNat : ℕ) : ℚ) := by exact_mod_cast h1
  linarith [Int.lt_floor_add_one d]

/-! ## `calc_loop_num`: zero target, zero average, frame -/

/-- C8. `calc_loop_num (0, result)` returns 0 and stores `loop_num = 0` and
`target_nsec = 0`, for every calibration result and every work kind. -/
theorem calc_loop_num_zero_target (work : work_t) (c : c_results_t) :
    calc_loop_num work 0 c = some ({ c with target_nsec := 0, loop_num := 0 }, 0) := by
  unfold calc_loop_num
  by_cases hw : work = .WORK_NULL <;> simp [hw]

/-- C9. For every work kind and every `target_nsec > 0`, a result whose
`average` is zero makes `calc_loop_num` return 0 and store `loop_num = 0`; no
division is attempted. -/
theorem calc_loop_num_zero_average (work : work_t) (target_nsec : ℕ) (c : c_results_t)
    (ht : 0 < target_nsec) (havg : c.average = 0) :
    calc_loop_num work target_nsec c
      = some ({ c with target_nsec := target_nsec, loop_num := 0 }, 0) := by
  have h0 : toUInt64 (0 : ℚ) = some 0 := by
    have := toUInt64_natCast 0 (by norm_num)
    simpa using this
  unfold calc_loop_num
  by_cases hw : work = .WORK_NULL
  · simp [hw]
  · simp [hw, Nat.pos_iff_ne_zero.mp ht, havg, h0]

/-- Witness: the zero-average case at `WORK_ASM_MUL` and `target_nsec = 5000`. -/
theorem calc_loop_num_zero_average_witness :
    calc_loop_num .WORK_ASM_MUL 5000 ⟨0, 0, 0, 0, 50, 0, 0⟩
      = some (⟨0, 0, 0, 0, 50, 5000, 0⟩, 0) :=
  calc_loop_num_zero_average .WORK_ASM_MUL 5000 ⟨0, 0, 0, 0, 50, 0, 0⟩ (by decide) rfl

/-- C10. Whenever `calc_loop_num` returns, the returned value is the
`loop_num` stored in the result, the stored `target_nsec` is the argument, and
`average`, `std_dev`, `min`, `max` and `calibration_cycles` are unchanged. -/
theorem calc_loop_num_frame (work : work_t) (target_nsec : ℕ) (c c' : c_results_t) (ret : ℕ)
    (h : calc_loop_num work target_nsec c = some (c', ret)) :
    ret = c'.loop_num ∧ c'.target_nsec = target_nsec ∧ c'.average = c.average ∧
      c'.std_dev = c.std_dev ∧ c'.min = c.min ∧ c'.max = c.max ∧
      c'.calibration_cycles = c.calibration_cycles := by
  unfold calc_loop_num at h
  simp only [] at h
  split_ifs at h with h1 h2
  · cases h; simp
  · cases h; simp
  · split at h
    · cases h
    · split_ifs at h with h3
      · cases h; simp
      · split at h
        · cases h; simp
        all_goals (first | (split at h <;> first | cases h; done | (cases h; simp)) | cases h)

/-- Witness: the frame property at `WORK_MXM`, `target_nsec = 10000` and
`average = 2000`. -/
theorem calc_loop_num_frame_witness :
    (5 : ℕ) = (⟨2000, 3, 1990, 2010, 1, 10000, 5⟩ : c_results_t).loop_num ∧
      (⟨2000, 3, 1990, 2010, 1, 10000, 5⟩ : c_results_t).target_nsec = 10000 ∧
      (⟨2000, 3, 1990, 2010, 1, 10000, 5⟩ : c_results_t).average
        = (⟨2000, 3, 1990, 2010, 1, 0, 0⟩ : c_results_t).average ∧
      (⟨2000, 3, 1990, 2010, 1, 10000, 5⟩ : c_results_t).std_dev
        = (⟨2000, 3, 1990, 2010, 1, 0, 0⟩ : c_results_t).std_dev ∧
      (⟨2000, 3, 1990, 2010, 1, 10000, 5⟩ : c_results_t).min
        = (⟨2000, 3, 1990, 2010, 1, 0, 0⟩ : c_results_t).min ∧
      (⟨2000, 3, 1990, 2010, 1, 10000, 5⟩ : c_results_t).max
        = (⟨2000, 3, 1990, 2010, 1, 0, 0⟩ : c_results_t).max ∧
      (⟨2000, 3, 1990, 2010, 1, 10000, 5⟩ : c_results_t).calibration_cycles
        = (⟨2000, 3, 1990, 2010, 1, 0, 0⟩ : c_results_t).calibration_cycles :=
  calc_loop_num_frame .WORK_MXM 10000 ⟨2000, 3, 1990, 2010, 1, 0, 0⟩
    ⟨2000, 3, 1990, 2010, 1, 10000, 5⟩ 5 (by decide!)


/-! ## `calc_loop_num`: the two extrapolation models -/

theorem floor_toNat_eq_zero_iff {d : ℚ} (h0 : 0 ≤ d) : ⌊d⌋.toNat = 0 ↔ d < 1 := by
  have hf : 0 ≤ ⌊d⌋ := Int.floor_nonneg.mpr h0
  constructor
  · intro h
    have : ⌊d⌋ = 0 := by omega
    have := Int.lt_floor_add_one d
    simp_all
  · intro h
    have : ⌊d⌋ < 1 := Int.floor_lt.mpr (by simpa using h)
    omega

/-- C1, counterexample. With `average = 2000.75` and `target_nsec = 10000`
the matrix-multiply model returns `10000 / 2000 = 5`, whereas
`10000 / round (2000.75) = 10000 / 2001 = 4`. -/
theorem calc_loop_num_mxm_not_rounded :
    (calc_loop_num .WORK_MXM 10000 ⟨8003 / 4, 0, 0, 0, 1, 0, 0⟩).map Prod.snd = some 5 ∧
      10000 / (round (8003 / 4 : ℚ)).toNat = 4 := by
  decide!

/-- C1, amended. For `WORK_MXM`, every `target_nsec > 0` and every result with
`0 < average < 2 ^ 64`, `calc_loop_num` returns `target_nsec` integer-divided by
the average truncated toward zero (not rounded), and `0` when the average is
below one nanosecond; the value is also stored in `loop_num`. -/
theorem calc_loop_num_mxm (target_nsec : ℕ) (c : c_results_t) (ht : 0 < target_nsec)
    (h0 : 0 < c.average) (h1 : c.average < 2 ^ 64) :
    calc_loop_num .WORK_MXM target_nsec c
      = some ({ c with
                target_nsec := target_nsec
                loop_num := if c.average < 1 then 0 else target_nsec / ⌊c.average⌋.toNat },
              if c.average < 1 then 0 else target_nsec / ⌊c.average⌋.toNat) := by
  unfold calc_loop_num
  have hconv := toUInt64_of_nonneg h0.le h1
  simp only [reduceCtorEq, if_false, Nat.pos_iff_ne_zero.mp ht, hconv]
  by_cases hlt : c.average < 1
  · simp [hlt, (floor_toNat_eq_zero_iff h0.le).mpr hlt]
  · have hne : ⌊c.average⌋.toNat ≠ 0 := fun h => hlt ((floor_toNat_eq_zero_iff h0.le).mp h)
    simp [hlt, hne]

/-- Witness: the matrix-multiply model at `average = 2000` and
`target_nsec = 10000` gives 5. -/
theorem calc_loop_num_mxm_witness :
    calc_loop_num .WORK_MXM 10000 ⟨2000, 0, 0, 0, 1, 0, 0⟩
      = some (⟨2000, 0, 0, 0, 1, 10000, 5⟩, 5) :=
  (calc_loop_num_mxm 10000 ⟨2000, 0, 0, 0, 1, 0, 0⟩ (by decide) (by decide!) (by decide!)).trans
    (by decide!)


theorem ofUInt_of_le (p : ℕ) (hp : 1 ≤ p) (n : ℕ) (hn : n ≤ 2 ^ p) : ofUInt p n = (n : ℚ) :=
  roundTo_natCast p hp n hn

/-- C2, counterexample. With `average = 1000`, `calibration_cycles = 1` and
`target_nsec = 1750` the instruction-loop model returns `1`, the truncation of
`1.75`, not `round (1.75) = 2`; with `average = 1.5`, `calibration_cycles = 1`
and `target_nsec = 3` it returns `3 / 1 = 3`, not `round (3 / 1.5) = 2`. -/
theorem calc_loop_num_asm_not_rounded :
    ((calc_loop_num .WORK_ASM_NOP 1750 ⟨1000, 0, 0, 0, 1, 0, 0⟩).map Prod.snd = some 1 ∧
        round ((1750 : ℚ) / 1000 * 1) = 2) ∧
      ((calc_loop_num .WORK_ASM_NOP 3 ⟨3 / 2, 0, 0, 0, 1, 0, 0⟩).map Prod.snd = some 3 ∧
        round ((3 : ℚ) / (3 / 2) * 1) = 2) := by
  decide!

/-- C2, amended. For a parametrized work kind, `0 < target_nsec < 2 ^ 64`,
`0 < average < 2 ^ 64` and `calibration_cycles < 2 ^ 64`, with `a` the average
truncated toward zero: `calc_loop_num` returns `0` when `average < 1`;
otherwise it returns the long-double product
`ld (ld (target_nsec / a) * calibration_cycles)` truncated toward zero (not
rounded) whenever that product is below `2 ^ 64`; and when `a` divides
`target_nsec` and `target_nsec / a * calibration_cycles` fits in 64 bits the
result is exactly that number. -/
theorem calc_loop_num_asm (work : work_t) (hw : work.isAsm = true) (target_nsec : ℕ)
    (c : c_results_t) (ht : 0 < target_nsec) (ht64 : target_nsec < 2 ^ 64)
    (h0 : 0 < c.average) (h1 : c.average < 2 ^ 64) (hc : c.calibration_cycles < 2 ^ 64) :
    (c.average < 1 →
        calc_loop_num work target_nsec c
          = some ({ c with target_nsec := target_nsec, loop_num := 0 }, 0)) ∧
      (1 ≤ c.average →
        roundTo LDBL_MANT_DIG
            (roundTo LDBL_MANT_DIG ((target_nsec : ℚ) / (⌊c.average⌋.toNat : ℚ))
              * (c.calibration_cycles : ℚ)) < 2 ^ 64 →
        calc_loop_num work target_nsec c
          = some ({ c with
                    target_nsec := target_nsec
                    loop_num := ⌊roundTo LDBL_MANT_DIG
                      (roundTo LDBL_MANT_DIG ((target_nsec : ℚ) / (⌊c.average⌋.toNat : ℚ))
                        * (c.calibration_cycles : ℚ))⌋.toNat },
                  ⌊roundTo LDBL_MANT_DIG
                      (roundTo LDBL_MANT_DIG ((target_nsec : ℚ) / (⌊c.average⌋.toNat : ℚ))
                        * (c.calibration_cycles : ℚ))⌋.toNat)) ∧
      (1 ≤ c.average → ⌊c.average⌋.toNat ∣ target_nsec →
        target_nsec / ⌊c.average⌋.toNat * c.calibration_cycles < 2 ^ 64 →
        calc_loop_num work target_nsec c
          = some ({ c with
                    target_nsec := target_nsec
                    loop_num := target_nsec / ⌊c.average⌋.toNat * c.calibration_cycles },
                  target_nsec / ⌊c.average⌋.toNat * c.calibration_cycles)) := by
  have hconv := toUInt64_of_nonneg h0.le h1
  have hp : 1 ≤ LDBL_MANT_DIG := by decide
  have hL : (2 : ℕ) ^ LDBL_MANT_DIG = 2 ^ 64 := rfl
  have ha64 : ⌊c.average⌋.toNat < 2 ^ 64 := by
    have h := floor_toNat_le h0.le
    have : ((⌊c.average⌋.toNat : ℕ) : ℚ) < ((2 ^ 64 : ℕ) : ℚ) := by
      push_cast; exact lt_of_le_of_lt h h1
    exact_mod_cast this
  have hT := ofUInt_of_le LDBL_MANT_DIG hp target_nsec (by rw [hL]; exact ht64.le)
  have hA := ofUInt_of_le LDBL_MANT_DIG hp ⌊c.average⌋.toNat (by rw [hL]; exact ha64.le)
  have hC := ofUInt_of_le LDBL_MANT_DIG hp c.calibration_cycles (by rw [hL]; exact hc.le)
  have hprod_nonneg : 0 ≤ roundTo LDBL_MANT_DIG
      (roundTo LDBL_MANT_DIG ((target_nsec : ℚ) / (⌊c.average⌋.toNat : ℚ))
        * (c.calibration_cycles : ℚ)) := by
    apply roundTo_nonneg
    apply mul_nonneg _ (Nat.cast_nonneg _)
    apply roundTo_nonneg
    exact div_nonneg (Nat.cast_nonneg _) (Nat.cast_nonneg _)
  have key1 : c.average < 1 →
      calc_loop_num work target_nsec c
        = some ({ c with target_nsec := target_nsec, loop_num := 0 }, 0) := by
    intro hlt
    have hz := (floor_toNat_eq_zero_iff h0.le).mpr hlt
    unfold calc_loop_num
    cases work <;> simp_all [work_t.isAsm]
  have key2 : 1 ≤ c.average →
      roundTo LDBL_MANT_DIG
          (roundTo LDBL_MANT_DIG ((target_nsec : ℚ) / (⌊c.average⌋.toNat : ℚ))
            * (c.calibration_cycles : ℚ)) < 2 ^ 64 →
      calc_loop_num work target_nsec c
        = some ({ c with
                  target_nsec := target_nsec
                  loop_num := ⌊roundTo LDBL_MANT_DIG
                    (roundTo LDBL_MANT_DIG ((target_nsec : ℚ) / (⌊c.average⌋.toNat : ℚ))
                      * (c.calibration_cycles : ℚ))⌋.toNat },
                ⌊roundTo LDBL_MANT_DIG
                    (roundTo LDBL_MANT_DIG ((target_nsec : ℚ) / (⌊c.average⌋.toNat : ℚ))
                      * (c.calibration_cycles : ℚ))⌋.toNat) := by
    intro hge hfit
    have hne : ⌊c.average⌋.toNat ≠ 0 := fun h =>
      absurd ((floor_toNat_eq_zero_iff h0.le).mp h) (not_lt.mpr hge)
    have hcv := toUInt64_of_nonneg hprod_nonneg hfit
    unfold calc_loop_num
    cases work <;>
      simp_all [work_t.isAsm, fmul, fdiv, Nat.pos_iff_ne_zero.mp ht]
  refine ⟨key1, key2, ?_⟩
  intro hge hdvd hfit
  obtain ⟨k, hk⟩ := hdvd
  have hne : ⌊c.average⌋.toNat ≠ 0 := fun h =>
    absurd ((floor_toNat_eq_zero_iff h0.le).mp h) (not_lt.mpr hge)
  have hquot : target_nsec / ⌊c.average⌋.toNat = k := by
    rw [hk]; exact Nat.mul_div_cancel_left k (Nat.pos_of_ne_zero hne)
  have hk64 : k ≤ 2 ^ LDBL_MANT_DIG := by
    rw [hL, ← hquot]
    exact le_trans (Nat.div_le_self _ _) ht64.le
  have hdivq : (target_nsec : ℚ) / (⌊c.average⌋.toNat : ℚ) = (k : ℚ) := by
    have hneq : ((⌊c.average⌋.toNat : ℕ) : ℚ) ≠ 0 := by exact_mod_cast hne
    rw [hk]; push_cast; field_simp
  have hr1 : roundTo LDBL_MANT_DIG ((target_nsec : ℚ) / (⌊c.average⌋.toNat : ℚ)) = (k : ℚ) := by
    rw [hdivq]; exact roundTo_natCast _ hp k hk64
  have hr2 : roundTo LDBL_MANT_DIG ((k : ℚ) * (c.calibration_cycles : ℚ))
      = ((k * c.calibration_cycles : ℕ) : ℚ) := by
    rw [← Nat.cast_mul]
    apply roundTo_natCast _ hp
    rw [hL, ← hquot]; exact hfit.le
  have hval : roundTo LDBL_MANT_DIG
      (roundTo LDBL_MANT_DIG ((target_nsec : ℚ) / (⌊c.average⌋.toNat : ℚ))
        * (c.calibration_cycles : ℚ)) = ((k * c.calibration_cycles : ℕ) : ℚ) := by
    rw [hr1, hr2]
  have hfitq : roundTo LDBL_MANT_DIG
      (roundTo LDBL_MANT_DIG ((target_nsec : ℚ) / (⌊c.average⌋.toNat : ℚ))
        * (c.calibration_cycles : ℚ)) < 2 ^ 64 := by
    rw [hval, ← hquot]; exact_mod_cast hfit
  rw [key2 hge hfitq, hval, hquot, Int.floor_natCast, Int.toNat_natCast]

/-- Witness: the instruction-loop model at `average = 1000`,
`calibration_cycles = 50` and `target_nsec = 5000` gives 250. -/
theorem calc_loop_num_asm_witness :
    calc_loop_num .WORK_ASM_NOP 5000 ⟨1000, 0, 0, 0, 50, 0, 0⟩
      = some (⟨1000, 0, 0, 0, 50, 5000, 250⟩, 250) :=
  ((calc_loop_num_asm .WORK_ASM_NOP rfl 5000 ⟨1000, 0, 0, 0, 50, 0, 0⟩ (by decide) (by decide)
    (by decide!) (by decide!) (by decide)).2.2 (by decide!) (by decide!) (by decide!)).trans
    (by decide!)


/-! ## Facts about `calc_stats` -/

theorem sum_u64_foldl_eq (data : List ℕ) :
    ∀ init : ℕ, init + data.sum < 2 ^ 64 →
      data.foldl (fun sum x => (sum + x) % 2 ^ 64) init = init + data.sum := by
  induction data with
  | nil => intro init _; simp
  | cons x xs ih =>
    intro init h
    simp only [List.sum_cons] at h
    simp only [List.foldl_cons, List.sum_cons]
    rw [Nat.mod_eq_of_lt (by omega), ih (init + x) (by omega)]
    omega

/-- Without wrap-around the `uint64_t` accumulation is the sum. -/
theorem sum_u64_eq_sum (data : List ℕ) (h : data.sum < 2 ^ 64) : sum_u64 data = data.sum := by
  unfold sum_u64
  rw [sum_u64_foldl_eq data 0 (by simpa using h)]
  simp

theorem fsqrt_nonneg (p : ℕ) (q : ℚ) : 0 ≤ fsqrt p q := by
  unfold fsqrt
  split_ifs
  · exact le_rfl
  · exact mul_nonneg (Nat.cast_nonneg _) (two_zpow_pos _).le

/-- The second loop of `calc_stats`: its `min` component. -/
theorem calc_stats_fold_min (pow2 : ℚ → ℚ) (average : ℚ) (data : List ℕ) :
    ∀ st : ℚ × ℕ × ℕ,
      (data.foldl (calc_stats_step pow2 average) st).2.1 ≤ st.2.1 ∧
      (∀ x ∈ data, (data.foldl (calc_stats_step pow2 average) st).2.1 ≤ x) ∧
      ((data.foldl (calc_stats_step pow2 average) st).2.1 = st.2.1 ∨
        (data.foldl (calc_stats_step pow2 average) st).2.1 ∈ data) := by
  induction data with
  | nil => intro st; simp
  | cons y ys ih =>
    intro st
    simp only [List.foldl_cons]
    obtain ⟨i1, i2, i3⟩ := ih (calc_stats_step pow2 average st y)
    have hstep : (calc_stats_step pow2 average st y).2.1 = if st.2.1 > y then y else st.2.1 := rfl
    rw [hstep] at i1 i3
    refine ⟨?_, ?_, ?_⟩
    · split_ifs at i1 <;> omega
    · intro x hx
      rcases List.mem_cons.mp hx with rfl | hx
      · split_ifs at i1 <;> omega
      · exact i2 x hx
    · rcases i3 with h | h
      · split_ifs at h with hc
        · right; rw [h]; exact List.mem_cons_self _ _
        · left; exact h
      · right; exact List.mem_cons_of_mem _ h

/-- The second loop of `calc_stats`: its `max` component. -/
theorem calc_stats_fold_max (pow2 : ℚ → ℚ) (average : ℚ) (data : List ℕ) :
    ∀ st : ℚ × ℕ × ℕ,
      st.2.2 ≤ (data.foldl (calc_stats_step pow2 average) st).2.2 ∧
      (∀ x ∈ data, x ≤ (data.foldl (calc_stats_step pow2 average) st).2.2) ∧
      ((data.foldl (calc_stats_step pow2 average) st).2.2 = st.2.2 ∨
        (data.foldl (calc_stats_step pow2 average) st).2.2 ∈ data) := by
  induction data with
  | nil => intro st; simp
  | cons y ys ih =>
    intro st
    simp only [List.foldl_cons]
    obtain ⟨i1, i2, i3⟩ := ih (calc_stats_step pow2 average st y)
    have hstep : (calc_stats_step pow2 average st y).2.2 = if st.2.2 < y then y else st.2.2 := rfl
    rw [hstep] at i1 i3
    refine ⟨?_, ?_, ?_⟩
    · split_ifs at i1 <;> omega
    · intro x hx
      rcases List.mem_cons.mp hx with rfl | hx
      · split_ifs at i1 <;> omega
      · exact i2 x hx
    · rcases i3 with h | h
      · split_ifs at h with hc
        · right; rw [h]; exact List.mem_cons_self _ _
        · left; exact h
      · right; exact List.mem_cons_of_mem _ h

/-- The shape of the result of `calc_stats` when the seed conversion is defined. -/
theorem calc_stats_eq (pow2 : ℚ → ℚ) (data : List ℕ) (c : c_results_t) (hne : data ≠ [])
    (h0 : 0 ≤ average_of data) (h1 : average_of data < 2 ^ 64) :
    calc_stats pow2 data c = some { c with
      average := average_of data
      min := (data.foldl (calc_stats_step pow2 (average_of data))
        (0, ⌊average_of data⌋.toNat, ⌊average_of data⌋.toNat)).2.1
      max := (data.foldl (calc_stats_step pow2 (average_of data))
        (0, ⌊average_of data⌋.toNat, ⌊average_of data⌋.toNat)).2.2
      std_dev := fsqrt DBL_MANT_DIG (fdiv DBL_MANT_DIG
        (data.foldl (calc_stats_step pow2 (average_of data))
          (0, ⌊average_of data⌋.toNat, ⌊average_of data⌋.toNat)).1
        (ofUInt FLT_MANT_DIG data.length)) } := by
  have hlen : data.length ≠ 0 := fun h => hne (List.length_eq_zero.mp h)
  have hconv := toUInt64_of_nonneg h0 h1
  unfold average_of at hconv
  unfold calc_stats
  simp only [hlen, if_false, hconv]
  rfl

theorem average_of_nonneg (data : List ℕ) : 0 ≤ average_of data := by
  unfold average_of fdiv ofUInt ofInt
  apply roundTo_nonneg
  apply div_nonneg
  · exact roundTo_nonneg _ (Nat.cast_nonneg _)
  · exact_mod_cast Nat.zero_le _


/-- A value of at most `2 ^ 64 - 1025` rounds to a `double` below `2 ^ 64`. -/
theorem roundTo_dbl_lt_two_pow_64 {x : ℚ} (h0 : 0 ≤ x) (h1 : x ≤ 2 ^ 64 - 1025) :
    roundTo DBL_MANT_DIG x ≤ 2 ^ 64 - 2048 := by
  rcases eq_or_lt_of_le h0 with hz | hpos
  · rw [← hz, roundTo_zero]; norm_num
  have hne : x ≠ 0 := ne_of_gt hpos
  obtain ⟨s1, s2⟩ := ilog2_spec x hne
  rw [abs_of_pos hpos] at s1 s2
  have hL : ilog2 x < 64 := by
    apply (zpow_lt_zpow_iff_right₀ (by norm_num : (1 : ℚ) < 2)).mp
    calc (2 : ℚ) ^ ilog2 x ≤ x := s1
      _ < (2 : ℚ) ^ (64 : ℤ) := by
        have : (2 : ℚ) ^ (64 : ℤ) = 2 ^ 64 := by norm_cast
        rw [this]; linarith
  by_cases hc : ilog2 x ≤ 62
  · calc roundTo DBL_MANT_DIG x ≤ (2 : ℚ) ^ (ilog2 x + 1) := roundTo_le_two_pow _ hpos
      _ ≤ (2 : ℚ) ^ (63 : ℤ) := zpow_le_zpow_right₀ (by norm_num) (by omega)
      _ ≤ 2 ^ 64 - 2048 := by norm_num
  · have hL63 : ilog2 x = 63 := by omega
    have he : ulpExp DBL_MANT_DIG x = 11 := by
      unfold ulpExp DBL_MANT_DIG; rw [hL63]; norm_num
    rw [roundTo_of_ne_zero _ hne, he]
    have hy : x / (2 : ℚ) ^ (11 : ℤ) ≤ 2 ^ 53 - 1025 / 2048 := by
      rw [div_le_iff₀ (two_zpow_pos 11)]
      have : ((2 : ℚ) ^ 53 - 1025 / 2048) * (2 : ℚ) ^ (11 : ℤ) = 2 ^ 64 - 1025 := by norm_num
      rw [this]; exact h1
    have hr := abs_rne_sub_le (x / (2 : ℚ) ^ (11 : ℤ))
    rw [abs_le] at hr
    have hlt : (rne (x / (2 : ℚ) ^ (11 : ℤ)) : ℚ) < ((2 ^ 53 : ℤ) : ℚ) := by
      push_cast; linarith [hr.2]
    have hle : rne (x / (2 : ℚ) ^ (11 : ℤ)) ≤ 2 ^ 53 - 1 := by
      have : rne (x / (2 : ℚ) ^ (11 : ℤ)) < 2 ^ 53 := by exact_mod_cast hlt
      omega
    have hleq : (rne (x / (2 : ℚ) ^ (11 : ℤ)) : ℚ) ≤ 2 ^ 53 - 1 := by exact_mod_cast hle
    calc (rne (x / (2 : ℚ) ^ (11 : ℤ)) : ℚ) * (2 : ℚ) ^ (11 : ℤ)
        ≤ (2 ^ 53 - 1) * (2 : ℚ) ^ (11 : ℤ) :=
          mul_le_mul_of_nonneg_right hleq (two_zpow_pos _).le
      _ = 2 ^ 64 - 2048 := by norm_num

theorem sum_u64_foldl_lt (data : List ℕ) :
    ∀ init : ℕ, init < 2 ^ 64 →
      data.foldl (fun sum x => (sum + x) % 2 ^ 64) init < 2 ^ 64 := by
  induction data with
  | nil => intro init h; simpa using h
  | cons x xs ih =>
    intro init _
    simp only [List.foldl_cons]
    exact ih _ (Nat.mod_lt _ (by norm_num))

/-- The average is below `2 ^ 64` unless the wrapped sum is within 1024 of
`2 ^ 64`. -/
theorem average_of_lt (data : List ℕ) (hne : data ≠ []) (hs : sum_u64 data ≤ 2 ^ 64 - 1025) :
    average_of data < 2 ^ 64 := by
  have hlen : 1 ≤ data.length := List.length_pos.mpr hne
  have hlenq : (1 : ℚ) ≤ (data.length : ℚ) := by exact_mod_cast hlen
  have hsq : ((sum_u64 data : ℕ) : ℚ) ≤ 2 ^ 64 - 1025 := by
    have : ((sum_u64 data : ℕ) : ℚ) ≤ ((2 ^ 64 - 1025 : ℕ) : ℚ) := by exact_mod_cast hs
    refine le_trans this ?_
    norm_num
  have h1 := roundTo_dbl_lt_two_pow_64 (Nat.cast_nonneg (sum_u64 data)) hsq
  have h1n : 0 ≤ roundTo DBL_MANT_DIG ((sum_u64 data : ℕ) : ℚ) :=
    roundTo_nonneg _ (Nat.cast_nonneg _)
  have hq : roundTo DBL_MANT_DIG ((sum_u64 data : ℕ) : ℚ) / (data.length : ℚ)
      ≤ 2 ^ 64 - 1025 := by
    have : roundTo DBL_MANT_DIG ((sum_u64 data : ℕ) : ℚ) / (data.length : ℚ)
        ≤ roundTo DBL_MANT_DIG ((sum_u64 data : ℕ) : ℚ) :=
      div_le_self h1n hlenq
    linarith
  have h2 := roundTo_dbl_lt_two_pow_64 (div_nonneg h1n (by linarith)) hq
  unfold average_of fdiv ofUInt ofInt
  have hcast : (((data.length : ℕ) : ℤ) : ℚ) = (data.length : ℚ) := by push_cast; rfl
  rw [hcast]
  linarith

theorem exists_min_mem : ∀ (data : List ℕ), data ≠ [] → ∃ m ∈ data, ∀ x ∈ data, m ≤ x
  | [], h => absurd rfl h
  | [a], _ => ⟨a, by simp, by simp⟩
  | a :: b :: rest, _ => by
    obtain ⟨m, hm, hmin⟩ := exists_min_mem (b :: rest) (by simp)
    by_cases hc : a ≤ m
    · refine ⟨a, by simp, ?_⟩
      intro x hx
      rcases List.mem_cons.mp hx with rfl | hx
      · exact le_rfl
      · exact le_trans hc (hmin x hx)
    · refine ⟨m, List.mem_cons_of_mem _ hm, ?_⟩
      intro x hx
      rcases List.mem_cons.mp hx with rfl | hx
      · omega
      · exact hmin x hx

theorem exists_max_mem : ∀ (data : List ℕ), data ≠ [] → ∃ m ∈ data, ∀ x ∈ data, x ≤ m
  | [], h => absurd rfl h
  | [a], _ => ⟨a, by simp, by simp⟩
  | a :: b :: rest, _ => by
    obtain ⟨m, hm, hmax⟩ := exists_max_mem (b :: rest) (by simp)
    by_cases hc : m ≤ a
    · refine ⟨a, by simp, ?_⟩
      intro x hx
      rcases List.mem_cons.mp hx with rfl | hx
      · exact le_rfl
      · exact le_trans (hmax x hx) hc
    · refine ⟨m, List.mem_cons_of_mem _ hm, ?_⟩
      intro x hx
      rcases List.mem_cons.mp hx with rfl | hx
      · omega
      · exact hmax x hx

theorem le_sum_of_mem : ∀ (data : List ℕ) (x : ℕ), x ∈ data → x ≤ data.sum
  | [], _, h => by simp at h
  | a :: rest, x, h => by
    rcases List.mem_cons.mp h with rfl | h
    · simp
    · have := le_sum_of_mem rest x h
      simp only [List.sum_cons]; omega

/-- With a sum of at most `2 ^ 53` the computed average lies between any lower
and any upper bound of the samples. -/
theorem average_of_between (data : List ℕ) (hne : data ≠ []) (hs : data.sum ≤ 2 ^ 53)
    (lo hi : ℕ) (hlo : lo ∈ data) (hhi : hi ∈ data)
    (hlo' : ∀ x ∈ data, lo ≤ x) (hhi' : ∀ x ∈ data, x ≤ hi) :
    (lo : ℚ) ≤ average_of data ∧ average_of data ≤ (hi : ℚ) := by
  have hp : 1 ≤ DBL_MANT_DIG := by decide
  have hP : (2 : ℕ) ^ DBL_MANT_DIG = 2 ^ 53 := rfl
  have hlen : 1 ≤ data.length := List.length_pos.mpr hne
  have hlenq : (0 : ℚ) < (data.length : ℚ) := by exact_mod_cast hlen
  have hsum : sum_u64 data = data.sum := sum_u64_eq_sum data (by omega)
  have h1 : data.length * lo ≤ data.sum := by
    have := List.card_nsmul_le_sum data lo hlo'
    simpa using this
  have h2 : data.sum ≤ data.length * hi := by
    have := List.sum_le_card_nsmul data hi hhi'
    simpa using this
  have h1q : (lo : ℚ) ≤ (data.sum : ℚ) / (data.length : ℚ) := by
    rw [le_div_iff₀ hlenq]
    have : ((data.length * lo : ℕ) : ℚ) ≤ (data.sum : ℚ) := by exact_mod_cast h1
    rw [Nat.cast_mul] at this; linarith
  have h2q : (data.sum : ℚ) / (data.length : ℚ) ≤ (hi : ℚ) := by
    rw [div_le_iff₀ hlenq]
    have : (data.sum : ℚ) ≤ ((data.length * hi : ℕ) : ℚ) := by exact_mod_cast h2
    rw [Nat.cast_mul] at this; linarith
  have hlo53 : lo ≤ 2 ^ DBL_MANT_DIG := by
    rw [hP]; exact le_trans (le_sum_of_mem data lo hlo) hs
  have hhi53 : hi ≤ 2 ^ DBL_MANT_DIG := by
    rw [hP]; exact le_trans (le_sum_of_mem data hi hhi) hs
  have havg : average_of data
      = roundTo DBL_MANT_DIG ((data.sum : ℚ) / (data.length : ℚ)) := by
    unfold average_of fdiv ofInt
    rw [hsum, ofUInt_of_le _ hp _ (by rw [hP]; exact hs)]
    push_cast; rfl
  rw [havg]
  exact ⟨nat_le_roundTo _ hp lo hlo53 h1q,
    roundTo_le_nat _ hp hi hhi53 (div_nonneg (Nat.cast_nonneg _) hlenq.le) h2q⟩

/-! ## `strip_std_dev` -/

theorem foldl_append_filter (P : ℕ → Prop) [DecidablePred P] (data : List ℕ) :
    ∀ init : List ℕ,
      data.foldl (fun out x => if P x then out ++ [x] else out) init
        = init ++ data.filter (fun x => decide (P x)) := by
  induction data with
  | nil => intro init; simp
  | cons y ys ih =>
    intro init
    simp only [List.foldl_cons]
    rw [ih]
    by_cases hy : P y
    · simp [hy, List.filter_cons]
    · simp [hy, List.filter_cons]

/-- The copy loop of `strip_std_dev` is a filter. -/
theorem strip_std_dev_eq_filter (pow2 : ℚ → ℚ) (data : List ℕ) (k : ℤ) :
    strip_std_dev pow2 data k
      = ((data.filter (fun x => decide (strip_keeps pow2 data k x))).length,
          data.filter (fun x => decide (strip_keeps pow2 data k x))) := by
  have h := foldl_append_filter (strip_keeps pow2 data k) data []
  simp only [List.nil_append] at h
  have hfun : (fun (out : List ℕ) (x : ℕ) =>
      if ¬ (ofUInt DBL_MANT_DIG x >
              fadd DBL_MANT_DIG (average_of data) (fmul DBL_MANT_DIG (ofInt k) (std_dev_of pow2 data))
            ∨ ofUInt DBL_MANT_DIG x <
              fsub DBL_MANT_DIG (average_of data) (fmul DBL_MANT_DIG (ofInt k) (std_dev_of pow2 data)))
          ∨ k = 0
      then out ++ [x] else out)
      = (fun (out : List ℕ) (x : ℕ) => if strip_keeps pow2 data k x then out ++ [x] else out) := by
    funext out x
    have hiff : (¬ (ofUInt DBL_MANT_DIG x >
              fadd DBL_MANT_DIG (average_of data) (fmul DBL_MANT_DIG (ofInt k) (std_dev_of pow2 data))
            ∨ ofUInt DBL_MANT_DIG x <
              fsub DBL_MANT_DIG (average_of data) (fmul DBL_MANT_DIG (ofInt k) (std_dev_of pow2 data)))
          ∨ k = 0) ↔ strip_keeps pow2 data k x := by
      unfold strip_keeps
      constructor
      · rintro (h | h)
        · right; push_neg at h; exact ⟨h.2, h.1⟩
        · left; exact h
      · rintro (h | h)
        · right; exact h
        · left; push_neg; exact ⟨h.2, h.1⟩
    simp only [hiff]
  have hdef : strip_std_dev pow2 data k
      = ((data.foldl (fun (out : List ℕ) (x : ℕ) =>
            if ¬ (ofUInt DBL_MANT_DIG x >
                    fadd DBL_MANT_DIG (average_of data)
                      (fmul DBL_MANT_DIG (ofInt k) (std_dev_of pow2 data))
                  ∨ ofUInt DBL_MANT_DIG x <
                    fsub DBL_MANT_DIG (average_of data)
                      (fmul DBL_MANT_DIG (ofInt k) (std_dev_of pow2 data)))
                ∨ k = 0
            then out ++ [x] else out) []).length,
          data.foldl (fun (out : List ℕ) (x : ℕ) =>
            if ¬ (ofUInt DBL_MANT_DIG x >
                    fadd DBL_MANT_DIG (average_of data)
                      (fmul DBL_MANT_DIG (ofInt k) (std_dev_of pow2 data))
                  ∨ ofUInt DBL_MANT_DIG x <
                    fsub DBL_MANT_DIG (average_of data)
                      (fmul DBL_MANT_DIG (ofInt k) (std_dev_of pow2 data)))
                ∨ k = 0
            then out ++ [x] else out) []) := rfl
  rw [hdef, hfun, h]

/-- The length of the output of `strip_std_dev` is positive when some sample
passes the test. -/
theorem strip_std_dev_pos_of_keeps (pow2 : ℚ → ℚ) (data : List ℕ) (k : ℤ) (x : ℕ)
    (hx : x ∈ data) (h : strip_keeps pow2 data k x) :
    1 ≤ (strip_std_dev pow2 data k).1 ∧ (strip_std_dev pow2 data k).2 ≠ [] ∧
      x ∈ (strip_std_dev pow2 data k).2 := by
  have hmem : x ∈ data.filter (fun x => decide (strip_keeps pow2 data k x)) := by
    rw [List.mem_filter]
    exact ⟨hx, by simpa using h⟩
  rw [strip_std_dev_eq_filter]
  exact ⟨List.length_pos_of_mem hmem, List.ne_nil_of_mem hmem, hmem⟩

/-- The output of `strip_std_dev` is the input when every sample passes the
test. -/
theorem strip_std_dev_all_of_keeps (pow2 : ℚ → ℚ) (data : List ℕ) (k : ℤ)
    (h : ∀ x ∈ data, strip_keeps pow2 data k x) :
    strip_std_dev pow2 data k = (data.length, data) := by
  have hall : data.filter (fun x => decide (strip_keeps pow2 data k x)) = data := by
    rw [List.filter_eq_self]
    intro x hx
    simpa using h x hx
  rw [strip_std_dev_eq_filter, hall]

/-- C7. With `num_std_dev = 0`, `strip_std_dev` returns `in_length` and copies
the input unchanged, whatever the samples are. -/
theorem strip_std_dev_zero (pow2 : ℚ → ℚ) (in_data : List ℕ) :
    strip_std_dev pow2 in_data 0 = (in_data.length, in_data) := by
  rw [strip_std_dev_eq_filter]
  have : in_data.filter (fun x => decide (strip_keeps pow2 in_data 0 x)) = in_data := by
    apply List.filter_eq_self.mpr
    intro x _
    simp [strip_keeps]
  rw [this]


/-! ## Exactness of the `double` operations on small integers -/

/-- Integers below `2 ^ p` in absolute value are representable. -/
theorem roundTo_intCast (p : ℕ) (z : ℤ) (hz : |z| < 2 ^ p) : roundTo p (z : ℚ) = (z : ℚ) := by
  rcases eq_or_ne z 0 with rfl | hz0
  · simpa using roundTo_zero p
  have hne : (z : ℚ) ≠ 0 := by exact_mod_cast hz0
  obtain ⟨s1, _⟩ := ilog2_spec (z : ℚ) hne
  have hzq : |(z : ℚ)| < (2 : ℚ) ^ (p : ℤ) := by
    rw [zpow_natCast]
    have : ((|z| : ℤ) : ℚ) < ((2 ^ p : ℤ) : ℚ) := by exact_mod_cast hz
    simpa using this
  have hL : ilog2 (z : ℚ) < (p : ℤ) :=
    (zpow_lt_zpow_iff_right₀ (by norm_num : (1 : ℚ) < 2)).mp (lt_of_le_of_lt s1 hzq)
  obtain ⟨w, hw⟩ := grid_mul (ulpExp p (z : ℚ)) 0 (by unfold ulpExp; omega) z
  simp only [zpow_zero, mul_one] at hw
  apply le_antisymm
  · have := roundTo_le_of_grid p hne w (by rw [hw])
    rwa [hw] at this
  · have := le_roundTo_of_grid p hne w (by rw [hw])
    rwa [hw] at this

/-- Rounding to `p` bits has relative error at most `2 ^ (-p)`. -/
theorem abs_roundTo_sub_le (p : ℕ) (q : ℚ) : |roundTo p q - q| ≤ |q| / 2 ^ p := by
  rcases eq_or_ne q 0 with rfl | hne
  · simp [roundTo_zero]
  obtain ⟨s1, _⟩ := ilog2_spec q hne
  have hpos := two_zpow_pos (ulpExp p q)
  have hq : q = q / (2 : ℚ) ^ ulpExp p q * (2 : ℚ) ^ ulpExp p q := by
    field_simp
  have hr := abs_rne_sub_le (q / (2 : ℚ) ^ ulpExp p q)
  have hdiff : roundTo p q - q
      = ((rne (q / (2 : ℚ) ^ ulpExp p q) : ℚ) - q / (2 : ℚ) ^ ulpExp p q)
          * (2 : ℚ) ^ ulpExp p q := by
    rw [roundTo_of_ne_zero p hne]
    conv_lhs => rw [hq]
    ring_nf
    field_simp
  have hexp : (2 : ℚ) ^ ulpExp p q = (2 : ℚ) ^ ilog2 q * 2 / 2 ^ p := by
    unfold ulpExp
    rw [show ilog2 q - ((p : ℤ) - 1) = ilog2 q + 1 - (p : ℤ) by ring,
      zpow_sub₀ (by norm_num : (2 : ℚ) ≠ 0), zpow_add₀ (by norm_num : (2 : ℚ) ≠ 0), zpow_one,
      zpow_natCast]
  rw [hdiff, abs_mul, abs_of_pos hpos]
  have h2p : (0 : ℚ) < 2 ^ p := by positivity
  calc |(rne (q / (2 : ℚ) ^ ulpExp p q) : ℚ) - q / (2 : ℚ) ^ ulpExp p q| * (2 : ℚ) ^ ulpExp p q
      ≤ 1 / 2 * (2 : ℚ) ^ ulpExp p q := mul_le_mul_of_nonneg_right hr hpos.le
    _ = (2 : ℚ) ^ ilog2 q / 2 ^ p := by rw [hexp]; ring
    _ ≤ |q| / 2 ^ p := div_le_div_of_nonneg_right s1 h2p.le

theorem sqrtF_spec : ∀ (k n : ℕ), n ≤ k →
    sqrtF k n * sqrtF k n ≤ n ∧ n < (sqrtF k n + 1) * (sqrtF k n + 1)
  | 0, n, h => by
    have : n = 0 := by omega
    subst this
    simp [sqrtF]
  | k + 1, n, h => by
    obtain ⟨i1, i2⟩ := sqrtF_spec k (n / 4) (by omega)
    have e1 : (2 * sqrtF k (n / 4) + 1 + 1) * (2 * sqrtF k (n / 4) + 1 + 1)
        = 4 * ((sqrtF k (n / 4) + 1) * (sqrtF k (n / 4) + 1)) := by ring
    have e2 : 2 * sqrtF k (n / 4) * (2 * sqrtF k (n / 4))
        = 4 * (sqrtF k (n / 4) * sqrtF k (n / 4)) := by ring
    unfold sqrtF
    by_cases h0 : n = 0
    · subst h0; simp
    · rw [if_neg h0]
      simp only []
      by_cases h1 : (2 * sqrtF k (n / 4) + 1) * (2 * sqrtF k (n / 4) + 1) ≤ n
      · rw [if_pos h1]
        refine ⟨h1, ?_⟩
        rw [e1]
        omega
      · rw [if_neg h1]
        refine ⟨?_, by omega⟩
        rw [e2]
        omega

theorem sqrtF_mul_self (y : ℕ) : sqrtF (y * y) (y * y) = y := by
  obtain ⟨h1, h2⟩ := sqrtF_spec (y * y) (y * y) le_rfl
  have a := Nat.mul_self_le_mul_self_iff.mp h1
  have b := Nat.mul_self_lt_mul_self_iff.mp h2
  omega

/-- The square root of the square of an integer below `2 ^ p` is exact. -/
theorem fsqrt_sq (p : ℕ) (s : ℕ) (hs : s < 2 ^ p) : fsqrt p ((s : ℚ) * (s : ℚ)) = (s : ℚ) := by
  rcases Nat.eq_zero_or_pos s with rfl | hpos
  · simp [fsqrt]
  have hsq : (0 : ℚ) < (s : ℚ) := by exact_mod_cast hpos
  have hq : (0 : ℚ) < (s : ℚ) * (s : ℚ) := mul_pos hsq hsq
  have hne : (s : ℚ) * (s : ℚ) ≠ 0 := ne_of_gt hq
  obtain ⟨s1, _⟩ := ilog2_spec _ hne
  rw [abs_of_pos hq] at s1
  have hlt : (s : ℚ) * (s : ℚ) < (2 : ℚ) ^ ((2 * p : ℕ) : ℤ) := by
    rw [zpow_natCast]
    have h1 : (s : ℚ) < (2 : ℚ) ^ p := by exact_mod_cast hs
    have : (2 : ℚ) ^ (2 * p) = (2 : ℚ) ^ p * (2 : ℚ) ^ p := by rw [two_mul, pow_add]
    rw [this]
    exact mul_lt_mul'' h1 h1 hsq.le hsq.le
  have hL : ilog2 ((s : ℚ) * (s : ℚ)) < ((2 * p : ℕ) : ℤ) :=
    (zpow_lt_zpow_iff_right₀ (by norm_num : (1 : ℚ) < 2)).mp (lt_of_le_of_lt s1 hlt)
  have he : ilog2 ((s : ℚ) * (s : ℚ)) / 2 - ((p : ℤ) - 1) ≤ 0 := by
    push_cast at hL; omega
  -- write the exponent as `-k`
  obtain ⟨k, hk⟩ : ∃ k : ℕ, ilog2 ((s : ℚ) * (s : ℚ)) / 2 - ((p : ℤ) - 1) = -(k : ℤ) :=
    ⟨(-(ilog2 ((s : ℚ) * (s : ℚ)) / 2 - ((p : ℤ) - 1))).toNat, by omega⟩
  have hx : (s : ℚ) * (s : ℚ) / (2 : ℚ) ^ (2 * -(k : ℤ))
      = (((s * 2 ^ k) * (s * 2 ^ k) : ℕ) : ℚ) := by
    have h4 : (2 : ℚ) ^ (2 * k) = (2 : ℚ) ^ k * (2 : ℚ) ^ k := by rw [two_mul, pow_add]
    rw [show (2 : ℤ) * -(k : ℤ) = -((2 * k : ℕ) : ℤ) by push_cast; ring, zpow_neg, zpow_natCast,
      div_inv_eq_mul, h4]
    push_cast
    ring
  unfold fsqrt
  rw [if_neg (not_le.mpr hq)]
  simp only [hk, hx, Int.floor_natCast, Int.toNat_natCast, sqrtF_mul_self]
  have hlt' : (((s * 2 ^ k) * (s * 2 ^ k) : ℕ) : ℚ)
      < ((s * 2 ^ k : ℕ) : ℚ) * ((s * 2 ^ k : ℕ) : ℚ) + ((s * 2 ^ k : ℕ) : ℚ) + 1 / 4 := by
    push_cast
    have : (0 : ℚ) ≤ (s : ℚ) * 2 ^ k := by positivity
    linarith
  rw [if_pos hlt']
  push_cast
  rw [zpow_neg, zpow_natCast]
  field_simp

/-! ## The library function `pow (x, 2)` -/

/-- The spacing of the floating-point numbers at `q` is at most `|q| * 2 ^ (1 - p)`. -/
theorem two_pow_ulpExp_le (p : ℕ) {q : ℚ} (hq : q ≠ 0) :
    (2 : ℚ) ^ ulpExp p q ≤ |q| * 2 / 2 ^ p := by
  obtain ⟨s1, _⟩ := ilog2_spec q hq
  have hexp : (2 : ℚ) ^ ulpExp p q = (2 : ℚ) ^ ilog2 q * 2 / 2 ^ p := by
    unfold ulpExp
    rw [show ilog2 q - ((p : ℤ) - 1) = ilog2 q + 1 - (p : ℤ) by ring,
      zpow_sub₀ (by norm_num : (2 : ℚ) ≠ 0), zpow_add₀ (by norm_num : (2 : ℚ) ≠ 0), zpow_one,
      zpow_natCast]
  rw [hexp]
  have h2p : (0 : ℚ) < 2 ^ p := by positivity
  exact div_le_div_of_nonneg_right (by linarith) h2p.le

theorem rdn_le (p : ℕ) (q : ℚ) : rdn p q ≤ q := by
  unfold rdn
  split_ifs with h
  · exact h.ge
  · have hpos := two_zpow_pos (ulpExp p q)
    calc (⌊q / (2 : ℚ) ^ ulpExp p q⌋ : ℚ) * (2 : ℚ) ^ ulpExp p q
        ≤ q / (2 : ℚ) ^ ulpExp p q * (2 : ℚ) ^ ulpExp p q :=
          mul_le_mul_of_nonneg_right (Int.floor_le _) hpos.le
      _ = q := by field_simp

theorem le_rup (p : ℕ) (q : ℚ) : q ≤ rup p q := by
  unfold rup
  split_ifs with h
  · exact h.le
  · have hpos := two_zpow_pos (ulpExp p q)
    calc q = q / (2 : ℚ) ^ ulpExp p q * (2 : ℚ) ^ ulpExp p q := by field_simp
      _ ≤ (⌈q / (2 : ℚ) ^ ulpExp p q⌉ : ℚ) * (2 : ℚ) ^ ulpExp p q :=
          mul_le_mul_of_nonneg_right (Int.le_ceil _) hpos.le

/-- Rounding down loses less than one unit in the last place. -/
theorem le_rdn (p : ℕ) {q : ℚ} (hq : 0 ≤ q) : q - q * 2 / 2 ^ p ≤ rdn p q := by
  unfold rdn
  split_ifs with h
  · rw [h]; simp
  · have hpos := two_zpow_pos (ulpExp p q)
    have h1 := two_pow_ulpExp_le p h
    rw [abs_of_nonneg hq] at h1
    have h2 : q / (2 : ℚ) ^ ulpExp p q - 1 ≤ (⌊q / (2 : ℚ) ^ ulpExp p q⌋ : ℚ) :=
      (Int.sub_one_lt_floor _).le
    have h3 : (q / (2 : ℚ) ^ ulpExp p q - 1) * (2 : ℚ) ^ ulpExp p q
        ≤ (⌊q / (2 : ℚ) ^ ulpExp p q⌋ : ℚ) * (2 : ℚ) ^ ulpExp p q :=
      mul_le_mul_of_nonneg_right h2 hpos.le
    have h4 : (q / (2 : ℚ) ^ ulpExp p q - 1) * (2 : ℚ) ^ ulpExp p q
        = q - (2 : ℚ) ^ ulpExp p q := by field_simp
    linarith

/-- Rounding up adds less than one unit in the last place. -/
theorem rup_le (p : ℕ) {q : ℚ} (hq : 0 ≤ q) : rup p q ≤ q + q * 2 / 2 ^ p := by
  unfold rup
  split_ifs with h
  · rw [h]; simp
  · have hpos := two_zpow_pos (ulpExp p q)
    have h1 := two_pow_ulpExp_le p h
    rw [abs_of_nonneg hq] at h1
    have h2 : (⌈q / (2 : ℚ) ^ ulpExp p q⌉ : ℚ) ≤ q / (2 : ℚ) ^ ulpExp p q + 1 :=
      (Int.ceil_lt_add_one _).le
    have h3 : (⌈q / (2 : ℚ) ^ ulpExp p q⌉ : ℚ) * (2 : ℚ) ^ ulpExp p q
        ≤ (q / (2 : ℚ) ^ ulpExp p q + 1) * (2 : ℚ) ^ ulpExp p q :=
      mul_le_mul_of_nonneg_right h2 hpos.le
    have h4 : (q / (2 : ℚ) ^ ulpExp p q + 1) * (2 : ℚ) ^ ulpExp p q
        = q + (2 : ℚ) ^ ulpExp p q := by field_simp
    linarith

/-- A representable value is its own rounding down and up. -/
theorem rdn_rup_of_roundTo_eq (p : ℕ) {q : ℚ} (h : roundTo p q = q) :
    rdn p q = q ∧ rup p q = q := by
  rcases eq_or_ne q 0 with rfl | hne
  · simp [rdn, rup]
  have hpos := two_zpow_pos (ulpExp p q)
  rw [roundTo_of_ne_zero p hne] at h
  have hz : q / (2 : ℚ) ^ ulpExp p q = (rne (q / (2 : ℚ) ^ ulpExp p q) : ℚ) := by
    rw [div_eq_iff hpos.ne']
    exact h.symm
  unfold rdn rup
  rw [if_neg hne, if_neg hne]
  constructor
  · conv_lhs => rw [hz, Int.floor_intCast]
    exact h
  · conv_lhs => rw [hz, Int.ceil_intCast]
    exact h

/-- The correctly rounded square is a faithful `pow (x, 2)`. -/
theorem fsq_faithful : pow_faithful (fsq DBL_MANT_DIG) := by
  intro x
  unfold fsq
  rcases eq_or_ne (x * x) 0 with h0 | hne
  · left; rw [h0]; simp [roundTo_zero, rdn]
  rw [roundTo_of_ne_zero _ hne]
  unfold rdn rup
  rw [if_neg hne, if_neg hne]
  set y := x * x / (2 : ℚ) ^ ulpExp DBL_MANT_DIG (x * x) with hy
  have h1 := floor_le_rne y
  have h2 := rne_le_floor_add_one y
  rcases (by omega : rne y = ⌊y⌋ ∨ rne y = ⌊y⌋ + 1) with h | h
  · left; rw [h]
  · right
    have hc : ⌈y⌉ = ⌊y⌋ + 1 := by
      have hlt : (⌊y⌋ : ℚ) < y := by
        by_contra hcon
        have heq : y = (⌊y⌋ : ℚ) := le_antisymm (not_lt.mp hcon) (Int.floor_le y)
        have : rne y = ⌊y⌋ := by rw [heq, rne_intCast, Int.floor_intCast]
        omega
      apply le_antisymm
      · exact Int.ceil_le.mpr (by push_cast; exact (Int.lt_floor_add_one y).le)
      · have : ⌊y⌋ < ⌈y⌉ := Int.lt_ceil.mpr hlt
        omega
    rw [h, hc]

/-- A faithful `pow (x, 2)` is exact on a square that is an integer of at most
53 bits. -/
theorem pow_faithful_natCast {pow2 : ℚ → ℚ} (hpow : pow_faithful pow2) (d : ℚ) (N : ℕ)
    (hd : d * d = (N : ℚ)) (hN : N ≤ 2 ^ 53) : pow2 d = (N : ℚ) := by
  have hr : roundTo DBL_MANT_DIG (N : ℚ) = (N : ℚ) :=
    roundTo_natCast _ (by decide) N hN
  obtain ⟨h1, h2⟩ := rdn_rup_of_roundTo_eq DBL_MANT_DIG hr
  rcases hpow d with h | h
  · rw [h, hd, h1]
  · rw [h, hd, h2]

/-- The result of a faithful `pow (x, 2)` is within a factor `1 ± 2 ^ (-52)`
of the exact square. -/
theorem pow_faithful_bounds {pow2 : ℚ → ℚ} (hpow : pow_faithful pow2) (d : ℚ) :
    d * d - d * d * 2 / 2 ^ 53 ≤ pow2 d ∧ pow2 d ≤ d * d + d * d * 2 / 2 ^ 53 := by
  have h0 : 0 ≤ d * d := mul_self_nonneg d
  have a1 := le_rdn DBL_MANT_DIG h0
  have a2 := rdn_le DBL_MANT_DIG (d * d)
  have a3 := le_rup DBL_MANT_DIG (d * d)
  have a4 := rup_le DBL_MANT_DIG h0
  have hP : (2 : ℚ) ^ DBL_MANT_DIG = 2 ^ 53 := rfl
  rw [hP] at a1 a4
  have hnn : 0 ≤ d * d * 2 / 2 ^ 53 := by positivity
  rcases hpow d with h | h
  · rw [h]; exact ⟨a1, by linarith⟩
  · rw [h]; exact ⟨by linarith, a4⟩

/-! ## Every faithful `pow (x, 2)` agrees with one of finitely many choices -/

theorem mem_bool_lists : ∀ (bs : List Bool), bs ∈ bool_lists bs.length
  | [] => by simp [bool_lists]
  | b :: bs => by
    have ih := mem_bool_lists bs
    simp only [List.length_cons, bool_lists, List.mem_append, List.mem_map]
    cases b
    · left; exact ⟨bs, ih, rfl⟩
    · right; exact ⟨bs, ih, rfl⟩

/-- On finitely many arguments a faithful `pow (x, 2)` is one of the
functions `pow_choice`. -/
theorem pow_faithful_choice {pow2 : ℚ → ℚ} (hpow : pow_faithful pow2) :
    ∀ pts : List ℚ, ∃ bs : List Bool, bs.length = pts.length ∧
      ∀ d ∈ pts, pow2 d = pow_choice (pts.zip bs) d
  | [] => ⟨[], rfl, by simp⟩
  | p :: ps => by
    obtain ⟨bs, hlen, hbs⟩ := pow_faithful_choice hpow ps
    rcases hpow p with hp | hp
    · refine ⟨false :: bs, by simp [hlen], ?_⟩
      intro d hd
      simp only [List.zip_cons_cons, pow_choice]
      by_cases hdp : d = p
      · subst hdp; simp [hp]
      · rw [if_neg hdp]
        rcases List.mem_cons.mp hd with h | h
        · exact absurd h hdp
        · exact hbs d h
    · refine ⟨true :: bs, by simp [hlen], ?_⟩
      intro d hd
      simp only [List.zip_cons_cons, pow_choice]
      by_cases hdp : d = p
      · subst hdp; simp [hp]
      · rw [if_neg hdp]
        rcases List.mem_cons.mp hd with h | h
        · exact absurd h hdp
        · exact hbs d h

theorem mem_deviations (data : List ℕ) (x : ℕ) (hx : x ∈ data) :
    fsub DBL_MANT_DIG (ofUInt DBL_MANT_DIG x) (average_of data) ∈ deviations data := by
  unfold deviations
  rw [List.mem_dedup]
  exact List.mem_map.mpr ⟨x, hx, rfl⟩

/-- The standard deviation depends on `pow (x, 2)` only at the deviations. -/
theorem std_dev_of_congr (pow2 pow2' : ℚ → ℚ) (data : List ℕ)
    (h : ∀ d ∈ deviations data, pow2 d = pow2' d) :
    std_dev_of pow2 data = std_dev_of pow2' data := by
  unfold std_dev_of
  congr 2
  apply List.foldl_ext
  intro v x hx
  rw [h _ (mem_deviations data x hx)]

theorem strip_std_dev_congr (pow2 pow2' : ℚ → ℚ) (data : List ℕ) (k : ℤ)
    (h : ∀ d ∈ deviations data, pow2 d = pow2' d) :
    strip_std_dev pow2 data k = strip_std_dev pow2' data k := by
  have hk : ∀ x, strip_keeps pow2 data k x ↔ strip_keeps pow2' data k x := by
    intro x
    unfold strip_keeps
    rw [std_dev_of_congr pow2 pow2' data h]
  have hf : data.filter (fun x => decide (strip_keeps pow2 data k x))
      = data.filter (fun x => decide (strip_keeps pow2' data k x)) := by
    apply List.filter_congr
    intro x _
    exact decide_eq_decide.mpr (hk x)
  rw [strip_std_dev_eq_filter, strip_std_dev_eq_filter, hf]

theorem calc_stats_congr (pow2 pow2' : ℚ → ℚ) (data : List ℕ) (c : c_results_t)
    (h : ∀ d ∈ deviations data, pow2 d = pow2' d) :
    calc_stats pow2 data c = calc_stats pow2' data c := by
  have hfold : ∀ st : ℚ × ℕ × ℕ,
      data.foldl (calc_stats_step pow2 (average_of data)) st
        = data.foldl (calc_stats_step pow2' (average_of data)) st := by
    intro st
    apply List.foldl_ext
    intro v x hx
    unfold calc_stats_step
    rw [h _ (mem_deviations data x hx)]
  unfold calc_stats
  unfold average_of at hfold
  simp only [hfold]

/-- To know the result of `strip_std_dev` for every faithful `pow (x, 2)` it
is enough to evaluate it for each choice of rounding directions at the
deviations. -/
theorem strip_std_dev_of_choices {pow2 : ℚ → ℚ} (hpow : pow_faithful pow2) (data : List ℕ)
    (k : ℤ) (r : ℕ × List ℕ)
    (hall : ∀ bs ∈ bool_lists (deviations data).length,
      strip_std_dev (pow_choice ((deviations data).zip bs)) data k = r) :
    strip_std_dev pow2 data k = r := by
  obtain ⟨bs, hlen, hbs⟩ := pow_faithful_choice hpow (deviations data)
  rw [strip_std_dev_congr pow2 _ data k hbs]
  exact hall bs (hlen ▸ mem_bool_lists bs)

/-- To know the result of `calc_stats` for every faithful `pow (x, 2)` it is
enough to evaluate it for each choice of rounding directions at the
deviations. -/
theorem calc_stats_of_choices {pow2 : ℚ → ℚ} (hpow : pow_faithful pow2) (data : List ℕ)
    (c : c_results_t) (r : Option c_results_t)
    (hall : ∀ bs ∈ bool_lists (deviations data).length,
      calc_stats (pow_choice ((deviations data).zip bs)) data c = r) :
    calc_stats pow2 data c = r := by
  obtain ⟨bs, hlen, hbs⟩ := pow_faithful_choice hpow (deviations data)
  rw [calc_stats_congr pow2 _ data c hbs]
  exact hall bs (hlen ▸ mem_bool_lists bs)

/-- Where the square is representable a faithful `pow (x, 2)` returns it, as
the correctly rounded square does. -/
theorem pow_eq_fsq_of_exact {pow2 : ℚ → ℚ} (hpow : pow_faithful pow2) (d : ℚ)
    (h : rdn DBL_MANT_DIG (d * d) = rup DBL_MANT_DIG (d * d)) : pow2 d = fsq DBL_MANT_DIG d := by
  have h1 : pow2 d = rdn DBL_MANT_DIG (d * d) := by
    rcases hpow d with e | e
    · exact e
    · rw [e, h]
  have h2 : fsq DBL_MANT_DIG d = rdn DBL_MANT_DIG (d * d) := by
    rcases fsq_faithful d with e | e
    · exact e
    · rw [e, h]
  rw [h1, h2]

/-- When the squares of all deviations are representable, `strip_std_dev`
returns the same for every faithful `pow (x, 2)`. -/
theorem strip_std_dev_eq_fsq {pow2 : ℚ → ℚ} (hpow : pow_faithful pow2) (data : List ℕ)
    (k : ℤ)
    (hex : ∀ d ∈ deviations data, rdn DBL_MANT_DIG (d * d) = rup DBL_MANT_DIG (d * d)) :
    strip_std_dev pow2 data k = strip_std_dev (fsq DBL_MANT_DIG) data k :=
  strip_std_dev_congr pow2 _ data k (fun d hd => pow_eq_fsq_of_exact hpow d (hex d hd))

/-- When the squares of all deviations are representable, `calc_stats`
returns the same for every faithful `pow (x, 2)`. -/
theorem calc_stats_eq_fsq {pow2 : ℚ → ℚ} (hpow : pow_faithful pow2) (data : List ℕ)
    (c : c_results_t)
    (hex : ∀ d ∈ deviations data, rdn DBL_MANT_DIG (d * d) = rup DBL_MANT_DIG (d * d)) :
    calc_stats pow2 data c = calc_stats (fsq DBL_MANT_DIG) data c :=
  calc_stats_congr pow2 _ data c (fun d hd => pow_eq_fsq_of_exact hpow d (hex d hd))

/-- A field of the result of `calc_stats`, when the squares of all deviations
are representable. -/
theorem calc_stats_map_eq_fsq {α : Type} {pow2 : ℚ → ℚ} (hpow : pow_faithful pow2)
    (data : List ℕ) (c : c_results_t) (f : c_results_t → α)
    (hex : ∀ d ∈ deviations data, rdn DBL_MANT_DIG (d * d) = rup DBL_MANT_DIG (d * d)) :
    (calc_stats pow2 data c).map f = (calc_stats (fsq DBL_MANT_DIG) data c).map f := by
  rw [calc_stats_eq_fsq hpow data c hex]

/-! ## `calc_stats`: ordering of `min`, `average`, `max`; exactness of `min`, `max` -/

/-- C3, counterexample. For three samples of 3002399751580333 ns each, the
`uint64_t` sum 9007199254740999 becomes the `double` 9007199254741000 and the
average 3002399751580333.5, above `max = 3002399751580333`; and for the single
sample `2 ^ 64 - 1` the average is `2 ^ 64`, whose conversion to `uint64_t` is
undefined, so no result is populated.  Both hold whatever a faithful
`pow (x, 2)` returns. -/
theorem calc_stats_average_above_max :
    ((3002399751580333 : ℕ) : ℚ) < 6004799503160667 / 2 ∧
      (∀ pow2 : ℚ → ℚ, pow_faithful pow2 →
        calc_stats pow2 [3002399751580333, 3002399751580333, 3002399751580333]
            ⟨0, 0, 0, 0, 0, 0, 0⟩
          = some ⟨6004799503160667 / 2, 1 / 2, 3002399751580333, 3002399751580333,
              0, 0, 0⟩) ∧
      (∀ pow2 : ℚ → ℚ, pow_faithful pow2 →
        calc_stats pow2 [2 ^ 64 - 1] ⟨0, 0, 0, 0, 0, 0, 0⟩ = none) :=
  ⟨by decide!, fun _ hpow => (calc_stats_eq_fsq hpow _ _ (by decide!)).trans (by decide!),
    fun _ hpow => (calc_stats_eq_fsq hpow _ _ (by decide!)).trans (by decide!)⟩

/-- C3, amended. For every non-empty sample sequence whose `uint64_t` sum is at
most `2 ^ 64 - 1025`, `calc_stats` populates a result with
`min ≤ average < max + 1` and `std_dev ≥ 0`; and `average ≤ max` whenever the
samples add up to at most `2 ^ 53`. -/
theorem calc_stats_bounds (pow2 : ℚ → ℚ) (data : List ℕ) (c : c_results_t) (hne : data ≠ [])
    (hs : sum_u64 data ≤ 2 ^ 64 - 1025) :
    ∃ c', calc_stats pow2 data c = some c' ∧
      (c'.min : ℚ) ≤ c'.average ∧ c'.average < (c'.max : ℚ) + 1 ∧ 0 ≤ c'.std_dev ∧
      (data.sum ≤ 2 ^ 53 → c'.average ≤ (c'.max : ℚ)) := by
  have h0 := average_of_nonneg data
  have h1 := average_of_lt data hne hs
  refine ⟨_, calc_stats_eq pow2 data c hne h0 h1, ?_, ?_, fsqrt_nonneg _ _, ?_⟩
  · obtain ⟨m1, _, _⟩ := calc_stats_fold_min pow2 (average_of data) data
      (0, ⌊average_of data⌋.toNat, ⌊average_of data⌋.toNat)
    have : ((data.foldl (calc_stats_step pow2 (average_of data))
        (0, ⌊average_of data⌋.toNat, ⌊average_of data⌋.toNat)).2.1 : ℚ)
        ≤ ((⌊average_of data⌋.toNat : ℕ) : ℚ) := by exact_mod_cast m1
    exact le_trans this (floor_toNat_le h0)
  · obtain ⟨m1, _, _⟩ := calc_stats_fold_max pow2 (average_of data) data
      (0, ⌊average_of data⌋.toNat, ⌊average_of data⌋.toNat)
    have : ((⌊average_of data⌋.toNat : ℕ) : ℚ)
        ≤ ((data.foldl (calc_stats_step pow2 (average_of data))
          (0, ⌊average_of data⌋.toNat, ⌊average_of data⌋.toNat)).2.2 : ℚ) := by
      exact_mod_cast m1
    have h2 := lt_floor_toNat_add_one (average_of data)
    show average_of data < _
    linarith
  · intro hsum
    obtain ⟨lo, hlo, hlo'⟩ := exists_min_mem data hne
    obtain ⟨hi, hhi, hhi'⟩ := exists_max_mem data hne
    obtain ⟨_, hb⟩ := average_of_between data hne hsum lo hi hlo hhi hlo' hhi'
    obtain ⟨_, m2, _⟩ := calc_stats_fold_max pow2 (average_of data) data
      (0, ⌊average_of data⌋.toNat, ⌊average_of data⌋.toNat)
    have : (hi : ℚ) ≤ ((data.foldl (calc_stats_step pow2 (average_of data))
        (0, ⌊average_of data⌋.toNat, ⌊average_of data⌋.toNat)).2.2 : ℚ) := by
      exact_mod_cast m2 hi hhi
    exact le_trans hb this

/-- Witness: the ordering of `min`, `average` and `max` for the samples
`100, 102, 101, 99, 100`. -/
theorem calc_stats_bounds_witness :
    ∃ c', calc_stats (fsq DBL_MANT_DIG) [100, 102, 101, 99, 100] ⟨0, 0, 0, 0, 0, 0, 0⟩ = some c' ∧
      (c'.min : ℚ) ≤ c'.average ∧ c'.average < (c'.max : ℚ) + 1 ∧ 0 ≤ c'.std_dev ∧
      (([100, 102, 101, 99, 100] : List ℕ).sum ≤ 2 ^ 53 → c'.average ≤ (c'.max : ℚ)) :=
  calc_stats_bounds (fsq DBL_MANT_DIG) [100, 102, 101, 99, 100] ⟨0, 0, 0, 0, 0, 0, 0⟩ (by decide) (by decide!)

theorem calc_stats_fold_v (pow2 : ℚ → ℚ) (average : ℚ) (data : List ℕ) :
    ∀ st : ℚ × ℕ × ℕ,
      (data.foldl (calc_stats_step pow2 average) st).1
        = data.foldl (fun v x => fadd DBL_MANT_DIG v
            (pow2 (fsub DBL_MANT_DIG (ofUInt DBL_MANT_DIG x) average))) st.1 := by
  induction data with
  | nil => intro st; rfl
  | cons y ys ih =>
    intro st
    simp only [List.foldl_cons]
    rw [ih]
    rfl

theorem sq_dev_cast (μ x : ℕ) :
    ((sq_dev μ x : ℕ) : ℚ) = ((x : ℚ) - (μ : ℚ)) * ((x : ℚ) - (μ : ℚ)) := by
  unfold sq_dev
  rw [Nat.cast_mul, Nat.cast_natAbs, Int.cast_abs]
  push_cast
  exact abs_mul_abs_self ((x : ℚ) - (μ : ℚ))

/-- One `double` step of the accumulation is exact on small integers. -/
theorem sq_dev_step_exact (pow2 : ℚ → ℚ) (hpow : pow_faithful pow2) (μ x v : ℕ) (hx : x ≤ 2 ^ 53) (hv : v + sq_dev μ x ≤ 2 ^ 53) :
    fadd DBL_MANT_DIG (v : ℚ)
        (pow2 (fsub DBL_MANT_DIG (ofUInt DBL_MANT_DIG x) (μ : ℚ)))
      = ((v + sq_dev μ x : ℕ) : ℚ) := by
  have hp : 1 ≤ DBL_MANT_DIG := by decide
  have hP : (2 : ℕ) ^ DBL_MANT_DIG = 2 ^ 53 := rfl
  have hd : sq_dev μ x ≤ 2 ^ 53 := by omega
  have habs : |(x : ℤ) - (μ : ℤ)| < 2 ^ DBL_MANT_DIG := by
    have h1 : ((x : ℤ) - (μ : ℤ)).natAbs * ((x : ℤ) - (μ : ℤ)).natAbs ≤ 2 ^ 53 := hd
    have h2 : ((x : ℤ) - (μ : ℤ)).natAbs < 2 ^ 53 := by
      by_contra hcon
      push_neg at hcon
      have := Nat.mul_le_mul hcon hcon
      have h3 : (2 : ℕ) ^ 53 < 2 ^ 53 * 2 ^ 53 := by norm_num
      omega
    rw [Int.abs_eq_natAbs]
    have : (((x : ℤ) - (μ : ℤ)).natAbs : ℤ) < ((2 ^ 53 : ℕ) : ℤ) := by exact_mod_cast h2
    simpa [DBL_MANT_DIG] using this
  have e1 : ofUInt DBL_MANT_DIG x = (x : ℚ) := ofUInt_of_le _ hp x (by rw [hP]; exact hx)
  have e2 : fsub DBL_MANT_DIG (x : ℚ) (μ : ℚ) = (x : ℚ) - (μ : ℚ) := by
    unfold fsub
    have := roundTo_intCast DBL_MANT_DIG ((x : ℤ) - (μ : ℤ)) habs
    push_cast at this
    exact this
  have e3 : pow2 ((x : ℚ) - (μ : ℚ)) = ((sq_dev μ x : ℕ) : ℚ) := by
    exact pow_faithful_natCast hpow _ _ (sq_dev_cast μ x).symm hd
  rw [e1, e2, e3]
  unfold fadd
  rw [← Nat.cast_add]
  exact roundTo_natCast _ hp _ (by rw [hP]; exact hv)

/-- The `double` accumulation of squared deviations from an integer mean is
exact as long as it stays within 53 bits. -/
theorem sq_dev_fold_exact (pow2 : ℚ → ℚ) (hpow : pow_faithful pow2) (μ : ℕ) (data : List ℕ) :
    ∀ v : ℕ, (∀ x ∈ data, x ≤ 2 ^ 53) → v + (data.map (sq_dev μ)).sum ≤ 2 ^ 53 →
      data.foldl (fun v x => fadd DBL_MANT_DIG v
          (pow2 (fsub DBL_MANT_DIG (ofUInt DBL_MANT_DIG x) (μ : ℚ)))) (v : ℚ)
        = ((v + (data.map (sq_dev μ)).sum : ℕ) : ℚ) := by
  induction data with
  | nil => intro v _ _; simp
  | cons y ys ih =>
    intro v hx hv
    simp only [List.map_cons, List.sum_cons] at hv
    simp only [List.foldl_cons, List.map_cons, List.sum_cons]
    rw [sq_dev_step_exact pow2 hpow μ y v (hx y (List.mem_cons_self _ _)) (by omega),
      ih (v + sq_dev μ y) (fun x h => hx x (List.mem_cons_of_mem _ h)) (by omega)]
    congr 1
    omega

theorem sq_dev_map_sum (μ : ℕ) (l : List ℕ) :
    (l.map (fun (x : ℕ) => ((x : ℚ) - (μ : ℚ)) ^ 2)).sum
      = (((l.map (sq_dev μ)).sum : ℕ) : ℚ) := by
  induction l with
  | nil => simp
  | cons y ys ih =>
    simp only [List.map_cons, List.sum_cons, Nat.cast_add]
    rw [ih, sq_dev_cast]
    ring

theorem sq_dev_sum_eq (μ : ℕ) (data : List ℕ) (hμ : mean data = (μ : ℚ)) :
    sq_dev_sum data = (((data.map (sq_dev μ)).sum : ℕ) : ℚ) := by
  unfold sq_dev_sum
  rw [hμ]
  exact sq_dev_map_sum μ data

/-- The average computed from a sum of at most `2 ^ 53` is the mean rounded to
`double`. -/
theorem average_of_eq_roundTo (data : List ℕ) (hs : data.sum ≤ 2 ^ 53) :
    average_of data = roundTo DBL_MANT_DIG (mean data) := by
  have hp : 1 ≤ DBL_MANT_DIG := by decide
  have hP : (2 : ℕ) ^ DBL_MANT_DIG = 2 ^ 53 := rfl
  have hsum : sum_u64 data = data.sum := sum_u64_eq_sum data (by omega)
  unfold average_of fdiv ofInt mean
  rw [hsum, ofUInt_of_le _ hp _ (by rw [hP]; exact hs)]
  push_cast
  rfl

/-- C15, counterexample. From time stamp `(0, 0)` to `(20000000000, 0)` the
elapsed time is `2 * 10 ^ 19` ns, which no `uint64_t` can hold; in
`timespec_sub` the `long` product `NSEC_PER_SEC * tv_sec` overflows. -/
theorem timespec_sub_overflow :
    normalized ⟨0, 0⟩ ∧ normalized ⟨20000000000, 0⟩ ∧ not_later ⟨0, 0⟩ ⟨20000000000, 0⟩ ∧
      timespec_sub ⟨0, 0⟩ ⟨20000000000, 0⟩ = none ∧
      ¬ elapsed ⟨0, 0⟩ ⟨20000000000, 0⟩ < 2 ^ 64 := by
  unfold normalized not_later
  decide

/-- C15, amended. For normalized time stamps `a`, `b`, `c` with non-negative
seconds, each not later than the next, and with `c` at most `2 ^ 63 - 1`
nanoseconds after the epoch of the clock (so that no `long` overflows),
`timespec_sub (a, b)` is the exact elapsed time
`(b.tv_sec - a.tv_sec) * 10 ^ 9 + (b.tv_nsec - a.tv_nsec)`; consequently
`timespec_sub (a, a) = 0` and
`timespec_sub (a, b) + timespec_sub (b, c) = timespec_sub (a, c)`. -/
theorem timespec_sub_exact (a b c : timespec) (ha : normalized a) (hb : normalized b)
    (hc : normalized c) (hab : not_later a b) (hbc : not_later b c)
    (hrange : NSEC_PER_SEC * c.tv_sec + c.tv_nsec < 2 ^ 63) :
    timespec_sub a b = some (elapsed a b).toNat ∧ 0 ≤ elapsed a b ∧
      timespec_sub a a = some 0 ∧
      timespec_sub b c = some (elapsed b c).toNat ∧
      timespec_sub a c = some (elapsed a c).toNat ∧
      (elapsed a b).toNat + (elapsed b c).toNat = (elapsed a c).toNat := by
  obtain ⟨a1, a2, a3⟩ := ha
  obtain ⟨b1, b2, b3⟩ := hb
  obtain ⟨c1, c2, c3⟩ := hc
  unfold not_later at hab hbc
  unfold NSEC_PER_SEC at hrange
  norm_num at a3 b3 c3 hrange
  have key : ∀ x y : timespec, 0 ≤ x.tv_sec → 0 ≤ x.tv_nsec → x.tv_nsec < 1000000000 →
      0 ≤ y.tv_sec → 0 ≤ y.tv_nsec → y.tv_nsec < 1000000000 →
      (x.tv_sec < y.tv_sec ∨ (x.tv_sec = y.tv_sec ∧ x.tv_nsec ≤ y.tv_nsec)) →
      1000000000 * y.tv_sec + y.tv_nsec < 9223372036854775808 →
      timespec_sub x y = some (elapsed x y).toNat ∧ 0 ≤ elapsed x y := by
    intro x y x1 x2 x3 y1 y2 y3 hxy hr
    have hcond : in_long (NSEC_PER_SEC * y.tv_sec) ∧
        in_long (NSEC_PER_SEC * y.tv_sec + y.tv_nsec) ∧
        in_long (NSEC_PER_SEC * x.tv_sec) ∧ in_long (NSEC_PER_SEC * x.tv_sec + x.tv_nsec) := by
      unfold in_long NSEC_PER_SEC
      norm_num
      refine ⟨⟨?_, ?_⟩, ⟨?_, ?_⟩, ⟨?_, ?_⟩, ⟨?_, ?_⟩⟩ <;> omega
    have hnn : 0 ≤ elapsed x y := by
      unfold elapsed
      norm_num
      omega
    refine ⟨?_, hnn⟩
    unfold timespec_sub
    rw [if_pos hcond]
    unfold elapsed at hnn ⊢
    unfold NSEC_PER_SEC
    norm_num at hnn ⊢
    congr 1
    omega
  have hab' := key a b a1 a2 a3 b1 b2 b3 hab (by omega)
  have hbc' := key b c b1 b2 b3 c1 c2 c3 hbc hrange
  have hac' := key a c a1 a2 a3 c1 c2 c3 (by omega) hrange
  have haa' := key a a a1 a2 a3 a1 a2 a3 (Or.inr ⟨rfl, le_rfl⟩) (by omega)
  refine ⟨hab'.1, hab'.2, ?_, hbc'.1, hac'.1, ?_⟩
  · rw [haa'.1]; unfold elapsed; simp
  · have e1 := hab'.2
    have e2 := hbc'.2
    have e3 : elapsed a c = elapsed a b + elapsed b c := by unfold elapsed; ring
    omega

/-- Witness: one second and a half, then two more seconds. -/
theorem timespec_sub_exact_witness :
    timespec_sub ⟨5, 900000000⟩ ⟨7, 400000000⟩ = some 1500000000 ∧
      timespec_sub ⟨7, 400000000⟩ ⟨9, 400000000⟩ = some 2000000000 ∧
      timespec_sub ⟨5, 900000000⟩ ⟨9, 400000000⟩ = some 3500000000 := by
  have h := timespec_sub_exact ⟨5, 900000000⟩ ⟨7, 400000000⟩ ⟨9, 400000000⟩
    (by unfold normalized; decide) (by unfold normalized; decide) (by unfold normalized; decide)
    (by unfold not_later; decide) (by unfold not_later; decide) (by decide)
  exact ⟨h.1.trans (by decide), h.2.2.2.1.trans (by decide), h.2.2.2.2.1.trans (by decide)⟩

/-! ## `calibrate` -/

theorem count_trials_append (l₁ l₂ : List event) :
    count_trials (l₁ ++ l₂) = count_trials l₁ + count_trials l₂ := by
  unfold count_trials
  rw [List.filter_append, List.length_append]

theorem count_trials_rest (rest_type : ℤ) : count_trials (rest rest_type) = 0 := by
  unfold rest count_trials
  split_ifs <;> rfl

theorem trial_events_succ (l r : ℤ) (n : ℕ) :
    trial_events l r (n + 1) = [event.work l] ++ rest r ++ trial_events l r n := rfl

theorem count_trials_trial_events (l r : ℤ) : ∀ n, count_trials (trial_events l r n) = n
  | 0 => rfl
  | n + 1 => by
    rw [trial_events_succ, count_trials_append, count_trials_append, count_trials_rest,
      count_trials_trial_events l r n]
    have : count_trials [event.work l] = 1 := rfl
    omega

/-- The trial loop when every clock reading succeeds and no subtraction
overflows: it runs all trials and retains the samples of the trials
`t ≥ 1`. -/
theorem calibrate_trials_ok (l r : ℤ) (clock : ℕ → Option timespec) (d : ℕ → ℕ) :
    ∀ (remaining t : ℕ) (results : List ℕ) (trace : List event),
      (∀ i, t ≤ i → i < t + remaining →
        ∃ s e, clock (2 * i) = some s ∧ clock (2 * i + 1) = some e ∧
          (1 ≤ i → timespec_sub s e = some (d i))) →
      calibrate_trials l r clock remaining t results trace
        = (trace ++ trial_events l r remaining,
            .finished (results ++ ((List.range' t remaining).filter (fun i => 0 < i)).map d))
  | 0, t, results, trace, _ => by
    simp [calibrate_trials, trial_events]
  | remaining + 1, t, results, trace, h => by
    obtain ⟨s, e, hs, he, hd⟩ := h t le_rfl (by omega)
    have ih := fun res tr => calibrate_trials_ok l r clock d remaining (t + 1) res tr
      (fun i h1 h2 => h i (by omega) (by omega))
    unfold calibrate_trials
    simp only [hs, he]
    by_cases ht : t > 0
    · rw [if_pos ht]
      simp only [hd (by omega)]
      rw [ih]
      simp [trial_events, List.range'_succ, ht, List.append_assoc]
    · rw [if_neg ht]
      rw [ih]
      simp [trial_events, List.range'_succ, ht, List.append_assoc]

/-- The run of `calibrate` for a work kind that calibrates, when every clock
reading succeeds and no subtraction overflows. -/
theorem calibrate_ok (pow2 : ℚ → ℚ) (work : work_t) (hw : work.calibrates = true) (n cycles : ℕ)
    (hn : n < INT_MAX) (r : ℤ) (clock : ℕ → Option timespec) (d : ℕ → ℕ)
    (hclock : ∀ t, t ≤ n → ∃ s e, clock (2 * t) = some s ∧ clock (2 * t + 1) = some e ∧
      (1 ≤ t → timespec_sub s e = some (d t))) :
    calibrate pow2 work n cycles r clock
      = (trial_events (calibrate_loop_num work cycles) r (n + 1),
          calc_stats pow2 ((List.range n).map (fun i => d (i + 1))) (default_results cycles)) := by
  have h := calibrate_trials_ok (calibrate_loop_num work cycles) r clock d (n + 1) 0 [] []
    (fun i _ h2 => hclock i (by omega))
  have hsamples : ((List.range' 0 (n + 1)).filter (fun i => decide (0 < i))).map d
      = (List.range n).map (fun i => d (i + 1)) := by
    rw [List.range'_succ]
    have hf : (List.range' (0 + 1) n).filter (fun i => decide (0 < i)) = List.range' (0 + 1) n := by
      apply List.filter_eq_self.mpr
      intro a ha
      have := (List.mem_range'_1.mp ha).1
      simp; omega
    rw [List.filter_cons_of_neg (by simp), hf, List.range_eq_range']
    simp [List.range'_eq_map_range, Nat.add_comm]
  simp only [List.nil_append, hsamples] at h
  unfold calibrate
  unfold calibrate_loop_num at h ⊢
  cases work <;> simp_all [work_t.calibrates, work_t.isAsm]

theorem calibrate_trials_work (l r : ℤ) (clock : ℕ → Option timespec) :
    ∀ (remaining t : ℕ) (results : List ℕ) (trace : List event),
      (∀ l', event.work l' ∈ trace → l' = l) →
      ∀ l', event.work l' ∈ (calibrate_trials l r clock remaining t results trace).1 → l' = l
  | 0, t, results, trace, h => by
    simpa [calibrate_trials] using h
  | remaining + 1, t, results, trace, h => by
    have hrest : ∀ l', event.work l' ∉ rest r := by
      intro l'
      unfold rest
      split_ifs <;> simp
    have hnext : ∀ l', event.work l' ∈ trace ++ [event.work l] ++ rest r → l' = l := by
      intro l' hl
      rcases List.mem_append.mp hl with h1 | h1
      · rcases List.mem_append.mp h1 with h2 | h2
        · exact h l' h2
        · simpa using h2
      · exact absurd h1 (hrest l')
    have ih := fun res => calibrate_trials_work l r clock remaining (t + 1) res
      (trace ++ [event.work l] ++ rest r) hnext
    intro l' hl
    unfold calibrate_trials at hl
    split at hl
    · simp at hl
      exact h l' hl
    · split at hl
      · simp at hl
        rcases hl with h1 | h1
        · exact h l' h1
        · exact h1
      · split_ifs at hl
        · split at hl
          · simp at hl
            rcases hl with h1 | h1
            · exact h l' h1
            · exact h1
          · exact ih _ l' hl
        · exact ih _ l' hl

theorem calc_stats_frame (pow2 : ℚ → ℚ) (data : List ℕ) (c c' : c_results_t) (h : calc_stats pow2 data c = some c') :
    c'.calibration_cycles = c.calibration_cycles ∧ c'.target_nsec = c.target_nsec ∧
      c'.loop_num = c.loop_num := by
  unfold calc_stats at h
  split_ifs at h
  simp only [] at h
  split at h
  · cases h
  · cases h; simp

/-- C11, counterexample. Built with `WORK_NULL`, `calibrate (5, ...)` returns
at once: it runs no timed trial and leaves the zeroed defaults in the result,
whatever the clock would return. -/
theorem calibrate_null_runs_no_trial :
    (1 ≤ 5 ∧ count_trials [] = 0) ∧
      ∀ pow2 : ℚ → ℚ,
        calibrate pow2 .WORK_NULL 5 50 REST_SLEEP (fun k => some ⟨k, 0⟩)
          = ([], some ⟨0, 0, 0, 0, 50, 0, 0⟩) :=
  ⟨by decide, fun _ => rfl⟩

/-- C11, amended. For a work kind that calibrates (`WORK_MXM` or one of the
`WORK_ASM_*`), every `num_trials = n < INT_MAX`, and every clock whose readings
succeed and give the elapsed times `d t` for the trials `t = 1, ..., n`:
`calibrate` runs exactly `n + 1` timed trials and populates the result with
`calc_stats` of exactly the `n` samples `d 1, ..., d n`; the readings of the
first trial have no influence on the result.  Built with `WORK_NULL`,
`calibrate` runs no trial and returns the zeroed default result, for every
argument; built with no known work kind it reports the error, runs no trial
and returns the default result. -/
theorem calibrate_discards_first_trial (pow2 : ℚ → ℚ) (work : work_t)
    (hw : work.calibrates = true) (n cycles : ℕ) (hn : n < INT_MAX) (r : ℤ)
    (clock : ℕ → Option timespec) (d : ℕ → ℕ)
    (hclock : ∀ t, t ≤ n → ∃ s e, clock (2 * t) = some s ∧ clock (2 * t + 1) = some e ∧
      (1 ≤ t → timespec_sub s e = some (d t))) :
    count_trials (calibrate pow2 work n cycles r clock).1 = n + 1 ∧
      (calibrate pow2 work n cycles r clock).2
        = calc_stats pow2 ((List.range n).map (fun i => d (i + 1))) (default_results cycles) ∧
      (∀ clock' : ℕ → Option timespec, (∀ k, 2 ≤ k → clock' k = clock k) →
        (∃ s, clock' 0 = some s) → (∃ e, clock' 1 = some e) →
        (calibrate pow2 work n cycles r clock').2 = (calibrate pow2 work n cycles r clock).2) ∧
      (∀ (m c : ℕ) (r' : ℤ) (clock' : ℕ → Option timespec),
        calibrate pow2 .WORK_NULL m c r' clock' = ([], some ⟨0, 0, 0, 0, c, 0, 0⟩) ∧
        count_trials (calibrate pow2 .WORK_NULL m c r' clock').1 = 0) ∧
      (∀ (m c : ℕ) (r' : ℤ) (clock' : ℕ → Option timespec),
        calibrate pow2 .WORK_UNKNOWN m c r' clock'
          = ([.error_unknown_work], some ⟨0, 0, 0, 0, c, 0, 0⟩) ∧
        count_trials (calibrate pow2 .WORK_UNKNOWN m c r' clock').1 = 0) := by
  have h := calibrate_ok pow2 work hw n cycles hn r clock d hclock
  refine ⟨?_, ?_, ?_, fun _ _ _ _ => ⟨rfl, rfl⟩, fun _ _ _ _ => ⟨rfl, rfl⟩⟩
  · rw [h]; exact count_trials_trial_events _ _ _
  · rw [h]
  · intro clock' hk ⟨s0, hs0⟩ ⟨e0, he0⟩
    have hclock' : ∀ t, t ≤ n → ∃ s e, clock' (2 * t) = some s ∧ clock' (2 * t + 1) = some e ∧
        (1 ≤ t → timespec_sub s e = some (d t)) := by
      intro t ht
      rcases Nat.eq_zero_or_pos t with rfl | hpos
      · exact ⟨s0, e0, hs0, he0, fun h => absurd h (by omega)⟩
      · obtain ⟨s, e, h1, h2, h3⟩ := hclock t ht
        exact ⟨s, e, by rw [hk _ (by omega)]; exact h1, by rw [hk _ (by omega)]; exact h2, h3⟩
    rw [h, calibrate_ok pow2 work hw n cycles hn r clock' d hclock']

/-- Witness: two retained trials of 5 s and 9 s after a first trial of 1 s;
and no trial with `WORK_NULL`. -/
theorem calibrate_discards_first_trial_witness :
    count_trials (calibrate (fsq DBL_MANT_DIG) .WORK_MXM 2 50 REST_SLEEP
        (fun k => some ⟨k * k, 0⟩)).1 = 3 ∧
      (calibrate (fsq DBL_MANT_DIG) .WORK_MXM 2 50 REST_SLEEP (fun k => some ⟨k * k, 0⟩)).2
        = calc_stats (fsq DBL_MANT_DIG) [5000000000, 9000000000] (default_results 50) ∧
      calibrate (fsq DBL_MANT_DIG) .WORK_NULL 2 50 REST_SLEEP (fun k => some ⟨k * k, 0⟩)
        = ([], some ⟨0, 0, 0, 0, 50, 0, 0⟩) := by
  have h := calibrate_discards_first_trial (fsq DBL_MANT_DIG) .WORK_MXM rfl 2 50 (by decide)
    REST_SLEEP (fun k => some ⟨k * k, 0⟩) (fun t => (4 * t + 1) * 1000000000)
    (by
      intro t ht
      interval_cases t <;> exact ⟨_, _, rfl, rfl, fun _ => by decide⟩)
  exact ⟨h.1, h.2.1, (h.2.2.2.1 2 50 REST_SLEEP _).1⟩

/-- C12, counterexample. Built with `WORK_MXM`, `calibrate` called with
`cycles_per_trial = 50` records `calibration_cycles = 50`, not 1, whatever a
faithful `pow (x, 2)` returns. -/
theorem calibrate_mxm_records_cycles :
    (50 : ℕ) ≠ 1 ∧
      ∀ pow2 : ℚ → ℚ, pow_faithful pow2 →
        (calibrate pow2 .WORK_MXM 1 50 REST_SLEEP (fun k => some ⟨k, 0⟩)).2.map
          c_results_t.calibration_cycles = some 50 := by
  refine ⟨by decide, fun pow2 hpow => ?_⟩
  have h := calibrate_ok pow2 .WORK_MXM rfl 1 50 (by decide) REST_SLEEP
    (fun k => some ⟨k, 0⟩) (fun _ => 1000000000)
    (by
      intro t ht
      interval_cases t <;> exact ⟨_, _, rfl, rfl, fun _ => by decide⟩)
  rw [h]
  exact (calc_stats_map_eq_fsq hpow [1000000000] _ _ (by decide!)).trans (by decide!)

/-- C12, amended. For every work kind, `WORK_MXM` included, the
`calibration_cycles` recorded by `calibrate` is the `cycles_per_trial`
argument; every trial runs the work unit with the local `loop_num`, which is 1
for `WORK_MXM` whatever `cycles_per_trial` is, and `(int) cycles_per_trial` for
a parametrized kind. -/
theorem calibrate_calibration_cycles (pow2 : ℚ → ℚ) (work : work_t) (n cycles : ℕ) (r : ℤ)
    (clock : ℕ → Option timespec) :
    (∀ c', (calibrate pow2 work n cycles r clock).2 = some c' → c'.calibration_cycles = cycles) ∧
      (∀ l, event.work l ∈ (calibrate pow2 work n cycles r clock).1 →
        l = calibrate_loop_num work cycles) ∧
      calibrate_loop_num .WORK_MXM cycles = 1 ∧
      (work.isAsm = true → calibrate_loop_num work cycles = toInt32 cycles) := by
  have hw := calibrate_trials_work (calibrate_loop_num work cycles) r clock (n + 1) 0 [] []
    (by simp)
  refine ⟨?_, ?_, rfl, ?_⟩
  · intro c' hc
    unfold calibrate at hc
    split at hc
    · cases hc; rfl
    · cases hc; rfl
    · simp only [] at hc
      by_cases hn : n < INT_MAX
      · rw [if_pos hn] at hc
        split at hc
        · exact (calc_stats_frame pow2 _ _ _ hc).1
        · cases hc; rfl
        · cases hc
      · rw [if_neg hn] at hc
        cases hc
  · intro l hl
    unfold calibrate at hl
    split at hl
    · simp at hl
    · simp at hl
    · simp only [] at hl
      unfold calibrate_loop_num at hw ⊢
      by_cases hn : n < INT_MAX
      · rw [if_pos hn] at hl
        split at hl
        all_goals
          rename_i heq
          apply hw
          rw [heq]
          exact hl
      · rw [if_neg hn] at hl
        simp at hl
  · intro ha
    unfold calibrate_loop_num
    cases work <;> simp_all [work_t.isAsm]

/-- C14, counterexample. With `rest_type = 7`, neither `REST_SLEEP` nor
`REST_DEV_NULL`, `calibrate (1, ...)` built with `WORK_MXM` runs both timed
trials, printing the unknown-rest error and sleeping after each, and computes
the statistics of the retained trial, whatever a faithful `pow (x, 2)`
returns. -/
theorem calibrate_unknown_rest_runs_trials :
    ((7 : ℤ) ≠ REST_SLEEP ∧ (7 : ℤ) ≠ REST_DEV_NULL) ∧
      ∀ pow2 : ℚ → ℚ, pow_faithful pow2 →
        calibrate pow2 .WORK_MXM 1 50 7 (fun k => some ⟨k, 0⟩)
          = ([.work 1, .error_unknown_rest, .sleep, .work 1, .error_unknown_rest, .sleep],
              some ⟨1000000000, 0, 1000000000, 1000000000, 50, 0, 0⟩) := by
  refine ⟨by decide, fun pow2 hpow => ?_⟩
  have h := calibrate_ok pow2 .WORK_MXM rfl 1 50 (by decide) 7
    (fun k => some ⟨k, 0⟩) (fun _ => 1000000000)
    (by
      intro t ht
      interval_cases t <;> exact ⟨_, _, rfl, rfl, fun _ => by decide⟩)
  rw [h]
  have hc : calc_stats pow2 [1000000000] (default_results 50)
      = some ⟨1000000000, 0, 1000000000, 1000000000, 50, 0, 0⟩ :=
    (calc_stats_eq_fsq hpow [1000000000] _ (by decide!)).trans (by decide!)
  have ht : trial_events (calibrate_loop_num .WORK_MXM 50) 7 (1 + 1)
      = [.work 1, .error_unknown_rest, .sleep, .work 1, .error_unknown_rest, .sleep] := by
    decide
  show (trial_events (calibrate_loop_num .WORK_MXM 50) 7 (1 + 1),
    calc_stats pow2 [1000000000] (default_results 50)) = _
  rw [ht, hc]

/-- C14, amended. For every `rest_type` that is neither `REST_SLEEP` nor
`REST_DEV_NULL`, a work kind that calibrates, `num_trials < INT_MAX` and a
clock whose readings succeed: `calibrate` detects the unknown rest type only after each timed
trial, prints the error and falls back to `sleep (1)`; it runs all
`num_trials + 1` trials, the first event being a trial, and computes the same
statistics as with `REST_SLEEP`. -/
theorem calibrate_unknown_rest (pow2 : ℚ → ℚ) (work : work_t) (hw : work.calibrates = true)
    (n cycles : ℕ) (hn : n < INT_MAX) (r : ℤ) (hr1 : r ≠ REST_SLEEP) (hr2 : r ≠ REST_DEV_NULL)
    (clock : ℕ → Option timespec) (d : ℕ → ℕ)
    (hclock : ∀ t, t ≤ n → ∃ s e, clock (2 * t) = some s ∧ clock (2 * t + 1) = some e ∧
      (1 ≤ t → timespec_sub s e = some (d t))) :
    (calibrate pow2 work n cycles r clock).1
        = [.work (calibrate_loop_num work cycles), .error_unknown_rest, .sleep]
            ++ trial_events (calibrate_loop_num work cycles) r n ∧
      count_trials (calibrate pow2 work n cycles r clock).1 = n + 1 ∧
      ((calibrate pow2 work n cycles r clock).1.filter
          (fun e => decide (e = .error_unknown_rest))).length = n + 1 ∧
      (calibrate pow2 work n cycles r clock).2
        = calc_stats pow2 ((List.range n).map (fun i => d (i + 1))) (default_results cycles) ∧
      (calibrate pow2 work n cycles r clock).2 = (calibrate pow2 work n cycles REST_SLEEP clock).2 := by
  have h := calibrate_ok pow2 work hw n cycles hn r clock d hclock
  have hs := calibrate_ok pow2 work hw n cycles hn REST_SLEEP clock d hclock
  have hrest : rest r = [.error_unknown_rest, .sleep] := by
    unfold rest; rw [if_neg hr1, if_neg hr2]
  have hcount : ∀ m, ((trial_events (calibrate_loop_num work cycles) r m).filter
      (fun e => decide (e = .error_unknown_rest))).length = m := by
    intro m
    induction m with
    | zero => rfl
    | succ m ih =>
      rw [trial_events_succ, hrest, List.filter_append, List.length_append, ih]
      simp [List.filter_cons]
      omega
  refine ⟨?_, ?_, ?_, ?_, ?_⟩
  · rw [h]
    show trial_events _ r (n + 1) = _
    rw [trial_events_succ, hrest]
    rfl
  · rw [h]; exact count_trials_trial_events _ _ _
  · rw [h]; exact hcount (n + 1)
  · rw [h]
  · rw [h, hs]

/-- Witness: an unknown rest type 7 with one retained trial. -/
theorem calibrate_unknown_rest_witness :
    (calibrate (fsq DBL_MANT_DIG) .WORK_ASM_NOP 1 50 7 (fun k => some ⟨k, 0⟩)).1
        = [.work (calibrate_loop_num .WORK_ASM_NOP 50), .error_unknown_rest, .sleep]
            ++ trial_events (calibrate_loop_num .WORK_ASM_NOP 50) 7 1 ∧
      count_trials (calibrate (fsq DBL_MANT_DIG) .WORK_ASM_NOP 1 50 7 (fun k => some ⟨k, 0⟩)).1 = 2 := by
  have h := calibrate_unknown_rest (fsq DBL_MANT_DIG) .WORK_ASM_NOP rfl 1 50 (by decide) 7 (by decide) (by decide)
    (fun k => some ⟨k, 0⟩) (fun _ => 1000000000)
    (by
      intro t ht
      interval_cases t <;> exact ⟨_, _, rfl, rfl, fun _ => by decide⟩)
  exact ⟨h.1, h.2.1⟩

/-! ## Reordering the samples -/

/-- With an integer mean and sums within 53 bits the accumulated `v` of
`calc_stats` is exactly the sum of the squared deviations. -/
theorem calc_stats_v_exact (pow2 : ℚ → ℚ) (hpow : pow_faithful pow2) (data : List ℕ) (μ : ℕ) (hμ : mean data = (μ : ℚ))
    (hs : data.sum ≤ 2 ^ 53) (hV : sq_dev_sum data ≤ 2 ^ 53) (st : ℚ × ℕ × ℕ) (hst : st.1 = 0) :
    average_of data = (μ : ℚ) ∧
      (data.foldl (calc_stats_step pow2 (average_of data)) st).1 = sq_dev_sum data := by
  have hp : 1 ≤ DBL_MANT_DIG := by decide
  have hP : (2 : ℕ) ^ DBL_MANT_DIG = 2 ^ 53 := rfl
  rcases eq_or_ne data [] with rfl | hne
  · have h0 : (μ : ℚ) = 0 := by rw [← hμ]; simp [mean]
    refine ⟨?_, ?_⟩
    · rw [h0]; unfold average_of fdiv ofUInt ofInt sum_u64; simp [roundTo_zero]
    · simp [sq_dev_sum, hst]
  have hlen : 1 ≤ data.length := List.length_pos.mpr hne
  have hlenq : (1 : ℚ) ≤ (data.length : ℚ) := by exact_mod_cast hlen
  have hsq : (data.sum : ℚ) ≤ 2 ^ 53 := by
    have : ((data.sum : ℕ) : ℚ) ≤ ((2 ^ 53 : ℕ) : ℚ) := by exact_mod_cast hs
    simpa using this
  have hmean_le : mean data ≤ (data.sum : ℚ) := by
    unfold mean; exact div_le_self (Nat.cast_nonneg _) hlenq
  have hμ53 : μ ≤ 2 ^ 53 := by
    have : ((μ : ℕ) : ℚ) ≤ ((2 ^ 53 : ℕ) : ℚ) := by
      push_cast; rw [← hμ]; linarith
    exact_mod_cast this
  have ha : average_of data = (μ : ℚ) := by
    rw [average_of_eq_roundTo data hs, hμ]
    exact roundTo_natCast _ hp μ (by rw [hP]; exact hμ53)
  have hVeq := sq_dev_sum_eq μ data hμ
  have hV53 : (data.map (sq_dev μ)).sum ≤ 2 ^ 53 := by
    have : (((data.map (sq_dev μ)).sum : ℕ) : ℚ) ≤ ((2 ^ 53 : ℕ) : ℚ) := by
      rw [← hVeq]; refine le_trans hV ?_; norm_num
    exact_mod_cast this
  have hv := sq_dev_fold_exact pow2 hpow μ data 0
    (fun x hx => le_trans (le_sum_of_mem data x hx) hs) (by omega)
  rw [Nat.cast_zero, Nat.zero_add, ← hVeq] at hv
  refine ⟨ha, ?_⟩
  rw [calc_stats_fold_v, ha, hst]
  exact hv

theorem one_sub_u_pos : 0 < one_sub_u := by unfold one_sub_u; norm_num

theorem one_sub_u_le_one : one_sub_u ≤ 1 := by unfold one_sub_u; norm_num

theorem one_sub_u_pow_pos (j : ℕ) : 0 < one_sub_u ^ j := pow_pos one_sub_u_pos j

theorem one_sub_u_pow_le_one (j : ℕ) : one_sub_u ^ j ≤ 1 :=
  pow_le_one₀ one_sub_u_pos.le one_sub_u_le_one

theorem one_sub_u_pow_anti {i j : ℕ} (h : i ≤ j) : one_sub_u ^ j ≤ one_sub_u ^ i :=
  pow_le_pow_of_le_one one_sub_u_pos.le one_sub_u_le_one h

/-- Bernoulli's inequality for the rounding factor. -/
theorem one_sub_le_one_sub_u_pow (j : ℕ) : 1 - (j : ℚ) / 2 ^ 53 ≤ one_sub_u ^ j := by
  have h := one_add_mul_le_pow (show (-2 : ℚ) ≤ -(1 / 2 ^ 53) by norm_num) j
  have e1 : (1 : ℚ) + (j : ℚ) * -(1 / 2 ^ 53) = 1 - (j : ℚ) / 2 ^ 53 := by ring
  have e2 : (1 : ℚ) + -(1 / 2 ^ 53) = one_sub_u := by unfold one_sub_u; ring
  rw [e1, e2] at h
  exact h

theorem roundTo_lower {q : ℚ} (hq : 0 ≤ q) : one_sub_u * q ≤ roundTo DBL_MANT_DIG q := by
  have h := abs_roundTo_sub_le DBL_MANT_DIG q
  rw [abs_of_nonneg hq, abs_le] at h
  have hP : (2 : ℚ) ^ DBL_MANT_DIG = 2 ^ 53 := rfl
  rw [hP] at h
  unfold one_sub_u
  linarith [h.1]

theorem roundTo_upper {q : ℚ} (hq : 0 ≤ q) : one_sub_u * roundTo DBL_MANT_DIG q ≤ q := by
  have h := abs_roundTo_sub_le DBL_MANT_DIG q
  rw [abs_of_nonneg hq, abs_le] at h
  have hP : (2 : ℚ) ^ DBL_MANT_DIG = 2 ^ 53 := rfl
  rw [hP] at h
  have h1 : roundTo DBL_MANT_DIG q ≤ (1 + 1 / 2 ^ 53) * q := by linarith [h.2]
  have h2 : one_sub_u * roundTo DBL_MANT_DIG q ≤ one_sub_u * ((1 + 1 / 2 ^ 53) * q) :=
    mul_le_mul_of_nonneg_left h1 one_sub_u_pos.le
  have h3 : one_sub_u * ((1 + 1 / 2 ^ 53) * q) = q - q / 2 ^ 106 := by
    unfold one_sub_u; ring
  have h4 : 0 ≤ q / 2 ^ 106 := by positivity
  linarith

theorem abs_roundTo_lower (q : ℚ) : one_sub_u * |q| ≤ |roundTo DBL_MANT_DIG q| := by
  have h := abs_roundTo_sub_le DBL_MANT_DIG q
  have hP : (2 : ℚ) ^ DBL_MANT_DIG = 2 ^ 53 := rfl
  rw [hP] at h
  have h1 : |q| - |roundTo DBL_MANT_DIG q| ≤ |roundTo DBL_MANT_DIG q - q| := by
    rw [abs_sub_comm]; exact abs_sub_abs_le_abs_sub _ _
  unfold one_sub_u
  linarith

theorem abs_roundTo_upper (q : ℚ) : one_sub_u * |roundTo DBL_MANT_DIG q| ≤ |q| := by
  have h := abs_roundTo_sub_le DBL_MANT_DIG q
  have hP : (2 : ℚ) ^ DBL_MANT_DIG = 2 ^ 53 := rfl
  rw [hP] at h
  have h0 : 0 ≤ |q| := abs_nonneg q
  have h1 : |roundTo DBL_MANT_DIG q| - |q| ≤ |roundTo DBL_MANT_DIG q - q| :=
    abs_sub_abs_le_abs_sub _ _
  have h2 : |roundTo DBL_MANT_DIG q| ≤ (1 + 1 / 2 ^ 53) * |q| := by linarith
  have h3 : one_sub_u * |roundTo DBL_MANT_DIG q| ≤ one_sub_u * ((1 + 1 / 2 ^ 53) * |q|) :=
    mul_le_mul_of_nonneg_left h2 one_sub_u_pos.le
  have h4 : one_sub_u * ((1 + 1 / 2 ^ 53) * |q|) = |q| - |q| / 2 ^ 106 := by
    unfold one_sub_u; ring
  have h5 : 0 ≤ |q| / 2 ^ 106 := by positivity
  linarith

theorem approx_mono {i j : ℕ} (h : i ≤ j) {y z : ℚ} (hy : 0 ≤ y) (hz : 0 ≤ z)
    (ha : approx i y z) : approx j y z := by
  have hc := one_sub_u_pow_anti h
  exact ⟨le_trans (mul_le_mul_of_nonneg_right hc hy) ha.1,
    le_trans (mul_le_mul_of_nonneg_right hc hz) ha.2⟩

theorem approx_round {j : ℕ} {y z : ℚ} (hz : 0 ≤ z) (ha : approx j y z) :
    approx (j + 1) y (roundTo DBL_MANT_DIG z) := by
  have hc := one_sub_u_pos.le
  have hcj := (one_sub_u_pow_pos j).le
  constructor
  · calc one_sub_u ^ (j + 1) * y = one_sub_u * (one_sub_u ^ j * y) := by ring
      _ ≤ one_sub_u * z := mul_le_mul_of_nonneg_left ha.1 hc
      _ ≤ roundTo DBL_MANT_DIG z := roundTo_lower hz
  · calc one_sub_u ^ (j + 1) * roundTo DBL_MANT_DIG z
        = one_sub_u ^ j * (one_sub_u * roundTo DBL_MANT_DIG z) := by ring
      _ ≤ one_sub_u ^ j * z := mul_le_mul_of_nonneg_left (roundTo_upper hz) hcj
      _ ≤ y := ha.2

theorem approx_add {j : ℕ} {y1 z1 y2 z2 : ℚ} (h1 : approx j y1 z1) (h2 : approx j y2 z2) :
    approx j (y1 + y2) (z1 + z2) := by
  constructor
  · rw [mul_add]; exact add_le_add h1.1 h2.1
  · rw [mul_add]; exact add_le_add h1.2 h2.2

theorem approx_mul_left {j : ℕ} {y z : ℚ} (k : ℚ) (hk : 0 ≤ k) (h : approx j y z) :
    approx j (k * y) (k * z) := by
  constructor
  · calc one_sub_u ^ j * (k * y) = k * (one_sub_u ^ j * y) := by ring
      _ ≤ k * z := mul_le_mul_of_nonneg_left h.1 hk
  · calc one_sub_u ^ j * (k * z) = k * (one_sub_u ^ j * z) := by ring
      _ ≤ k * y := mul_le_mul_of_nonneg_left h.2 hk

theorem approx_trans {i j : ℕ} {y z w : ℚ} (h1 : approx i y z) (h2 : approx j z w) :
    approx (i + j) y w := by
  constructor
  · calc one_sub_u ^ (i + j) * y = one_sub_u ^ j * (one_sub_u ^ i * y) := by ring
      _ ≤ one_sub_u ^ j * z := mul_le_mul_of_nonneg_left h1.1 (one_sub_u_pow_pos j).le
      _ ≤ w := h2.1
  · calc one_sub_u ^ (i + j) * w = one_sub_u ^ i * (one_sub_u ^ j * w) := by ring
      _ ≤ one_sub_u ^ i * z := mul_le_mul_of_nonneg_left h2.2 (one_sub_u_pow_pos i).le
      _ ≤ y := h1.2

theorem approx_sq {j : ℕ} {y z : ℚ} (hy : 0 ≤ y) (hz : 0 ≤ z) (h : approx j y z) :
    approx (2 * j) (y * y) (z * z) := by
  have hcj := (one_sub_u_pow_pos j).le
  constructor
  · calc one_sub_u ^ (2 * j) * (y * y) = (one_sub_u ^ j * y) * (one_sub_u ^ j * y) := by ring
      _ ≤ z * z := mul_self_le_mul_self (mul_nonneg hcj hy) h.1
  · calc one_sub_u ^ (2 * j) * (z * z) = (one_sub_u ^ j * z) * (one_sub_u ^ j * z) := by ring
      _ ≤ y * y := mul_self_le_mul_self (mul_nonneg hcj hz) h.2

/-- The square of a rounded value. -/
theorem approx_sq_roundTo (e : ℚ) :
    approx 2 (e * e) (roundTo DBL_MANT_DIG e * roundTo DBL_MANT_DIG e) := by
  have h1 := abs_roundTo_lower e
  have h2 := abs_roundTo_upper e
  have h := approx_sq (abs_nonneg e) (abs_nonneg (roundTo DBL_MANT_DIG e))
    (show approx 1 |e| |roundTo DBL_MANT_DIG e| by
      unfold approx; rw [pow_one]; exact ⟨h1, h2⟩)
  rw [abs_mul_abs_self, abs_mul_abs_self] at h
  exact h

/-- The result of a faithful `pow (x, 2)`. -/
theorem approx_pow {pow2 : ℚ → ℚ} (hpow : pow_faithful pow2) (d : ℚ) :
    0 ≤ pow2 d ∧ approx 3 (d * d) (pow2 d) := by
  obtain ⟨h1, h2⟩ := pow_faithful_bounds hpow d
  have h0 : 0 ≤ d * d := mul_self_nonneg d
  have hc1 : one_sub_u ^ 3 ≤ 1 - 2 / 2 ^ 53 := by unfold one_sub_u; norm_num
  have hc2 : one_sub_u ^ 3 * (1 + 2 / 2 ^ 53) ≤ 1 := by unfold one_sub_u; norm_num
  have hlow : (1 - 2 / 2 ^ 53) * (d * d) ≤ pow2 d := by
    have : (1 - 2 / 2 ^ 53) * (d * d) = d * d - d * d * 2 / 2 ^ 53 := by ring
    rw [this]; exact h1
  have hnn : 0 ≤ pow2 d := le_trans (mul_nonneg (by norm_num) h0) hlow
  refine ⟨hnn, ?_, ?_⟩
  · exact le_trans (mul_le_mul_of_nonneg_right hc1 h0) hlow
  · have hup : pow2 d ≤ (1 + 2 / 2 ^ 53) * (d * d) := by
      have : (1 + 2 / 2 ^ 53) * (d * d) = d * d + d * d * 2 / 2 ^ 53 := by ring
      rw [this]; exact h2
    calc one_sub_u ^ 3 * pow2 d ≤ one_sub_u ^ 3 * ((1 + 2 / 2 ^ 53) * (d * d)) :=
          mul_le_mul_of_nonneg_left hup (one_sub_u_pow_pos 3).le
      _ = (one_sub_u ^ 3 * (1 + 2 / 2 ^ 53)) * (d * d) := by ring
      _ ≤ 1 * (d * d) := mul_le_mul_of_nonneg_right hc2 h0
      _ = d * d := one_mul _

/-- One term of the accumulation: the library square of the rounded deviation. -/
theorem approx_term {pow2 : ℚ → ℚ} (hpow : pow_faithful pow2) (xh a : ℚ) :
    0 ≤ pow2 (fsub DBL_MANT_DIG xh a) ∧
      approx 5 ((xh - a) ^ 2) (pow2 (fsub DBL_MANT_DIG xh a)) := by
  obtain ⟨h0, h3⟩ := approx_pow hpow (fsub DBL_MANT_DIG xh a)
  have h2 := approx_sq_roundTo (xh - a)
  refine ⟨h0, ?_⟩
  have := approx_trans h2 h3
  rw [pow_two]
  exact this

/-- The accumulation of the squared deviations in `double` arithmetic. -/
theorem sq_fold_approx {pow2 : ℚ → ℚ} (hpow : pow_faithful pow2) (a : ℚ) (data : List ℕ) :
    ∀ (j : ℕ) (v vh : ℚ), 5 ≤ j → 0 ≤ v → 0 ≤ vh → approx j v vh →
      0 ≤ data.foldl (fun sum x => fadd DBL_MANT_DIG sum
          (pow2 (fsub DBL_MANT_DIG (ofUInt DBL_MANT_DIG x) a))) vh ∧
      approx (j + data.length) (v + sq_dev_about a data)
        (data.foldl (fun sum x => fadd DBL_MANT_DIG sum
          (pow2 (fsub DBL_MANT_DIG (ofUInt DBL_MANT_DIG x) a))) vh) := by
  induction data with
  | nil =>
    intro j v vh _ _ hvh ha
    simpa [sq_dev_about] using And.intro hvh ha
  | cons y ys ih =>
    intro j v vh hj hv hvh ha
    obtain ⟨t0, t5⟩ := approx_term hpow (ofUInt DBL_MANT_DIG y) a
    have hsq : 0 ≤ (ofUInt DBL_MANT_DIG y - a) ^ 2 := sq_nonneg _
    have hsum : approx j (v + (ofUInt DBL_MANT_DIG y - a) ^ 2)
        (vh + pow2 (fsub DBL_MANT_DIG (ofUInt DBL_MANT_DIG y) a)) :=
      approx_add ha (approx_mono hj hsq t0 t5)
    have hstep := approx_round (add_nonneg hvh t0) hsum
    have hnn : 0 ≤ roundTo DBL_MANT_DIG
        (vh + pow2 (fsub DBL_MANT_DIG (ofUInt DBL_MANT_DIG y) a)) :=
      roundTo_nonneg _ (add_nonneg hvh t0)
    obtain ⟨r0, r1⟩ := ih (j + 1) (v + (ofUInt DBL_MANT_DIG y - a) ^ 2) _ (by omega)
      (add_nonneg hv hsq) hnn hstep
    simp only [List.foldl_cons, List.length_cons]
    refine ⟨r0, ?_⟩
    have e1 : v + sq_dev_about a (y :: ys)
        = v + (ofUInt DBL_MANT_DIG y - a) ^ 2 + sq_dev_about a ys := by
      unfold sq_dev_about
      simp only [List.map_cons, List.sum_cons]
      ring
    have e2 : j + (ys.length + 1) = j + 1 + ys.length := by omega
    rw [e1, e2]
    exact r1

/-! ## The square root, and the order of rounded values -/

/-- The integer nearest to a square root. -/
theorem sqrt_round_bounds (σ x m : ℚ) (hs : 1 ≤ σ) (h1 : σ * σ ≤ x)
    (h2 : x ≤ (σ + 1) * (σ + 1))
    (hm : (m = σ ∧ x ≤ σ * σ + σ + 1 / 4) ∨ (m = σ + 1 ∧ σ * σ + σ + 1 / 4 ≤ x)) :
    (m - 1 / 2) * (m - 1 / 2) ≤ x ∧ x ≤ (m + 1 / 2) * (m + 1 / 2) := by
  rcases hm with ⟨rfl, h⟩ | ⟨rfl, h⟩
  · constructor
    · have : (m - 1 / 2) * (m - 1 / 2) = m * m - m + 1 / 4 := by ring
      rw [this]; linarith
    · have : (m + 1 / 2) * (m + 1 / 2) = m * m + m + 1 / 4 := by ring
      rw [this]; exact h
  · constructor
    · have : (σ + 1 - 1 / 2) * (σ + 1 - 1 / 2) = σ * σ + σ + 1 / 4 := by ring
      rw [this]; exact h
    · have : (σ + 1 + 1 / 2) * (σ + 1 + 1 / 2) = (σ + 1) * (σ + 1) + σ + 1 + 1 / 4 := by ring
      rw [this]; linarith

/-- The correctly rounded square root, squared, is within two roundings of
its argument. -/
theorem fsqrt_approx {q : ℚ} (hq : 0 ≤ q) :
    approx 2 q (fsqrt DBL_MANT_DIG q * fsqrt DBL_MANT_DIG q) := by
  rcases hq.eq_or_lt with h0 | hpos
  · subst h0
    simp [fsqrt, approx]
  have hne : q ≠ 0 := ne_of_gt hpos
  obtain ⟨s1, _⟩ := ilog2_spec q hne
  rw [abs_of_pos hpos] at s1
  -- the scaling exponent and the scaled argument
  obtain ⟨e, he⟩ : ∃ e : ℤ, e = ilog2 q / 2 - ((DBL_MANT_DIG : ℤ) - 1) := ⟨_, rfl⟩
  have hP : ((DBL_MANT_DIG : ℕ) : ℤ) = 53 := rfl
  have he2 : 2 * e + 104 ≤ ilog2 q := by rw [he, hP]; omega
  have hpe : (0 : ℚ) < (2 : ℚ) ^ (2 * e) := two_zpow_pos _
  obtain ⟨x, hx⟩ : ∃ x : ℚ, x = q / (2 : ℚ) ^ (2 * e) := ⟨_, rfl⟩
  have hx104 : (2 : ℚ) ^ 104 ≤ x := by
    rw [hx, le_div_iff₀ hpe]
    have h1 : (2 : ℚ) ^ 104 * (2 : ℚ) ^ (2 * e) = (2 : ℚ) ^ (2 * e + 104) := by
      rw [zpow_add₀ (by norm_num : (2 : ℚ) ≠ 0)]
      norm_num
      ring
    rw [h1]
    exact le_trans (zpow_le_zpow_right₀ (by norm_num) he2) s1
  have hx0 : 0 ≤ x := le_trans (by positivity) hx104
  obtain ⟨X, hX⟩ : ∃ X : ℕ, X = ⌊x⌋.toNat := ⟨_, rfl⟩
  have hX1 : (X : ℚ) ≤ x := by rw [hX]; exact floor_toNat_le hx0
  have hX2 : x < (X : ℚ) + 1 := by rw [hX]; exact lt_floor_toNat_add_one x
  have hX104 : 2 ^ 104 ≤ X := by
    have h1 : (2 : ℤ) ^ 104 ≤ ⌊x⌋ := Int.le_floor.mpr (by exact_mod_cast hx104)
    have h0 : 0 ≤ ⌊x⌋ := le_trans (by positivity) h1
    rw [hX]
    zify
    rw [Int.toNat_of_nonneg h0]
    exact h1
  obtain ⟨s, hs⟩ : ∃ s : ℕ, s = sqrtF X X := ⟨_, rfl⟩
  obtain ⟨q1, q2⟩ := sqrtF_spec X X le_rfl
  rw [← hs] at q1 q2
  have hs52 : 2 ^ 52 ≤ s := by
    by_contra hcon
    push_neg at hcon
    have h1 : s + 1 ≤ 2 ^ 52 := hcon
    have h2 := Nat.mul_le_mul h1 h1
    have h3 : (2 : ℕ) ^ 52 * 2 ^ 52 = 2 ^ 104 := by norm_num
    rw [h3] at h2
    exact absurd (lt_of_lt_of_le q2 h2) (not_lt.mpr hX104)
  have hsq : (2 : ℚ) ^ 52 ≤ (s : ℚ) := by exact_mod_cast hs52
  have q1q : (s : ℚ) * s ≤ x := by
    have : ((s * s : ℕ) : ℚ) ≤ (X : ℚ) := by exact_mod_cast q1
    push_cast at this; linarith
  have q2q : x < ((s : ℚ) + 1) * (s + 1) := by
    have : ((X + 1 : ℕ) : ℚ) ≤ (((s + 1) * (s + 1) : ℕ) : ℚ) := by exact_mod_cast q2
    push_cast at this; linarith
  -- the rounded root `m` satisfies `(m - 1/2)^2 ≤ x ≤ (m + 1/2)^2`
  obtain ⟨m, hm⟩ : ∃ m : ℕ, m = (if x < (s : ℚ) * s + s + 1 / 4 then s
      else if (s : ℚ) * s + s + 1 / 4 < x then s + 1
      else if s % 2 = 0 then s else s + 1) := ⟨_, rfl⟩
  have hres : fsqrt DBL_MANT_DIG q = (m : ℚ) * (2 : ℚ) ^ e := by
    unfold fsqrt
    rw [if_neg (not_le.mpr hpos)]
    simp only []
    rw [← he, ← hx, ← hX, ← hs, ← hm]
  have hm52 : (2 : ℚ) ^ 52 ≤ (m : ℚ) := by
    have : s ≤ m := by rw [hm]; split_ifs <;> omega
    have : (s : ℚ) ≤ (m : ℚ) := by exact_mod_cast this
    linarith
  have hmq : ((m : ℚ) = (s : ℚ) ∧ x ≤ (s : ℚ) * s + s + 1 / 4) ∨
      ((m : ℚ) = (s : ℚ) + 1 ∧ (s : ℚ) * s + s + 1 / 4 ≤ x) := by
    rw [hm]
    split_ifs with c1 c2 c3
    · left; exact ⟨rfl, c1.le⟩
    · right; exact ⟨by push_cast; rfl, c2.le⟩
    · left; exact ⟨rfl, not_lt.mp c2⟩
    · right; exact ⟨by push_cast; rfl, not_lt.mp c1⟩
  obtain ⟨hlo, hhi⟩ := sqrt_round_bounds (s : ℚ) x (m : ℚ)
    (le_trans (by norm_num) hsq) q1q q2q.le hmq
  have hq : q = x * (2 : ℚ) ^ (2 * e) := by rw [hx]; field_simp
  have hee : (2 : ℚ) ^ e * (2 : ℚ) ^ e = (2 : ℚ) ^ (2 * e) := by
    rw [← zpow_add₀ (by norm_num : (2 : ℚ) ≠ 0)]
    congr 1; ring
  have hmm : fsqrt DBL_MANT_DIG q * fsqrt DBL_MANT_DIG q
      = ((m : ℚ) * m) * (2 : ℚ) ^ (2 * e) := by
    rw [hres, ← hee]; ring
  have hm0 : (0 : ℚ) ≤ (m : ℚ) := Nat.cast_nonneg m
  have hc : one_sub_u = 1 - 1 / 2 ^ 53 := rfl
  -- `c * (m + 1/2) ≤ m` and `c * m ≤ m - 1/2`
  have k1 : one_sub_u * ((m : ℚ) + 1 / 2) ≤ (m : ℚ) := by
    rw [hc]
    have : (2 : ℚ) ^ 53 = 2 * 2 ^ 52 := by norm_num
    have h53 : (0 : ℚ) < 2 ^ 53 := by positivity
    have : (m : ℚ) / 2 ^ 53 ≥ 1 / 2 := by
      rw [ge_iff_le, le_div_iff₀ h53]; linarith
    have e1 : (1 - 1 / 2 ^ 53) * ((m : ℚ) + 1 / 2)
        = (m : ℚ) + 1 / 2 - (m : ℚ) / 2 ^ 53 - 1 / 2 ^ 54 := by ring
    rw [e1]
    have : (0 : ℚ) < 1 / 2 ^ 54 := by positivity
    linarith
  have k2 : one_sub_u * (m : ℚ) ≤ (m : ℚ) - 1 / 2 := by
    rw [hc]
    have : (2 : ℚ) ^ 53 = 2 * 2 ^ 52 := by norm_num
    have h53 : (0 : ℚ) < 2 ^ 53 := by positivity
    have : (m : ℚ) / 2 ^ 53 ≥ 1 / 2 := by
      rw [ge_iff_le, le_div_iff₀ h53]; linarith
    have e1 : (1 - 1 / 2 ^ 53) * (m : ℚ) = (m : ℚ) - (m : ℚ) / 2 ^ 53 := by ring
    rw [e1]
    linarith
  have hc0 := one_sub_u_pos.le
  constructor
  · -- `c^2 q ≤ sd^2`
    rw [hmm, hq]
    have h1 : one_sub_u ^ 2 * x ≤ (m : ℚ) * m := by
      calc one_sub_u ^ 2 * x
          ≤ one_sub_u ^ 2 * (((m : ℚ) + 1 / 2) * ((m : ℚ) + 1 / 2)) :=
            mul_le_mul_of_nonneg_left hhi (by positivity)
        _ = (one_sub_u * ((m : ℚ) + 1 / 2)) * (one_sub_u * ((m : ℚ) + 1 / 2)) := by ring
        _ ≤ (m : ℚ) * m :=
            mul_self_le_mul_self (mul_nonneg hc0 (by linarith)) k1
    calc one_sub_u ^ 2 * (x * (2 : ℚ) ^ (2 * e))
        = (one_sub_u ^ 2 * x) * (2 : ℚ) ^ (2 * e) := by ring
      _ ≤ ((m : ℚ) * m) * (2 : ℚ) ^ (2 * e) := mul_le_mul_of_nonneg_right h1 hpe.le
  · rw [hmm, hq]
    have h1 : one_sub_u ^ 2 * ((m : ℚ) * m) ≤ x := by
      calc one_sub_u ^ 2 * ((m : ℚ) * m)
          = (one_sub_u * (m : ℚ)) * (one_sub_u * (m : ℚ)) := by ring
        _ ≤ ((m : ℚ) - 1 / 2) * ((m : ℚ) - 1 / 2) :=
            mul_self_le_mul_self (mul_nonneg hc0 hm0) k2
        _ ≤ x := hlo
    calc one_sub_u ^ 2 * (((m : ℚ) * m) * (2 : ℚ) ^ (2 * e))
        = (one_sub_u ^ 2 * ((m : ℚ) * m)) * (2 : ℚ) ^ (2 * e) := by ring
      _ ≤ x * (2 : ℚ) ^ (2 * e) := mul_le_mul_of_nonneg_right h1 hpe.le

/-- Rounding to nearest is monotone. -/
theorem rne_mono {x y : ℚ} (h : x ≤ y) : rne x ≤ rne y := by
  have hf : ⌊x⌋ ≤ ⌊y⌋ := Int.floor_mono h
  rcases hf.eq_or_lt with heq | hlt
  · have hx1 := Int.floor_le x
    have hy1 := Int.floor_le y
    unfold rne
    simp only []
    rw [← heq]
    have hr : x - (⌊x⌋ : ℚ) ≤ y - (⌊x⌋ : ℚ) := by linarith
    split_ifs <;> first | omega | linarith
  · calc rne x ≤ ⌊x⌋ + 1 := rne_le_floor_add_one x
      _ ≤ ⌊y⌋ := hlt
      _ ≤ rne y := floor_le_rne y

/-- Rounding to `double` is monotone on positive values. -/
theorem roundTo_mono_pos {q q' : ℚ} (hq : 0 < q) (h : q ≤ q') :
    roundTo DBL_MANT_DIG q ≤ roundTo DBL_MANT_DIG q' := by
  have hq' : 0 < q' := lt_of_lt_of_le hq h
  obtain ⟨a1, a2⟩ := ilog2_spec q (ne_of_gt hq)
  obtain ⟨b1, b2⟩ := ilog2_spec q' (ne_of_gt hq')
  rw [abs_of_pos hq] at a1 a2
  rw [abs_of_pos hq'] at b1 b2
  have hL : ilog2 q < ilog2 q' + 1 :=
    (zpow_lt_zpow_iff_right₀ (by norm_num : (1 : ℚ) < 2)).mp
      (lt_of_le_of_lt a1 (lt_of_le_of_lt h b2))
  rcases (by omega : ilog2 q = ilog2 q' ∨ ilog2 q + 1 ≤ ilog2 q') with heq | hlt
  · rw [roundTo_of_ne_zero _ (ne_of_gt hq), roundTo_of_ne_zero _ (ne_of_gt hq')]
    have he : ulpExp DBL_MANT_DIG q = ulpExp DBL_MANT_DIG q' := by unfold ulpExp; rw [heq]
    rw [he]
    have hpos := two_zpow_pos (ulpExp DBL_MANT_DIG q')
    apply mul_le_mul_of_nonneg_right _ hpos.le
    have : rne (q / (2 : ℚ) ^ ulpExp DBL_MANT_DIG q')
        ≤ rne (q' / (2 : ℚ) ^ ulpExp DBL_MANT_DIG q') :=
      rne_mono (div_le_div_of_nonneg_right h hpos.le)
    exact_mod_cast this
  · calc roundTo DBL_MANT_DIG q ≤ (2 : ℚ) ^ (ilog2 q + 1) := roundTo_le_two_pow _ hq
      _ ≤ (2 : ℚ) ^ ilog2 q' := zpow_le_zpow_right₀ (by norm_num) hlt
      _ ≤ roundTo DBL_MANT_DIG q' := two_pow_ilog2_le _ (by decide) hq'

theorem roundTo_nonpos {q : ℚ} (h : q ≤ 0) : roundTo DBL_MANT_DIG q ≤ 0 := by
  rcases eq_or_ne q 0 with rfl | hne
  · rw [roundTo_zero]
  rw [roundTo_of_ne_zero _ hne]
  have hpos := two_zpow_pos (ulpExp DBL_MANT_DIG q)
  have h1 : q / (2 : ℚ) ^ ulpExp DBL_MANT_DIG q ≤ ((0 : ℤ) : ℚ) := by
    rw [Int.cast_zero]
    exact div_nonpos_of_nonpos_of_nonneg h hpos.le
  have h2 : rne (q / (2 : ℚ) ^ ulpExp DBL_MANT_DIG q) ≤ 0 := rne_le h1
  have h3 : (rne (q / (2 : ℚ) ^ ulpExp DBL_MANT_DIG q) : ℚ) ≤ 0 := by exact_mod_cast h2
  exact mul_nonpos_of_nonpos_of_nonneg h3 hpos.le

/-- Rounding to `double` is monotone below a non-negative value. -/
theorem roundTo_mono {q q' : ℚ} (hq' : 0 ≤ q') (h : q ≤ q') :
    roundTo DBL_MANT_DIG q ≤ roundTo DBL_MANT_DIG q' := by
  rcases le_or_lt q 0 with hq | hq
  · exact le_trans (roundTo_nonpos hq) (roundTo_nonneg _ hq')
  · exact roundTo_mono_pos hq h

/-- A rounded value is representable: rounding it again changes nothing. -/
theorem roundTo_idem {q : ℚ} (hq : 0 ≤ q) :
    roundTo DBL_MANT_DIG (roundTo DBL_MANT_DIG q) = roundTo DBL_MANT_DIG q := by
  rcases hq.eq_or_lt with h0 | hpos
  · rw [← h0, roundTo_zero, roundTo_zero]
  have hne : q ≠ 0 := ne_of_gt hpos
  have h1 := two_pow_ilog2_le DBL_MANT_DIG (by decide) hpos
  have h2 := roundTo_le_two_pow DBL_MANT_DIG hpos
  have hrpos : 0 < roundTo DBL_MANT_DIG q := lt_of_lt_of_le (two_zpow_pos _) h1
  have hrne : roundTo DBL_MANT_DIG q ≠ 0 := ne_of_gt hrpos
  have hform := roundTo_of_ne_zero DBL_MANT_DIG hne
  rcases h2.eq_or_lt with heq | hlt
  · -- rounded up to the next power of two
    have hL : ilog2 (roundTo DBL_MANT_DIG q) = ilog2 q + 1 := by
      apply ilog2_eq
      · rw [abs_of_pos hrpos, heq]
      · rw [abs_of_pos hrpos, heq]
        exact zpow_lt_zpow_right₀ (by norm_num) (by omega)
    rw [roundTo_of_ne_zero _ hrne]
    have he : ulpExp DBL_MANT_DIG (roundTo DBL_MANT_DIG q) = ilog2 q + 1 - 52 := by
      unfold ulpExp; rw [hL]; unfold DBL_MANT_DIG; norm_num
    rw [he]
    conv_lhs => rw [heq]
    have hdiv : (2 : ℚ) ^ (ilog2 q + 1) / (2 : ℚ) ^ (ilog2 q + 1 - 52) = ((2 ^ 52 : ℤ) : ℚ) := by
      rw [← zpow_sub₀ (by norm_num : (2 : ℚ) ≠ 0)]
      have : ilog2 q + 1 - (ilog2 q + 1 - 52) = 52 := by ring
      rw [this]
      norm_num
    rw [hdiv, rne_intCast, heq]
    have : (((2 : ℤ) ^ 52 : ℤ) : ℚ) = (2 : ℚ) ^ (52 : ℤ) := by norm_num
    rw [this, ← zpow_add₀ (by norm_num : (2 : ℚ) ≠ 0)]
    congr 1; ring
  · have hL : ilog2 (roundTo DBL_MANT_DIG q) = ilog2 q := by
      apply ilog2_eq
      · rw [abs_of_pos hrpos]; exact h1
      · rw [abs_of_pos hrpos]; exact hlt
    rw [roundTo_of_ne_zero _ hrne]
    have he : ulpExp DBL_MANT_DIG (roundTo DBL_MANT_DIG q) = ulpExp DBL_MANT_DIG q := by
      unfold ulpExp; rw [hL]
    rw [he]
    have hpos2 := two_zpow_pos (ulpExp DBL_MANT_DIG q)
    have hdiv : roundTo DBL_MANT_DIG q / (2 : ℚ) ^ ulpExp DBL_MANT_DIG q
        = ((rne (q / (2 : ℚ) ^ ulpExp DBL_MANT_DIG q) : ℤ) : ℚ) := by
      rw [hform]; field_simp
    rw [hdiv, rne_intCast, hform]

/-! ## The band of `strip_std_dev` up to rounding -/

theorem sq_dev_about_nonneg (a : ℚ) (data : List ℕ) : 0 ≤ sq_dev_about a data := by
  unfold sq_dev_about
  apply List.sum_nonneg
  intro y hy
  obtain ⟨x, _, rfl⟩ := List.mem_map.mp hy
  exact sq_nonneg _

/-- Each squared deviation is at most their sum. -/
theorem sq_dev_le_sq_dev_about (a : ℚ) (data : List ℕ) (x : ℕ) (hx : x ∈ data) :
    (ofUInt DBL_MANT_DIG x - a) ^ 2 ≤ sq_dev_about a data := by
  unfold sq_dev_about
  apply List.single_le_sum
  · intro y hy
    obtain ⟨z, _, rfl⟩ := List.mem_map.mp hy
    exact sq_nonneg _
  · exact List.mem_map.mpr ⟨x, hx, rfl⟩

/-- Some squared deviation is at most their mean. -/
theorem exists_sq_dev_le_mean (a : ℚ) (data : List ℕ) (hne : data ≠ []) :
    ∃ x ∈ data, (data.length : ℚ) * (ofUInt DBL_MANT_DIG x - a) ^ 2 ≤ sq_dev_about a data := by
  by_contra hcon
  push_neg at hcon
  have key : ∀ (l : List ℕ) (S : ℚ), l ≠ [] →
      (∀ x ∈ l, S < (data.length : ℚ) * (ofUInt DBL_MANT_DIG x - a) ^ 2) →
      (l.length : ℚ) * S < (data.length : ℚ) * sq_dev_about a l := by
    intro l S
    induction l with
    | nil => intro h; exact absurd rfl h
    | cons y ys ih =>
      intro _ h
      have hy := h y (List.mem_cons_self _ _)
      have e : sq_dev_about a (y :: ys) = (ofUInt DBL_MANT_DIG y - a) ^ 2 + sq_dev_about a ys := by
        unfold sq_dev_about; simp
      rw [e, List.length_cons]
      push_cast
      rcases eq_or_ne ys [] with rfl | hys
      · simp [sq_dev_about]; linarith
      · have := ih hys (fun x hx => h x (List.mem_cons_of_mem _ hx))
        linarith
  have h := key data (sq_dev_about a data) hne hcon
  have hlen : (0 : ℚ) < (data.length : ℚ) := by
    exact_mod_cast List.length_pos.mpr hne
  exact absurd h (lt_irrefl _)

/-- The standard deviation computed by `strip_std_dev`, squared, is the mean
squared deviation from the computed average up to `n + 8` roundings. -/
theorem std_dev_of_approx {pow2 : ℚ → ℚ} (hpow : pow_faithful pow2) (data : List ℕ) :
    0 ≤ std_dev_of pow2 data ∧
      approx (data.length + 8)
        (sq_dev_about (average_of data) data / (data.length : ℚ))
        (std_dev_of pow2 data * std_dev_of pow2 data) := by
  obtain ⟨f0, f1⟩ := sq_fold_approx hpow (average_of data) data 5 0 0 le_rfl le_rfl le_rfl
    (by unfold approx; simp)
  rw [zero_add] at f1
  have hn0 : (0 : ℚ) ≤ 1 / (data.length : ℚ) := by positivity
  have h2 := approx_mul_left (1 / (data.length : ℚ)) hn0 f1
  have hcast : ofInt (data.length : ℤ) = (data.length : ℚ) := by unfold ofInt; push_cast; rfl
  have hq0 : 0 ≤ 1 / (data.length : ℚ) * data.foldl (fun sum x => fadd DBL_MANT_DIG sum
      (pow2 (fsub DBL_MANT_DIG (ofUInt DBL_MANT_DIG x) (average_of data)))) 0 :=
    mul_nonneg hn0 f0
  have h3 := approx_round hq0 h2
  have hv0 : 0 ≤ roundTo DBL_MANT_DIG (1 / (data.length : ℚ) *
      data.foldl (fun sum x => fadd DBL_MANT_DIG sum
        (pow2 (fsub DBL_MANT_DIG (ofUInt DBL_MANT_DIG x) (average_of data)))) 0) :=
    roundTo_nonneg _ hq0
  have h4 := fsqrt_approx hv0
  have h5 := approx_trans h3 h4
  have hsd : std_dev_of pow2 data = fsqrt DBL_MANT_DIG (roundTo DBL_MANT_DIG
      (1 / (data.length : ℚ) * data.foldl (fun sum x => fadd DBL_MANT_DIG sum
        (pow2 (fsub DBL_MANT_DIG (ofUInt DBL_MANT_DIG x) (average_of data)))) 0)) := by
    unfold std_dev_of fdiv
    rw [hcast]
    congr 2
    ring
  refine ⟨fsqrt_nonneg _ _, ?_⟩
  rw [hsd]
  have e1 : 1 / (data.length : ℚ) * sq_dev_about (average_of data) data
      = sq_dev_about (average_of data) data / (data.length : ℚ) := by ring
  have e2 : 5 + data.length + 1 + 2 = data.length + 8 := by omega
  rw [e1, e2] at h5
  exact h5

/-- The half-width `num_std_dev * std_dev` of the band, squared, is
`num_std_dev ^ 2` times the mean squared deviation up to `n + 10` roundings. -/
theorem band_approx {pow2 : ℚ → ℚ} (hpow : pow_faithful pow2) (data : List ℕ) (k : ℤ)
    (hk : 0 ≤ k) :
    0 ≤ fmul DBL_MANT_DIG (ofInt k) (std_dev_of pow2 data) ∧
      approx (data.length + 10)
        ((k : ℚ) ^ 2 * (sq_dev_about (average_of data) data / (data.length : ℚ)))
        (fmul DBL_MANT_DIG (ofInt k) (std_dev_of pow2 data)
          * fmul DBL_MANT_DIG (ofInt k) (std_dev_of pow2 data)) := by
  obtain ⟨s0, s1⟩ := std_dev_of_approx hpow data
  have hkq : (0 : ℚ) ≤ (k : ℚ) := by exact_mod_cast hk
  have hks : 0 ≤ (k : ℚ) * std_dev_of pow2 data := mul_nonneg hkq s0
  have hm0 : 0 ≤ roundTo DBL_MANT_DIG ((k : ℚ) * std_dev_of pow2 data) := roundTo_nonneg _ hks
  have h1 : approx 1 ((k : ℚ) * std_dev_of pow2 data)
      (roundTo DBL_MANT_DIG ((k : ℚ) * std_dev_of pow2 data)) := by
    have := approx_round hks
      (show approx 0 ((k : ℚ) * std_dev_of pow2 data) ((k : ℚ) * std_dev_of pow2 data) by
        unfold approx; simp)
    simpa using this
  have h2 := approx_sq hks hm0 h1
  have h3 := approx_mul_left ((k : ℚ) ^ 2) (by positivity) s1
  have e1 : (k : ℚ) ^ 2 * (std_dev_of pow2 data * std_dev_of pow2 data)
      = (k : ℚ) * std_dev_of pow2 data * ((k : ℚ) * std_dev_of pow2 data) := by ring
  rw [e1] at h3
  have h4 := approx_trans h3 h2
  have e2 : data.length + 8 + 2 * 1 = data.length + 10 := by omega
  rw [e2] at h4
  have hdef : fmul DBL_MANT_DIG (ofInt k) (std_dev_of pow2 data)
      = roundTo DBL_MANT_DIG ((k : ℚ) * std_dev_of pow2 data) := rfl
  rw [hdef]
  exact ⟨hm0, h4⟩

theorem ofUInt_nonneg (x : ℕ) : 0 ≤ ofUInt DBL_MANT_DIG x :=
  roundTo_nonneg _ (Nat.cast_nonneg x)

theorem ofUInt_idem (x : ℕ) :
    roundTo DBL_MANT_DIG (ofUInt DBL_MANT_DIG x) = ofUInt DBL_MANT_DIG x :=
  roundTo_idem (Nat.cast_nonneg x)

/-- A sample within the half-width of the computed average passes the test
of `strip_std_dev`. -/
theorem strip_keeps_of_le (pow2 : ℚ → ℚ) (data : List ℕ) (k : ℤ) (x : ℕ)
    (hm : 0 ≤ fmul DBL_MANT_DIG (ofInt k) (std_dev_of pow2 data))
    (h : (ofUInt DBL_MANT_DIG x - average_of data) ^ 2
      ≤ fmul DBL_MANT_DIG (ofInt k) (std_dev_of pow2 data)
          * fmul DBL_MANT_DIG (ofInt k) (std_dev_of pow2 data)) :
    strip_keeps pow2 data k x := by
  have ha := average_of_nonneg data
  have hx := ofUInt_nonneg x
  rw [← pow_two] at h
  obtain ⟨b1, b2⟩ := abs_le_of_sq_le_sq' h hm
  right
  constructor
  · have := roundTo_mono hx
      (show average_of data - fmul DBL_MANT_DIG (ofInt k) (std_dev_of pow2 data)
        ≤ ofUInt DBL_MANT_DIG x by linarith)
    rw [ofUInt_idem] at this
    exact this
  · have := roundTo_mono (add_nonneg ha hm)
      (show ofUInt DBL_MANT_DIG x
        ≤ average_of data + fmul DBL_MANT_DIG (ofInt k) (std_dev_of pow2 data) by linarith)
    rw [ofUInt_idem] at this
    exact this

/-- Retention up to rounding: a sample whose squared deviation from the
computed average, times `n`, is at most `(1 - 2 ^ (-53)) ^ (n + 10)` times
`num_std_dev ^ 2` times the sum of the squared deviations passes the test. -/
theorem strip_keeps_of_margin {pow2 : ℚ → ℚ} (hpow : pow_faithful pow2) (data : List ℕ)
    (k : ℤ) (hk : 0 ≤ k) (x : ℕ) (hne : data ≠ [])
    (h : (data.length : ℚ) * (ofUInt DBL_MANT_DIG x - average_of data) ^ 2
      ≤ one_sub_u ^ (data.length + 10) * ((k : ℚ) ^ 2 * sq_dev_about (average_of data) data)) :
    strip_keeps pow2 data k x := by
  obtain ⟨m0, m1⟩ := band_approx hpow data k hk
  apply strip_keeps_of_le pow2 data k x m0
  refine le_trans ?_ m1.1
  have hlen : (0 : ℚ) < (data.length : ℚ) := by
    exact_mod_cast List.length_pos.mpr hne
  have e : one_sub_u ^ (data.length + 10)
      * ((k : ℚ) ^ 2 * (sq_dev_about (average_of data) data / (data.length : ℚ)))
      = one_sub_u ^ (data.length + 10) * ((k : ℚ) ^ 2 * sq_dev_about (average_of data) data)
        / (data.length : ℚ) := by ring
  rw [e, le_div_iff₀ hlen]
  linarith

/-- Removal up to rounding, above the band. -/
theorem not_strip_keeps_above {pow2 : ℚ → ℚ} (hpow : pow_faithful pow2) (data : List ℕ)
    (k : ℤ) (hk : 1 ≤ k) (x : ℕ) (hne : data ≠ [])
    (h1 : average_of data < one_sub_u * ofUInt DBL_MANT_DIG x)
    (h2 : (k : ℚ) ^ 2 * sq_dev_about (average_of data) data
      < one_sub_u ^ (data.length + 10) * ((data.length : ℚ)
          * (one_sub_u * ofUInt DBL_MANT_DIG x - average_of data) ^ 2)) :
    ¬ strip_keeps pow2 data k x := by
  obtain ⟨m0, m1⟩ := band_approx hpow data k (by omega)
  have ha := average_of_nonneg data
  have hlen : (0 : ℚ) < (data.length : ℚ) := by
    exact_mod_cast List.length_pos.mpr hne
  have hcp := one_sub_u_pow_pos (data.length + 10)
  set m := fmul DBL_MANT_DIG (ofInt k) (std_dev_of pow2 data) with hmdef
  -- `m ^ 2 < (c * x - a) ^ 2`
  have h3 : one_sub_u ^ (data.length + 10) * (m * m)
      < one_sub_u ^ (data.length + 10)
        * ((one_sub_u * ofUInt DBL_MANT_DIG x - average_of data)
          * (one_sub_u * ofUInt DBL_MANT_DIG x - average_of data)) := by
    have h4 : one_sub_u ^ (data.length + 10) * (m * m) * (data.length : ℚ)
        ≤ (k : ℚ) ^ 2 * sq_dev_about (average_of data) data := by
      have := mul_le_mul_of_nonneg_right m1.2 hlen.le
      have e : (k : ℚ) ^ 2 * (sq_dev_about (average_of data) data / (data.length : ℚ))
          * (data.length : ℚ) = (k : ℚ) ^ 2 * sq_dev_about (average_of data) data := by
        field_simp
      rw [e] at this
      exact this
    have h5 : one_sub_u ^ (data.length + 10) * (m * m) * (data.length : ℚ)
        < one_sub_u ^ (data.length + 10)
          * ((one_sub_u * ofUInt DBL_MANT_DIG x - average_of data)
            * (one_sub_u * ofUInt DBL_MANT_DIG x - average_of data)) * (data.length : ℚ) := by
      calc one_sub_u ^ (data.length + 10) * (m * m) * (data.length : ℚ)
          ≤ (k : ℚ) ^ 2 * sq_dev_about (average_of data) data := h4
        _ < one_sub_u ^ (data.length + 10) * ((data.length : ℚ)
              * (one_sub_u * ofUInt DBL_MANT_DIG x - average_of data) ^ 2) := h2
        _ = _ := by ring
    exact lt_of_mul_lt_mul_right h5 hlen.le
  have h6 : m * m < (one_sub_u * ofUInt DBL_MANT_DIG x - average_of data)
      * (one_sub_u * ofUInt DBL_MANT_DIG x - average_of data) :=
    lt_of_mul_lt_mul_left h3 hcp.le
  have h7 : m < one_sub_u * ofUInt DBL_MANT_DIG x - average_of data :=
    lt_of_mul_self_lt_mul_self₀ (by linarith) h6
  have h8 := roundTo_upper (add_nonneg ha m0)
  intro hkeep
  rcases hkeep with hz | ⟨_, hhi⟩
  · omega
  · have h9 : one_sub_u * ofUInt DBL_MANT_DIG x
        ≤ one_sub_u * fadd DBL_MANT_DIG (average_of data) m :=
      mul_le_mul_of_nonneg_left hhi one_sub_u_pos.le
    have h10 : one_sub_u * fadd DBL_MANT_DIG (average_of data) m ≤ average_of data + m := h8
    linarith

/-- Removal up to rounding, below the band. -/
theorem not_strip_keeps_below {pow2 : ℚ → ℚ} (hpow : pow_faithful pow2) (data : List ℕ)
    (k : ℤ) (hk : 1 ≤ k) (x : ℕ) (hne : data ≠ [])
    (h1 : ofUInt DBL_MANT_DIG x < one_sub_u * average_of data)
    (h2 : (k : ℚ) ^ 2 * sq_dev_about (average_of data) data
      < one_sub_u ^ (data.length + 10) * ((data.length : ℚ)
          * (one_sub_u * average_of data - ofUInt DBL_MANT_DIG x) ^ 2)) :
    ¬ strip_keeps pow2 data k x := by
  obtain ⟨m0, m1⟩ := band_approx hpow data k (by omega)
  have ha := average_of_nonneg data
  have hx := ofUInt_nonneg x
  have hlen : (0 : ℚ) < (data.length : ℚ) := by
    exact_mod_cast List.length_pos.mpr hne
  have hcp := one_sub_u_pow_pos (data.length + 10)
  set m := fmul DBL_MANT_DIG (ofInt k) (std_dev_of pow2 data) with hmdef
  have h3 : one_sub_u ^ (data.length + 10) * (m * m)
      < one_sub_u ^ (data.length + 10)
        * ((one_sub_u * average_of data - ofUInt DBL_MANT_DIG x)
          * (one_sub_u * average_of data - ofUInt DBL_MANT_DIG x)) := by
    have h4 : one_sub_u ^ (data.length + 10) * (m * m) * (data.length : ℚ)
        ≤ (k : ℚ) ^ 2 * sq_dev_about (average_of data) data := by
      have := mul_le_mul_of_nonneg_right m1.2 hlen.le
      have e : (k : ℚ) ^ 2 * (sq_dev_about (average_of data) data / (data.length : ℚ))
          * (data.length : ℚ) = (k : ℚ) ^ 2 * sq_dev_about (average_of data) data := by
        field_simp
      rw [e] at this
      exact this
    have h5 : one_sub_u ^ (data.length + 10) * (m * m) * (data.length : ℚ)
        < one_sub_u ^ (data.length + 10)
          * ((one_sub_u * average_of data - ofUInt DBL_MANT_DIG x)
            * (one_sub_u * average_of data - ofUInt DBL_MANT_DIG x)) * (data.length : ℚ) := by
      calc one_sub_u ^ (data.length + 10) * (m * m) * (data.length : ℚ)
          ≤ (k : ℚ) ^ 2 * sq_dev_about (average_of data) data := h4
        _ < one_sub_u ^ (data.length + 10) * ((data.length : ℚ)
              * (one_sub_u * average_of data - ofUInt DBL_MANT_DIG x) ^ 2) := h2
        _ = _ := by ring
    exact lt_of_mul_lt_mul_right h5 hlen.le
  have h6 : m * m < (one_sub_u * average_of data - ofUInt DBL_MANT_DIG x)
      * (one_sub_u * average_of data - ofUInt DBL_MANT_DIG x) :=
    lt_of_mul_lt_mul_left h3 hcp.le
  have h7 : m < one_sub_u * average_of data - ofUInt DBL_MANT_DIG x :=
    lt_of_mul_self_lt_mul_self₀ (by linarith) h6
  have hc1 := one_sub_u_le_one
  have hc0 := one_sub_u_pos
  -- the lower bound `a - m` is positive, and its rounding is at least `c * (a - m)`
  have hpos : 0 ≤ average_of data - m := by
    have : one_sub_u * average_of data ≤ average_of data := by
      have := mul_le_mul_of_nonneg_right hc1 ha
      linarith
    linarith
  have h8 := roundTo_lower hpos
  intro hkeep
  rcases hkeep with hz | ⟨hlo, _⟩
  · omega
  · have h9 : one_sub_u * (average_of data - m) ≤ ofUInt DBL_MANT_DIG x := le_trans h8 hlo
    have h10 : one_sub_u * m ≤ m := by
      have := mul_le_mul_of_nonneg_right hc1 m0
      linarith
    have e : one_sub_u * (average_of data - m) = one_sub_u * average_of data - one_sub_u * m := by
      ring
    linarith

/-! ## The band around the exact mean -/

/-- The sum of the squared deviations from any centre, expanded. -/
theorem sum_sq_sub (l : List ℚ) (a : ℚ) :
    (l.map (fun y => (y - a) ^ 2)).sum
      = (l.map (fun y => y ^ 2)).sum - 2 * a * l.sum + (l.length : ℚ) * a ^ 2 := by
  induction l with
  | nil => simp
  | cons y ys ih =>
    simp only [List.map_cons, List.sum_cons, List.length_cons, ih]
    push_cast
    ring

/-- The mean minimises the sum of the squared deviations. -/
theorem sq_dev_sum_le_about (data : List ℕ) (hs : data.sum ≤ 2 ^ 53) (a : ℚ) :
    sq_dev_sum data ≤ sq_dev_about a data := by
  have hp : 1 ≤ DBL_MANT_DIG := by decide
  have hP : (2 : ℕ) ^ DBL_MANT_DIG = 2 ^ 53 := rfl
  rcases eq_or_ne data [] with rfl | hne
  · simp [sq_dev_sum, sq_dev_about]
  have hlen : (0 : ℚ) < (data.length : ℚ) := by
    exact_mod_cast List.length_pos.mpr hne
  have e1 : sq_dev_about a data
      = ((data.map (fun (x : ℕ) => (x : ℚ))).map (fun y => (y - a) ^ 2)).sum := by
    unfold sq_dev_about
    rw [List.map_map]
    congr 1
    apply List.map_congr_left
    intro x hx
    simp only [Function.comp]
    rw [ofUInt_of_le _ hp x (by rw [hP]; exact le_trans (le_sum_of_mem data x hx) hs)]
  have e2 : sq_dev_sum data
      = ((data.map (fun (x : ℕ) => (x : ℚ))).map (fun y => (y - mean data) ^ 2)).sum := by
    unfold sq_dev_sum
    rw [List.map_map]
    rfl
  have hsum : (data.map (fun (x : ℕ) => (x : ℚ))).sum = (data.length : ℚ) * mean data := by
    unfold mean
    have : (data.map (fun (x : ℕ) => (x : ℚ))).sum = ((data.sum : ℕ) : ℚ) := by
      induction data with
      | nil => simp
      | cons y ys ih => simp
    rw [this]
    field_simp
  rw [e1, e2, sum_sq_sub, sum_sq_sub, hsum, List.length_map]
  have : 0 ≤ (data.length : ℚ) * (mean data - a) ^ 2 :=
    mul_nonneg hlen.le (sq_nonneg _)
  nlinarith

/-- A sample within the exact band by the rounding margin lies inside the
band around the computed average. -/
theorem inside_band_of_exact (data : List ℕ) (hs : data.sum ≤ 2 ^ 53) (k : ℤ) (x : ℕ)
    (hx : x ∈ data) (h : inside_exact_band data k x) : inside_band data k x := by
  have hp : 1 ≤ DBL_MANT_DIG := by decide
  have hP : (2 : ℕ) ^ DBL_MANT_DIG = 2 ^ 53 := rfl
  have hPq : (2 : ℚ) ^ DBL_MANT_DIG = 2 ^ 53 := rfl
  have hne : data ≠ [] := List.ne_nil_of_mem hx
  have hlen : (0 : ℚ) < (data.length : ℚ) := by
    exact_mod_cast List.length_pos.mpr hne
  have hmean0 : 0 ≤ mean data := by
    unfold mean; exact div_nonneg (Nat.cast_nonneg _) hlen.le
  have ha := average_of_eq_roundTo data hs
  have herr := abs_roundTo_sub_le DBL_MANT_DIG (mean data)
  rw [abs_of_nonneg hmean0, hPq, ← ha] at herr
  have hxe : ofUInt DBL_MANT_DIG x = (x : ℚ) :=
    ofUInt_of_le _ hp x (by rw [hP]; exact le_trans (le_sum_of_mem data x hx) hs)
  have habs : |(x : ℚ) - average_of data| ≤ |(x : ℚ) - mean data| + mean data / 2 ^ 53 := by
    have h1 : (x : ℚ) - average_of data
        = ((x : ℚ) - mean data) + (mean data - average_of data) := by ring
    rw [h1]
    refine le_trans (abs_add _ _) ?_
    rw [abs_sub_comm (mean data)]
    linarith
  have hsq : ((x : ℚ) - average_of data) ^ 2
      ≤ (|(x : ℚ) - mean data| + mean data / 2 ^ 53) ^ 2 := by
    rw [← sq_abs ((x : ℚ) - average_of data)]
    exact pow_le_pow_left₀ (abs_nonneg _) habs 2
  have hV := sq_dev_sum_le_about data hs (average_of data)
  have hk2 : (0 : ℚ) ≤ (k : ℚ) ^ 2 := sq_nonneg _
  have hc0 := (one_sub_u_pow_pos (data.length + 10)).le
  unfold inside_band
  unfold inside_exact_band at h
  rw [hxe]
  calc (data.length : ℚ) * ((x : ℚ) - average_of data) ^ 2
      ≤ (data.length : ℚ) * (|(x : ℚ) - mean data| + mean data / 2 ^ 53) ^ 2 :=
        mul_le_mul_of_nonneg_left hsq hlen.le
    _ ≤ one_sub_u ^ (data.length + 10) * ((k : ℚ) ^ 2 * sq_dev_sum data) := h
    _ ≤ one_sub_u ^ (data.length + 10)
          * ((k : ℚ) ^ 2 * sq_dev_about (average_of data) data) :=
        mul_le_mul_of_nonneg_left (mul_le_mul_of_nonneg_left hV hk2) hc0

/-! ## `strip_std_dev` when the statistics are exact -/

/-- With exact statistics `strip_std_dev` computes the mean and the population
standard deviation themselves. -/
theorem std_dev_of_exact (pow2 : ℚ → ℚ) (hpow : pow_faithful pow2) (data : List ℕ) (μ s : ℕ) (hne : data ≠ [])
    (hex : exact_stats data μ s) :
    average_of data = (μ : ℚ) ∧ std_dev_of pow2 data = (s : ℚ) := by
  obtain ⟨hμ, hs, hVs, hV⟩ := hex
  have hp : 1 ≤ DBL_MANT_DIG := by decide
  have hP : (2 : ℕ) ^ DBL_MANT_DIG = 2 ^ 53 := rfl
  have hlen : 1 ≤ data.length := List.length_pos.mpr hne
  have hlenq : (1 : ℚ) ≤ (data.length : ℚ) := by exact_mod_cast hlen
  obtain ⟨ha, hv⟩ := calc_stats_v_exact pow2 hpow data μ hμ hs hV (0, 0, 0) rfl
  rw [calc_stats_fold_v, ha] at hv
  have hss : s * s ≤ 2 ^ 53 := by
    have h3 : ((s * s : ℕ) : ℚ) ≤ ((2 ^ 53 : ℕ) : ℚ) := by
      push_cast
      have h4 : (s : ℚ) * s ≤ (data.length : ℚ) * ((s : ℚ) ^ 2) := by
        have h5 : (0 : ℚ) ≤ (s : ℚ) ^ 2 := by positivity
        nlinarith
      rw [← hVs] at h4
      linarith
    exact_mod_cast h3
  have hs53 : s < 2 ^ DBL_MANT_DIG := by
    rw [hP]
    by_contra hcon
    push_neg at hcon
    have := Nat.mul_le_mul hcon hcon
    have h3 : (2 : ℕ) ^ 53 < 2 ^ 53 * 2 ^ 53 := by norm_num
    omega
  have hquot : (data.length : ℚ) * (s : ℚ) ^ 2 / (data.length : ℚ) = ((s * s : ℕ) : ℚ) := by
    have : (data.length : ℚ) ≠ 0 := by linarith
    push_cast
    field_simp
    ring
  refine ⟨ha, ?_⟩
  unfold std_dev_of
  rw [ha]
  show fsqrt DBL_MANT_DIG (fdiv DBL_MANT_DIG
    (data.foldl (fun v x => fadd DBL_MANT_DIG v
      (pow2 (fsub DBL_MANT_DIG (ofUInt DBL_MANT_DIG x) (μ : ℚ)))) (0 : ℚ))
    (ofInt data.length)) = (s : ℚ)
  have hcast : ofInt (data.length : ℤ) = (data.length : ℚ) := by unfold ofInt; push_cast; rfl
  rw [hv, hVs, hcast]
  unfold fdiv
  rw [hquot, roundTo_natCast _ hp _ (by rw [hP]; exact hss), Nat.cast_mul]
  exact fsqrt_sq _ s hs53

/-- With exact statistics and a band that fits 53 bits the retention test is
the exact band test. -/
theorem strip_keeps_exact (pow2 : ℚ → ℚ) (hpow : pow_faithful pow2) (data : List ℕ) (μ s : ℕ) (k : ℤ) (hne : data ≠ [])
    (hex : exact_stats data μ s) (hk : 1 ≤ k) (hfit : (μ : ℤ) + k * (s : ℤ) < 2 ^ 53)
    (x : ℕ) (hx : x ∈ data) :
    strip_keeps pow2 data k x ↔
      ((μ : ℤ) - k * (s : ℤ) ≤ (x : ℤ) ∧ (x : ℤ) ≤ (μ : ℤ) + k * (s : ℤ)) := by
  obtain ⟨ha, hsd⟩ := std_dev_of_exact pow2 hpow data μ s hne hex
  have hp : 1 ≤ DBL_MANT_DIG := by decide
  have hP : (2 : ℕ) ^ DBL_MANT_DIG = 2 ^ 53 := rfl
  have hPz : (2 : ℤ) ^ DBL_MANT_DIG = 2 ^ 53 := rfl
  have hx53 : x ≤ 2 ^ 53 := le_trans (le_sum_of_mem data x hx) hex.2.1
  have hks : 0 ≤ k * (s : ℤ) := mul_nonneg (by omega) (Int.natCast_nonneg s)
  have hμ0 : (0 : ℤ) ≤ (μ : ℤ) := Int.natCast_nonneg μ
  have e1 : fmul DBL_MANT_DIG (ofInt k) (s : ℚ) = ((k * (s : ℤ) : ℤ) : ℚ) := by
    unfold fmul ofInt
    have := roundTo_intCast DBL_MANT_DIG (k * (s : ℤ)) (by rw [hPz, abs_of_nonneg hks]; omega)
    push_cast at this ⊢
    exact this
  have e2 : fadd DBL_MANT_DIG (μ : ℚ) ((k * (s : ℤ) : ℤ) : ℚ)
      = (((μ : ℤ) + k * (s : ℤ) : ℤ) : ℚ) := by
    unfold fadd
    have := roundTo_intCast DBL_MANT_DIG ((μ : ℤ) + k * (s : ℤ))
      (by rw [hPz, abs_of_nonneg (by omega)]; omega)
    push_cast at this ⊢
    exact this
  have e3 : fsub DBL_MANT_DIG (μ : ℚ) ((k * (s : ℤ) : ℤ) : ℚ)
      = (((μ : ℤ) - k * (s : ℤ) : ℤ) : ℚ) := by
    unfold fsub
    have := roundTo_intCast DBL_MANT_DIG ((μ : ℤ) - k * (s : ℤ))
      (by rw [hPz, abs_lt]; constructor <;> omega)
    push_cast at this ⊢
    exact this
  have e4 : ofUInt DBL_MANT_DIG x = (((x : ℤ) : ℤ) : ℚ) := by
    rw [ofUInt_of_le _ hp x (by rw [hP]; exact hx53)]
    push_cast; rfl
  unfold strip_keeps
  rw [ha, hsd, e1, e2, e3, e4]
  constructor
  · rintro (h | ⟨h1, h2⟩)
    · omega
    · exact ⟨by exact_mod_cast h1, by exact_mod_cast h2⟩
  · rintro ⟨h1, h2⟩
    right
    exact ⟨by exact_mod_cast h1, by exact_mod_cast h2⟩

/-- The integer identities behind `exact_stats`. -/
theorem exact_stats_int (data : List ℕ) (μ s : ℕ) (hne : data ≠ [])
    (hex : exact_stats data μ s) :
    data.sum = data.length * μ ∧ (data.map (sq_dev μ)).sum = data.length * (s * s) := by
  obtain ⟨hμ, _, hVs, _⟩ := hex
  have hlen : 1 ≤ data.length := List.length_pos.mpr hne
  have hlenq : (data.length : ℚ) ≠ 0 := by
    have : (1 : ℚ) ≤ (data.length : ℚ) := by exact_mod_cast hlen
    linarith
  constructor
  · unfold mean at hμ
    rw [div_eq_iff hlenq] at hμ
    have : ((data.sum : ℕ) : ℚ) = ((data.length * μ : ℕ) : ℚ) := by
      rw [Nat.cast_mul, hμ]; ring
    exact_mod_cast this
  · have h := sq_dev_sum_eq μ data hμ
    rw [hVs] at h
    have : (((data.map (sq_dev μ)).sum : ℕ) : ℚ) = ((data.length * (s * s) : ℕ) : ℚ) := by
      rw [← h, Nat.cast_mul, Nat.cast_mul]; ring
    exact_mod_cast this

/-- A sum of terms that are each at least `c`. -/
theorem length_mul_le_sum_map (f : ℕ → ℕ) (c : ℕ) (l : List ℕ) (h : ∀ x ∈ l, c ≤ f x) :
    l.length * c ≤ (l.map f).sum := by
  induction l with
  | nil => simp
  | cons a t ih =>
    have h1 := h a (List.mem_cons_self a t)
    have h2 := ih (fun x hx => h x (List.mem_cons_of_mem a hx))
    simp only [List.length_cons, List.map_cons, List.sum_cons]
    have : (t.length + 1) * c = t.length * c + c := by ring
    omega

/-- The squared deviation as an integer square. -/
theorem sq_dev_int (μ x : ℕ) :
    ((sq_dev μ x : ℕ) : ℤ) = ((x : ℤ) - (μ : ℤ)) * ((x : ℤ) - (μ : ℤ)) := by
  unfold sq_dev
  rw [Nat.cast_mul, Int.natCast_natAbs, abs_mul_abs_self]

/-- A sample whose squared deviation is at most `c * c` lies within `c` of the mean. -/
theorem band_of_sq_dev_le (μ x : ℕ) (c : ℤ) (hc : 0 ≤ c)
    (h : ((sq_dev μ x : ℕ) : ℤ) ≤ c * c) :
    (μ : ℤ) - c ≤ (x : ℤ) ∧ (x : ℤ) ≤ (μ : ℤ) + c := by
  rw [sq_dev_int] at h
  have h2 := abs_le_of_sq_le_sq' (by nlinarith : ((x : ℤ) - (μ : ℤ)) ^ 2 ≤ c ^ 2) hc
  constructor <;> linarith [h2.1, h2.2]

/-- Some sample has a squared deviation of at most the variance. -/
theorem exists_sq_dev_le (data : List ℕ) (μ s : ℕ) (hne : data ≠ [])
    (hV : (data.map (sq_dev μ)).sum = data.length * (s * s)) :
    ∃ x ∈ data, sq_dev μ x ≤ s * s := by
  by_contra hcon
  push_neg at hcon
  have h := length_mul_le_sum_map (sq_dev μ) (s * s + 1) data (fun x hx => hcon x hx)
  rw [hV] at h
  have hlen : 1 ≤ data.length := List.length_pos.mpr hne
  have : data.length * (s * s + 1) = data.length * (s * s) + data.length := by ring
  omega

/-- The Cauchy-Schwarz inequality for a list of integers against the constant
list of ones. -/
theorem sum_sq_le_length_mul (l : List ℤ) :
    l.sum ^ 2 ≤ (l.length : ℤ) * (l.map (fun d => d * d)).sum := by
  induction l with
  | nil => simp
  | cons a t ih =>
    simp only [List.length_cons, List.map_cons, List.sum_cons, Nat.cast_add, Nat.cast_one]
    have hQ : 0 ≤ (t.map (fun d => d * d)).sum :=
      List.sum_nonneg (by
        intro y hy
        obtain ⟨d, _, rfl⟩ := List.mem_map.mp hy
        exact mul_self_nonneg d)
    have hm : (0 : ℤ) ≤ (t.length : ℤ) := Int.natCast_nonneg _
    generalize (t.map (fun d => d * d)).sum = Q at ih hQ ⊢
    generalize t.sum = S at ih ⊢
    generalize (t.length : ℤ) = m at ih hm ⊢
    have key : 2 * a * S ≤ m * (a * a) + Q := by
      rcases hm.eq_or_lt with h0 | hpos
      · subst h0
        have hS : S = 0 := by nlinarith [sq_nonneg S]
        subst hS
        simpa using hQ
      · have h1 : 0 ≤ (m * a - S) ^ 2 := sq_nonneg _
        have h2 : m * (2 * a * S) ≤ m * (m * (a * a) + Q) := by nlinarith
        exact le_of_mul_le_mul_left h2 hpos
    nlinarith

/-- The deviations from the mean sum to zero. -/
theorem sum_dev_eq (μ : ℕ) (l : List ℕ) :
    (l.map (fun (y : ℕ) => (y : ℤ) - (μ : ℤ))).sum = (l.sum : ℤ) - (l.length : ℤ) * (μ : ℤ) := by
  induction l with
  | nil => simp
  | cons a t ih =>
    simp only [List.map_cons, List.sum_cons, List.length_cons, ih]
    push_cast
    ring

/-- The sum of the squared deviations as a sum of integer squares. -/
theorem sum_sq_dev_int (μ : ℕ) (l : List ℕ) :
    (((l.map (sq_dev μ)).sum : ℕ) : ℤ)
      = ((l.map (fun (y : ℕ) => (y : ℤ) - (μ : ℤ))).map (fun d => d * d)).sum := by
  induction l with
  | nil => simp
  | cons a t ih =>
    simp only [List.map_cons, List.sum_cons]
    rw [Nat.cast_add, ih, sq_dev_int]

/-- Samuelson's inequality: no sample deviates from the mean by more than
`sqrt (n - 1)` standard deviations. -/
theorem sq_dev_le_samuelson (data : List ℕ) (μ s : ℕ)
    (hS : data.sum = data.length * μ)
    (hV : (data.map (sq_dev μ)).sum = data.length * (s * s)) (x : ℕ) (hx : x ∈ data) :
    ((sq_dev μ x : ℕ) : ℤ) ≤ ((data.length : ℤ) - 1) * ((s : ℤ) * (s : ℤ)) := by
  have hperm := List.perm_cons_erase hx
  have hlen : data.length = (data.erase x).length + 1 := by
    rw [hperm.length_eq, List.length_cons]
  have h1 : (data.map (fun (y : ℕ) => (y : ℤ) - (μ : ℤ))).sum
      = ((x : ℤ) - (μ : ℤ)) + ((data.erase x).map (fun (y : ℕ) => (y : ℤ) - (μ : ℤ))).sum := by
    rw [(hperm.map _).sum_eq, List.map_cons, List.sum_cons]
  have h2 : (((data.map (sq_dev μ)).sum : ℕ) : ℤ)
      = ((sq_dev μ x : ℕ) : ℤ) + ((((data.erase x).map (sq_dev μ)).sum : ℕ) : ℤ) := by
    rw [(hperm.map _).sum_eq, List.map_cons, List.sum_cons, Nat.cast_add]
  rw [sum_dev_eq, hS] at h1
  rw [hV, Nat.cast_mul, Nat.cast_mul] at h2
  have hcs := sum_sq_le_length_mul ((data.erase x).map (fun (y : ℕ) => (y : ℤ) - (μ : ℤ)))
  rw [← sum_sq_dev_int, List.length_map] at hcs
  have hd := sq_dev_int μ x
  have hn : (data.length : ℤ) = ((data.erase x).length : ℤ) + 1 := by exact_mod_cast hlen
  push_cast at h1
  generalize ((data.erase x).map (fun (y : ℕ) => (y : ℤ) - (μ : ℤ))).sum = T at h1 hcs
  generalize ((((data.erase x).map (sq_dev μ)).sum : ℕ) : ℤ) = Q at h2 hcs
  generalize ((sq_dev μ x : ℕ) : ℤ) = D at h2 hd ⊢
  generalize ((data.erase x).length : ℤ) = m at hn hcs
  have hm0 : 0 ≤ m := by
    have : (0 : ℤ) ≤ (data.length : ℤ) := Int.natCast_nonneg _
    have : 1 ≤ (data.length : ℤ) := by
      have := List.length_pos_of_mem hx
      exact_mod_cast this
    omega
  rw [hn] at h1 h2 ⊢
  have hT : T = -((x : ℤ) - (μ : ℤ)) := by linarith
  have hD : D = T ^ 2 := by rw [hT, hd]; ring
  have hQ : Q = (m + 1) * ((s : ℤ) * (s : ℤ)) - D := by linarith
  rw [← hD, hQ] at hcs
  have h3 : (m + 1) * D ≤ (m + 1) * (m * ((s : ℤ) * (s : ℤ))) := by nlinarith
  have h4 := le_of_mul_le_mul_left h3 (by omega : (0 : ℤ) < m + 1)
  simpa using h4


/-! ## What `strip_std_dev` writes -/

/-- C6, counterexample. With `num_std_dev = 0` and input `1, 3` (mean 2,
population standard deviation 1) both samples are written although neither
lies in the band `[2 - 0 * 1, 2 + 0 * 1]`.  With `num_std_dev = 3` and the
sample `100600450` followed by nine samples `0` (mean `10060045`, population
standard deviation `30180135`) the first sample lies in the band, on its upper
end `10060045 + 3 * 30180135`, yet it is not written, whatever a faithful
`pow (x, 2)` returns: the squares are exact, their `double` sum is not, and the
upper bound comes out below the sample. -/
theorem strip_std_dev_not_exact_band :
    (IsPopStdDev [1, 3] 1 ∧
        (∀ pow2 : ℚ → ℚ, strip_std_dev pow2 [1, 3] 0 = (2, [1, 3])) ∧
        [1, 3].filter (fun x => decide (mean [1, 3] - 0 * 1 ≤ (x : ℚ) ∧
          (x : ℚ) ≤ mean [1, 3] + 0 * 1)) = []) ∧
      (mean [100600450, 0, 0, 0, 0, 0, 0, 0, 0, 0] = 10060045 ∧
        IsPopStdDev [100600450, 0, 0, 0, 0, 0, 0, 0, 0, 0] 30180135 ∧
        (∀ pow2 : ℚ → ℚ, pow_faithful pow2 →
          strip_std_dev pow2 [100600450, 0, 0, 0, 0, 0, 0, 0, 0, 0] 3
            = (9, [0, 0, 0, 0, 0, 0, 0, 0, 0])) ∧
        (mean [100600450, 0, 0, 0, 0, 0, 0, 0, 0, 0] - 3 * 30180135
            ≤ ((100600450 : ℕ) : ℚ) ∧
          ((100600450 : ℕ) : ℚ)
            ≤ mean [100600450, 0, 0, 0, 0, 0, 0, 0, 0, 0] + 3 * 30180135)) := by
  refine ⟨⟨?_, fun pow2 => strip_std_dev_all_of_keeps pow2 _ _ (fun _ _ => Or.inl rfl), ?_⟩,
    ?_, ?_,
    fun pow2 hpow => (strip_std_dev_eq_fsq hpow _ _ (by decide!)).trans (by decide!), ?_⟩
  · unfold IsPopStdDev; decide!
  · decide!
  · decide!
  · unfold IsPopStdDev; decide!
  · decide!

/-- C6, amended. For every library `pow`, every input sequence and every
`num_std_dev`, `strip_std_dev` writes to `out_data`, in their original relative
order, exactly the samples that pass `strip_keeps`: all of them when
`num_std_dev = 0`, and otherwise those `x` with
`average - num_std_dev * std_dev ≤ x ≤ average + num_std_dev * std_dev`
evaluated in `double` arithmetic, where `average` and `std_dev` are computed
once from the whole input; the value returned is the number of samples
written, at most `in_length`.  For a faithful `pow` and `num_std_dev ≥ 1` this
test is the exact band around the computed average up to rounding: a sample
inside the band by the margin `inside_band` is written, a sample outside it by
the margin `above_band` or `below_band` is not; when the samples add up to at
most `2 ^ 53`, a sample within `num_std_dev` population standard deviations of
the mean by the margin `inside_exact_band` is written.  When the mean `μ` and the
population standard deviation `s` are integers and the arithmetic is exact
(`exact_stats`, `μ + num_std_dev * s < 2 ^ 53`), the samples written are
exactly those with `μ - num_std_dev * s ≤ x ≤ μ + num_std_dev * s`. -/
theorem strip_std_dev_spec (pow2 : ℚ → ℚ) (in_data : List ℕ) (num_std_dev : ℤ) :
    (strip_std_dev pow2 in_data num_std_dev).2
        = in_data.filter (fun x => decide (strip_keeps pow2 in_data num_std_dev x)) ∧
      List.Sublist (strip_std_dev pow2 in_data num_std_dev).2 in_data ∧
      (∀ x, x ∈ (strip_std_dev pow2 in_data num_std_dev).2 ↔
        x ∈ in_data ∧ strip_keeps pow2 in_data num_std_dev x) ∧
      (strip_std_dev pow2 in_data num_std_dev).1
        = (strip_std_dev pow2 in_data num_std_dev).2.length ∧
      (strip_std_dev pow2 in_data num_std_dev).1 ≤ in_data.length ∧
      (pow_faithful pow2 → 1 ≤ num_std_dev → ∀ x ∈ in_data,
        (inside_band in_data num_std_dev x →
          x ∈ (strip_std_dev pow2 in_data num_std_dev).2) ∧
        (above_band in_data num_std_dev x →
          x ∉ (strip_std_dev pow2 in_data num_std_dev).2) ∧
        (below_band in_data num_std_dev x →
          x ∉ (strip_std_dev pow2 in_data num_std_dev).2)) ∧
      (pow_faithful pow2 → 1 ≤ num_std_dev → in_data.sum ≤ 2 ^ 53 → ∀ x ∈ in_data,
        inside_exact_band in_data num_std_dev x →
          x ∈ (strip_std_dev pow2 in_data num_std_dev).2) ∧
      (pow_faithful pow2 → 1 ≤ num_std_dev → ∀ μ s : ℕ, exact_stats in_data μ s →
        (μ : ℤ) + num_std_dev * (s : ℤ) < 2 ^ 53 → ∀ x ∈ in_data,
          (x ∈ (strip_std_dev pow2 in_data num_std_dev).2 ↔
            (μ : ℤ) - num_std_dev * (s : ℤ) ≤ (x : ℤ) ∧
              (x : ℤ) ≤ (μ : ℤ) + num_std_dev * (s : ℤ))) := by
  have hmem : ∀ x, x ∈ (strip_std_dev pow2 in_data num_std_dev).2 ↔
      x ∈ in_data ∧ strip_keeps pow2 in_data num_std_dev x := by
    intro x
    rw [strip_std_dev_eq_filter]
    simp [List.mem_filter]
  refine ⟨?_, ?_, hmem, ?_, ?_, ?_, ?_, ?_⟩
  · rw [strip_std_dev_eq_filter]
  · rw [strip_std_dev_eq_filter]; exact List.filter_sublist _
  · rw [strip_std_dev_eq_filter]
  · rw [strip_std_dev_eq_filter]; exact List.length_filter_le _ _
  · intro hpow hk x hx
    have hne : in_data ≠ [] := List.ne_nil_of_mem hx
    refine ⟨?_, ?_, ?_⟩
    · intro h
      exact (hmem x).mpr ⟨hx, strip_keeps_of_margin hpow in_data num_std_dev (by omega) x hne h⟩
    · intro h hin
      exact not_strip_keeps_above hpow in_data num_std_dev hk x hne h.1 h.2 ((hmem x).mp hin).2
    · intro h hin
      exact not_strip_keeps_below hpow in_data num_std_dev hk x hne h.1 h.2 ((hmem x).mp hin).2
  · intro hpow hk hs x hx h
    exact (hmem x).mpr ⟨hx, strip_keeps_of_margin hpow in_data num_std_dev (by omega) x
      (List.ne_nil_of_mem hx) (inside_band_of_exact in_data hs num_std_dev x hx h)⟩
  · intro hpow hk μ s hex hfit x hx
    have hne : in_data ≠ [] := List.ne_nil_of_mem hx
    rw [hmem x, strip_keeps_exact pow2 hpow in_data μ s num_std_dev hne hex hk hfit x hx]
    exact ⟨fun h => h.2, fun h => ⟨hx, h⟩⟩

/-- The amended statement at the samples `2, 4, 4, 4, 5, 5, 7, 9` (mean 5,
standard deviation 2) with one standard deviation and the correctly rounded
square: the samples from 3 to 7 are written, in order, and 2 and 9 are not. -/
theorem strip_std_dev_spec_witness :
    (strip_std_dev (fsq DBL_MANT_DIG) [2, 4, 4, 4, 5, 5, 7, 9] 1).2
        = ([2, 4, 4, 4, 5, 5, 7, 9] : List ℕ).filter
            (fun x => decide (strip_keeps (fsq DBL_MANT_DIG) [2, 4, 4, 4, 5, 5, 7, 9] 1 x)) ∧
      (∀ x ∈ ([2, 4, 4, 4, 5, 5, 7, 9] : List ℕ),
        (x ∈ (strip_std_dev (fsq DBL_MANT_DIG) [2, 4, 4, 4, 5, 5, 7, 9] 1).2 ↔
          ((5 : ℕ) : ℤ) - 1 * ((2 : ℕ) : ℤ) ≤ (x : ℤ) ∧
            (x : ℤ) ≤ ((5 : ℕ) : ℤ) + 1 * ((2 : ℕ) : ℤ))) ∧
      (inside_band [2, 4, 4, 4, 5, 5, 7, 9] 1 5 →
        5 ∈ (strip_std_dev (fsq DBL_MANT_DIG) [2, 4, 4, 4, 5, 5, 7, 9] 1).2) ∧
      inside_band [2, 4, 4, 4, 5, 5, 7, 9] 1 5 ∧
      (above_band [2, 4, 4, 4, 5, 5, 7, 9] 1 9 →
        9 ∉ (strip_std_dev (fsq DBL_MANT_DIG) [2, 4, 4, 4, 5, 5, 7, 9] 1).2) ∧
      above_band [2, 4, 4, 4, 5, 5, 7, 9] 1 9 :=
  have h := strip_std_dev_spec (fsq DBL_MANT_DIG) [2, 4, 4, 4, 5, 5, 7, 9] 1
  ⟨h.1,
    h.2.2.2.2.2.2.2 fsq_faithful (by decide) 5 2 (by unfold exact_stats; decide!) (by decide),
    (h.2.2.2.2.2.1 fsq_faithful (by decide) 5 (by decide)).1, by decide!,
    (h.2.2.2.2.2.1 fsq_faithful (by decide) 9 (by decide)).2.1, by decide!⟩

/-! ## The outlier example -/

/-- C13. Applied to `100, 102, 101, 99, 100, 100000` with `num_std_dev = 2`,
`strip_std_dev` returns 5 and writes `100, 102, 101, 99, 100`, whatever a
faithful `pow (x, 2)` returns; `calc_stats` of that output gives the average
`100.4`, that is the `double` written `100.4` (`502 / 5` correctly rounded,
within `10 ^ (-13)` of the decimal value). -/
theorem strip_std_dev_outlier_example (pow2 : ℚ → ℚ) (hpow : pow_faithful pow2) :
    strip_std_dev pow2 [100, 102, 101, 99, 100, 100000] 2 = (5, [100, 102, 101, 99, 100]) ∧
      (calc_stats pow2 (strip_std_dev pow2 [100, 102, 101, 99, 100, 100000] 2).2
          ⟨0, 0, 0, 0, 0, 0, 0⟩).map c_results_t.average = some (dbl (1004 / 10)) ∧
      dbl (1004 / 10) = fdiv DBL_MANT_DIG 502 5 ∧
      |dbl (1004 / 10) - 1004 / 10| < 1 / 10 ^ 13 := by
  have hne : [100, 102, 101, 99, 100, 100000] ≠ ([] : List ℕ) := by decide
  have k100 : strip_keeps pow2 [100, 102, 101, 99, 100, 100000] 2 100 :=
    strip_keeps_of_margin hpow _ 2 (by decide) 100 hne (by decide!)
  have k102 : strip_keeps pow2 [100, 102, 101, 99, 100, 100000] 2 102 :=
    strip_keeps_of_margin hpow _ 2 (by decide) 102 hne (by decide!)
  have k101 : strip_keeps pow2 [100, 102, 101, 99, 100, 100000] 2 101 :=
    strip_keeps_of_margin hpow _ 2 (by decide) 101 hne (by decide!)
  have k99 : strip_keeps pow2 [100, 102, 101, 99, 100, 100000] 2 99 :=
    strip_keeps_of_margin hpow _ 2 (by decide) 99 hne (by decide!)
  have kbig : ¬ strip_keeps pow2 [100, 102, 101, 99, 100, 100000] 2 100000 :=
    not_strip_keeps_above hpow _ 2 (by decide) 100000 hne (by decide!) (by decide!)
  have h1 : strip_std_dev pow2 [100, 102, 101, 99, 100, 100000] 2
      = (5, [100, 102, 101, 99, 100]) := by
    rw [strip_std_dev_eq_filter]
    simp [List.filter, k100, k102, k101, k99, kbig]
  refine ⟨h1, ?_, by decide!, by decide!⟩
  rw [h1, calc_stats_eq pow2 _ _ (by decide) (by decide!) (by decide!)]
  show some (average_of [100, 102, 101, 99, 100]) = _
  exact congrArg some (by decide!)

/-- The outlier example with the correctly rounded square. -/
theorem strip_std_dev_outlier_example_witness :
    strip_std_dev (fsq DBL_MANT_DIG) [100, 102, 101, 99, 100, 100000] 2
        = (5, [100, 102, 101, 99, 100]) ∧
      (calc_stats (fsq DBL_MANT_DIG)
          (strip_std_dev (fsq DBL_MANT_DIG) [100, 102, 101, 99, 100, 100000] 2).2
          ⟨0, 0, 0, 0, 0, 0, 0⟩).map c_results_t.average = some (dbl (1004 / 10)) ∧
      dbl (1004 / 10) = fdiv DBL_MANT_DIG 502 5 ∧
      |dbl (1004 / 10) - 1004 / 10| < 1 / 10 ^ 13 :=
  strip_std_dev_outlier_example (fsq DBL_MANT_DIG) fsq_faithful

/-! ## What `strip_std_dev` retains -/

/-- The rounding factor of a band of at most `2 ^ 31` samples is at least
`1 / 4`. -/
theorem quarter_le_one_sub_u_pow (n : ℕ) (hn : n ≤ 2 ^ 31) :
    (1 : ℚ) / 4 ≤ one_sub_u ^ (n + 10) := by
  refine le_trans ?_ (one_sub_le_one_sub_u_pow (n + 10))
  have h1 : ((n + 10 : ℕ) : ℚ) ≤ 2 ^ 32 := by
    have : n + 10 ≤ 2 ^ 32 := by omega
    exact_mod_cast this
  have h2 : ((n + 10 : ℕ) : ℚ) / 2 ^ 53 ≤ 2 ^ 32 / 2 ^ 53 :=
    div_le_div_of_nonneg_right h1 (by positivity)
  have h3 : (2 : ℚ) ^ 32 / 2 ^ 53 ≤ 3 / 4 := by norm_num
  linarith

/-- C17, counterexample. Six samples `0` and six samples `31635423`
with `num_std_dev = 1` have the mean `15817711.5` and the standard deviation
`15817711.5`, so each sample is exactly one standard deviation from the mean;
the squared deviations are exact for every faithful `pow (x, 2)`, their
`double` sum is not, the `double` standard deviation comes out as
`15817711.499999996`, both bounds move inside the samples, and `strip_std_dev`
retains nothing. -/
theorem strip_std_dev_keeps_none :
    mean [0, 0, 0, 0, 0, 0, 31635423, 31635423, 31635423, 31635423, 31635423, 31635423]
      = 31635423 / 2 ∧
    IsPopStdDev
      [0, 0, 0, 0, 0, 0, 31635423, 31635423, 31635423, 31635423, 31635423, 31635423]
      (31635423 / 2) ∧
    (∀ pow2 : ℚ → ℚ, pow_faithful pow2 →
      strip_std_dev pow2
          [0, 0, 0, 0, 0, 0, 31635423, 31635423, 31635423, 31635423, 31635423, 31635423] 1
        = (0, [])) ∧
    std_dev_of (fsq DBL_MANT_DIG)
        [0, 0, 0, 0, 0, 0, 31635423, 31635423, 31635423, 31635423, 31635423, 31635423]
      < 31635423 / 2 := by
  refine ⟨by decide!, by unfold IsPopStdDev; decide!,
    fun pow2 hpow => (strip_std_dev_eq_fsq hpow _ _ (by decide!)).trans (by decide!),
    by decide!⟩

/-- C17, amended. For every faithful `pow`, every non-empty input and every
`num_std_dev ≥ 1`: with `num_std_dev ≥ 2` (and at most `INT_MAX` samples)
`strip_std_dev` retains at least one sample; with `num_std_dev = 1` it retains
at least one sample whenever some sample lies inside the band by the rounding
margin `inside_band`, that is unless every sample lies, up to rounding, one
standard deviation or more from the computed average; every sample that lies
inside the band by that margin is retained, and so is, when the samples add up
to at most `2 ^ 53`, every sample within `num_std_dev` population standard
deviations of the mean by the margin `inside_exact_band`; and when the mean `μ` and
the population standard deviation `s` are integers and the arithmetic is exact
(`exact_stats`, `μ + num_std_dev * s < 2 ^ 53`) it retains at least one sample
and every sample within one standard deviation of the mean. -/
theorem strip_std_dev_keeps_one (pow2 : ℚ → ℚ) (hpow : pow_faithful pow2) (data : List ℕ)
    (k : ℤ) (hne : data ≠ []) (hk : 1 ≤ k) :
    (2 ≤ k → data.length ≤ INT_MAX →
        1 ≤ (strip_std_dev pow2 data k).1 ∧ (strip_std_dev pow2 data k).2 ≠ []) ∧
      ((∃ x ∈ data, inside_band data k x) →
        1 ≤ (strip_std_dev pow2 data k).1 ∧ (strip_std_dev pow2 data k).2 ≠ []) ∧
      (∀ x ∈ data, inside_band data k x → x ∈ (strip_std_dev pow2 data k).2) ∧
      (data.sum ≤ 2 ^ 53 → ∀ x ∈ data, inside_exact_band data k x →
        1 ≤ (strip_std_dev pow2 data k).1 ∧ x ∈ (strip_std_dev pow2 data k).2) ∧
      (∀ μ s : ℕ, exact_stats data μ s → (μ : ℤ) + k * (s : ℤ) < 2 ^ 53 →
        1 ≤ (strip_std_dev pow2 data k).1 ∧ (strip_std_dev pow2 data k).2 ≠ [] ∧
          ∀ x ∈ data, (μ : ℤ) - (s : ℤ) ≤ (x : ℤ) → (x : ℤ) ≤ (μ : ℤ) + (s : ℤ) →
            x ∈ (strip_std_dev pow2 data k).2) := by
  have hmargin : ∀ x ∈ data, inside_band data k x →
      1 ≤ (strip_std_dev pow2 data k).1 ∧ (strip_std_dev pow2 data k).2 ≠ [] ∧
        x ∈ (strip_std_dev pow2 data k).2 := fun x hx h =>
    strip_std_dev_pos_of_keeps pow2 data k x hx
      (strip_keeps_of_margin hpow data k (by omega) x hne h)
  refine ⟨?_, ?_, fun x hx h => (hmargin x hx h).2.2,
    fun hs x hx h => ⟨(hmargin x hx (inside_band_of_exact data hs k x hx h)).1,
      (hmargin x hx (inside_band_of_exact data hs k x hx h)).2.2⟩, ?_⟩
  · intro hk2 hlen
    obtain ⟨x, hx, hle⟩ := exists_sq_dev_le_mean (average_of data) data hne
    have hW := sq_dev_about_nonneg (average_of data) data
    have hq := quarter_le_one_sub_u_pow data.length
      (le_trans hlen (by unfold INT_MAX; norm_num))
    have hk4 : (4 : ℚ) ≤ (k : ℚ) ^ 2 := by
      have : (2 : ℚ) ≤ (k : ℚ) := by exact_mod_cast hk2
      nlinarith
    have hin : inside_band data k x := by
      unfold inside_band
      refine le_trans hle ?_
      have h1 : (1 : ℚ) ≤ one_sub_u ^ (data.length + 10) * (k : ℚ) ^ 2 := by
        have hc0 := (one_sub_u_pow_pos (data.length + 10)).le
        calc (1 : ℚ) = 1 / 4 * 4 := by norm_num
          _ ≤ one_sub_u ^ (data.length + 10) * (k : ℚ) ^ 2 :=
            mul_le_mul hq hk4 (by norm_num) hc0
      calc sq_dev_about (average_of data) data
          = 1 * sq_dev_about (average_of data) data := (one_mul _).symm
        _ ≤ one_sub_u ^ (data.length + 10) * (k : ℚ) ^ 2
              * sq_dev_about (average_of data) data := mul_le_mul_of_nonneg_right h1 hW
        _ = _ := by ring
    exact ⟨(hmargin x hx hin).1, (hmargin x hx hin).2.1⟩
  · rintro ⟨x, hx, h⟩
    exact ⟨(hmargin x hx h).1, (hmargin x hx h).2.1⟩
  · intro μ s hex hfit
    obtain ⟨_, hV⟩ := exact_stats_int data μ s hne hex
    have hs0 : (0 : ℤ) ≤ (s : ℤ) := Int.natCast_nonneg s
    have hsk : (s : ℤ) ≤ k * (s : ℤ) := by nlinarith
    have hkeep : ∀ x ∈ data, (μ : ℤ) - (s : ℤ) ≤ (x : ℤ) → (x : ℤ) ≤ (μ : ℤ) + (s : ℤ) →
        strip_keeps pow2 data k x := by
      intro x hx h1 h2
      rw [strip_keeps_exact pow2 hpow data μ s k hne hex hk hfit x hx]
      constructor <;> linarith
    obtain ⟨x, hx, hle⟩ := exists_sq_dev_le data μ s hne hV
    have hb := band_of_sq_dev_le μ x (s : ℤ) hs0 (by exact_mod_cast hle)
    have hp := strip_std_dev_pos_of_keeps pow2 data k x hx (hkeep x hx hb.1 hb.2)
    exact ⟨hp.1, hp.2.1, fun y hy h1 h2 =>
      (strip_std_dev_pos_of_keeps pow2 data k y hy (hkeep y hy h1 h2)).2.2⟩

/-- The amended statement at the samples `100, 102, 101, 99, 100, 100000`
with two standard deviations and at `100, 102, 101, 99, 100` with one
standard deviation (the sample `100` lies inside the band), both with the
correctly rounded square. -/
theorem strip_std_dev_keeps_one_witness :
    (1 ≤ (strip_std_dev (fsq DBL_MANT_DIG) [100, 102, 101, 99, 100, 100000] 2).1 ∧
        (strip_std_dev (fsq DBL_MANT_DIG) [100, 102, 101, 99, 100, 100000] 2).2 ≠ []) ∧
      inside_band [100, 102, 101, 99, 100] 1 100 ∧
      (1 ≤ (strip_std_dev (fsq DBL_MANT_DIG) [100, 102, 101, 99, 100] 1).1 ∧
        (strip_std_dev (fsq DBL_MANT_DIG) [100, 102, 101, 99, 100] 1).2 ≠ []) ∧
      inside_exact_band [100, 102, 101, 99, 100] 1 101 ∧
      101 ∈ (strip_std_dev (fsq DBL_MANT_DIG) [100, 102, 101, 99, 100] 1).2 :=
  ⟨(strip_std_dev_keeps_one (fsq DBL_MANT_DIG) fsq_faithful
      [100, 102, 101, 99, 100, 100000] 2 (by decide) (by decide)).1 (by decide) (by decide),
    by decide!,
    (strip_std_dev_keeps_one (fsq DBL_MANT_DIG) fsq_faithful
      [100, 102, 101, 99, 100] 1 (by decide) (by decide)).2.1 ⟨100, by decide, by decide!⟩,
    by decide!,
    ((strip_std_dev_keeps_one (fsq DBL_MANT_DIG) fsq_faithful
      [100, 102, 101, 99, 100] 1 (by decide) (by decide)).2.2.2.1 (by decide) 101 (by decide)
      (by decide!)).2⟩

/-- The rounding factor of a band of at most `2 ^ 26` samples times `n + 1` is
at least `n`. -/
theorem le_one_sub_u_pow_mul (n : ℕ) (hn : n ≤ 2 ^ 26) :
    (n : ℚ) ≤ one_sub_u ^ (n + 10) * ((n : ℚ) + 1) := by
  have hb := one_sub_le_one_sub_u_pow (n + 10)
  have hn0 : (0 : ℚ) ≤ (n : ℚ) := Nat.cast_nonneg n
  have hnq : (n : ℚ) ≤ 2 ^ 26 := by exact_mod_cast hn
  have h1 : ((n : ℚ) + 10) * ((n : ℚ) + 1) ≤ (2 ^ 26 + 10) * (2 ^ 26 + 1) :=
    mul_le_mul (by linarith) (by linarith) (by linarith) (by norm_num)
  have h2 : ((2 : ℚ) ^ 26 + 10) * (2 ^ 26 + 1) ≤ 2 ^ 53 := by norm_num
  have h3 : ((n : ℚ) + 10) * ((n : ℚ) + 1) / 2 ^ 53 ≤ 1 := by
    rw [div_le_one (by positivity)]; linarith
  have h4 : (1 - ((n + 10 : ℕ) : ℚ) / 2 ^ 53) * ((n : ℚ) + 1)
      ≤ one_sub_u ^ (n + 10) * ((n : ℚ) + 1) :=
    mul_le_mul_of_nonneg_right hb (by linarith)
  have h5 : (1 - ((n + 10 : ℕ) : ℚ) / 2 ^ 53) * ((n : ℚ) + 1)
      = (n : ℚ) + 1 - ((n : ℚ) + 10) * ((n : ℚ) + 1) / 2 ^ 53 := by
    push_cast; ring
  linarith

/-- C18, counterexample. For the five samples `115090755, 0, 0, 0, 0` and
`num_std_dev = 2` (so `2 * 2 ≥ 5 - 1`) the mean is `23018151`, the standard
deviation `46036302` and the first sample is exactly the upper bound
`23018151 + 2 * 46036302`; the squared deviations are exact for every faithful
`pow (x, 2)`, their `double` sum is not, the bound comes out below the sample
and the sample is removed. -/
theorem strip_std_dev_removes_at_samuelson_bound :
    (([115090755, 0, 0, 0, 0] : List ℕ).length : ℤ) - 1 ≤ 2 * 2 ∧
    mean [115090755, 0, 0, 0, 0] = 23018151 ∧
    IsPopStdDev [115090755, 0, 0, 0, 0] 46036302 ∧
    ((115090755 : ℕ) : ℚ) = 23018151 + 2 * 46036302 ∧
    (∀ pow2 : ℚ → ℚ, pow_faithful pow2 →
      strip_std_dev pow2 [115090755, 0, 0, 0, 0] 2 = (4, [0, 0, 0, 0])) := by
  refine ⟨by decide, by decide!, by unfold IsPopStdDev; decide!, by norm_num,
    fun pow2 hpow => (strip_std_dev_eq_fsq hpow _ _ (by decide!)).trans (by decide!)⟩

/-- C18, amended. For every faithful `pow`, every non-empty input of `n`
samples and every `num_std_dev = k ≥ 1`: when `k * k ≥ n + 1` and
`n ≤ 2 ^ 26`, `strip_std_dev` removes nothing (it returns `n` and the input, in
order); for any `k ≥ 1` it removes nothing when every sample lies inside the
band by the rounding margin `inside_band`, in particular, when the samples add
up to at most `2 ^ 53`, when every sample lies within `k` population standard
deviations of the mean by the margin `inside_exact_band`; and when the mean `μ` and the
population standard deviation `s` are integers and the arithmetic is exact
(`exact_stats`, `μ + k * s < 2 ^ 53`) it removes nothing as soon as
`k * k ≥ n - 1`. -/
theorem strip_std_dev_keeps_all (pow2 : ℚ → ℚ) (hpow : pow_faithful pow2) (data : List ℕ)
    (k : ℤ) (hne : data ≠ []) (hk : 1 ≤ k) :
    ((data.length : ℤ) + 1 ≤ k * k → data.length ≤ 2 ^ 26 →
        strip_std_dev pow2 data k = (data.length, data)) ∧
      ((∀ x ∈ data, inside_band data k x) →
        strip_std_dev pow2 data k = (data.length, data)) ∧
      (data.sum ≤ 2 ^ 53 → (∀ x ∈ data, inside_exact_band data k x) →
        strip_std_dev pow2 data k = (data.length, data)) ∧
      (∀ μ s : ℕ, exact_stats data μ s → (μ : ℤ) + k * (s : ℤ) < 2 ^ 53 →
        (data.length : ℤ) - 1 ≤ k * k →
        strip_std_dev pow2 data k = (data.length, data)) := by
  have hmargin : (∀ x ∈ data, inside_band data k x) →
      strip_std_dev pow2 data k = (data.length, data) := fun h =>
    strip_std_dev_all_of_keeps pow2 data k
      (fun x hx => strip_keeps_of_margin hpow data k (by omega) x hne (h x hx))
  refine ⟨?_, hmargin,
    fun hs h => hmargin (fun x hx => inside_band_of_exact data hs k x hx (h x hx)), ?_⟩
  · intro hkn hlen
    apply hmargin
    intro x hx
    have hW := sq_dev_about_nonneg (average_of data) data
    have hle := sq_dev_le_sq_dev_about (average_of data) data x hx
    have hn0 : (0 : ℚ) ≤ (data.length : ℚ) := Nat.cast_nonneg _
    have hkq : (data.length : ℚ) + 1 ≤ (k : ℚ) ^ 2 := by
      have : (((data.length : ℤ) + 1 : ℤ) : ℚ) ≤ ((k * k : ℤ) : ℚ) := by exact_mod_cast hkn
      push_cast at this
      rw [pow_two]; exact this
    have hc0 := (one_sub_u_pow_pos (data.length + 10)).le
    have h1 := le_one_sub_u_pow_mul data.length hlen
    have h2 : (data.length : ℚ) ≤ one_sub_u ^ (data.length + 10) * (k : ℚ) ^ 2 :=
      le_trans h1 (mul_le_mul_of_nonneg_left hkq hc0)
    unfold inside_band
    calc (data.length : ℚ) * (ofUInt DBL_MANT_DIG x - average_of data) ^ 2
        ≤ (data.length : ℚ) * sq_dev_about (average_of data) data :=
          mul_le_mul_of_nonneg_left hle hn0
      _ ≤ one_sub_u ^ (data.length + 10) * (k : ℚ) ^ 2
            * sq_dev_about (average_of data) data := mul_le_mul_of_nonneg_right h2 hW
      _ = _ := by ring
  · intro μ s hex hfit hkn
    obtain ⟨hS, hV⟩ := exact_stats_int data μ s hne hex
    have hs0 : (0 : ℤ) ≤ (s : ℤ) := Int.natCast_nonneg s
    apply strip_std_dev_all_of_keeps
    intro x hx
    rw [strip_keeps_exact pow2 hpow data μ s k hne hex hk hfit x hx]
    have hsam := sq_dev_le_samuelson data μ s hS hV x hx
    have hss : (0 : ℤ) ≤ (s : ℤ) * (s : ℤ) := mul_self_nonneg _
    have hle : ((sq_dev μ x : ℕ) : ℤ) ≤ (k * (s : ℤ)) * (k * (s : ℤ)) := by
      have : ((data.length : ℤ) - 1) * ((s : ℤ) * (s : ℤ)) ≤ (k * k) * ((s : ℤ) * (s : ℤ)) :=
        mul_le_mul_of_nonneg_right hkn hss
      nlinarith
    exact band_of_sq_dev_le μ x (k * (s : ℤ)) (mul_nonneg (by omega) hs0) hle

/-- The amended statement at the samples `100, 102, 101, 99, 100, 100000` with
three standard deviations (`3 * 3 ≥ 6 + 1`), at `100, 102, 101, 99, 100` with
two (`2 * 2 = 5 - 1`, every sample within the exact band by the margin) and at
`2, 4, 4, 4, 5, 5, 7, 9` (mean 5, standard deviation 2, `3 * 3 ≥ 8 - 1`), all
with the correctly rounded square: nothing is removed. -/
theorem strip_std_dev_keeps_all_witness :
    strip_std_dev (fsq DBL_MANT_DIG) [100, 102, 101, 99, 100, 100000] 3
        = (([100, 102, 101, 99, 100, 100000] : List ℕ).length,
            [100, 102, 101, 99, 100, 100000]) ∧
      strip_std_dev (fsq DBL_MANT_DIG) [100, 102, 101, 99, 100] 2
        = (([100, 102, 101, 99, 100] : List ℕ).length, [100, 102, 101, 99, 100]) ∧
      strip_std_dev (fsq DBL_MANT_DIG) [2, 4, 4, 4, 5, 5, 7, 9] 3
        = (([2, 4, 4, 4, 5, 5, 7, 9] : List ℕ).length, [2, 4, 4, 4, 5, 5, 7, 9]) :=
  ⟨(strip_std_dev_keeps_all (fsq DBL_MANT_DIG) fsq_faithful
      [100, 102, 101, 99, 100, 100000] 3 (by decide) (by decide)).1 (by decide) (by decide),
    (strip_std_dev_keeps_all (fsq DBL_MANT_DIG) fsq_faithful
      [100, 102, 101, 99, 100] 2 (by decide) (by decide)).2.2.1 (by decide) (by decide!),
    (strip_std_dev_keeps_all (fsq DBL_MANT_DIG) fsq_faithful
      [2, 4, 4, 4, 5, 5, 7, 9] 3 (by decide) (by decide)).2.2.2 5 2
      (by unfold exact_stats; decide!) (by decide) (by decide)⟩
end Microwork
